import Mathlib

/-!
# pnm++ : a shallow embedding of `pnm.hpp`

The header-only library reads and writes PBM / PGM / PPM images.  This file
embeds the parts of it that deal with byte streams (the `std::istream`
operations the decoders rely on), the image container, the gain strategy,
the six decoders and the six encoders, and proves properties of them.

Conventions.

* A byte is a `Nat` below 256; a file is a `List Nat`.
* `std::size_t` is a `Nat` reduced modulo `2 ^ 64` where the source can wrap.
* A decoder returns `Option (Except PnmError _)`: `none` means that the
  loop budget (`fuel`) was exhausted, `some (.error e)` that the C++ code
  throws, `some (.ok img)` that it returns `img`.
* Unchecked stores outside the pixel buffer are undefined behaviour in C++;
  the embedding stops at the first such store with `PnmError.undefined_store`.
* The pixel buffer is a `std::vector`, whose construction throws when the
  count exceeds `max_size()` or the allocator fails.  `Image.construct` and
  the decoders `read_*_ascii_alloc` take the allocator as a parameter and
  return these exceptions; `Image.mk_sized` and the decoders without that
  parameter describe the run in which the construction does not throw.
-/

namespace Pnm

/-! ## Byte streams (`std::ifstream`, `std::istringstream`) -/

/-- State of a `std::istream` over an in-memory byte sequence: the unread
bytes and the `eofbit` / `failbit` flags (`badbit` is never raised by the
operations the library uses). -/
structure IStream where
  buf : List Nat
  eofbit : Bool
  failbit : Bool
deriving DecidableEq, Repr

/-- A freshly opened stream over `bytes`. -/
def IStream.ofBytes (bytes : List Nat) : IStream := ⟨bytes, false, false⟩

/-- The C++ `good()`: no flag is set. -/
def IStream.good (s : IStream) : Bool := !s.eofbit && !s.failbit

/-- The C++ `eof()`. -/
def IStream.eof (s : IStream) : Bool := s.eofbit

/-- The C++ `fail()`. -/
def IStream.fail (s : IStream) : Bool := s.failbit

/-- The C function `std::isspace` in the "C" locale: space, `\t`, `\n`, `\v`, `\f`, `\r`. -/
def isspace (c : Nat) : Bool := c == 32 || (9 ≤ c && c ≤ 13)

/-- The C function `std::isdigit`. -/
def isdigit (c : Nat) : Bool := 48 ≤ c && c ≤ 57

/-- Unformatted `is.read(p, n)`: returns the bytes actually extracted.  When
the stream is not `good()` nothing is extracted and `failbit` is set; when
fewer than `n` bytes are left they are all extracted and `eofbit | failbit`
is set. -/
def IStream.read (s : IStream) (n : Nat) : IStream × List Nat :=
  if !s.good then (⟨s.buf, s.eofbit, true⟩, [])
  else if n ≤ s.buf.length then (⟨s.buf.drop n, false, false⟩, s.buf.take n)
  else (⟨[], true, true⟩, s.buf)

/-- The pattern `std::uint8_t v(0); ifs.read(&v, 1);` : the byte read, or the
initial `0` when nothing could be extracted. -/
def IStream.read_byte (s : IStream) : IStream × Nat :=
  ((s.read 1).1, (s.read 1).2.headD 0)

/-- The call `std::getline(is, line)` into a fresh string: extracts up to and
including the next `'\n'` (byte 10), which is dropped.  Reaching the end of
the data sets `eofbit`; extracting nothing at all sets `failbit`. -/
def IStream.getline (s : IStream) : IStream × List Nat :=
  if !s.good then (⟨s.buf, s.eofbit, true⟩, [])
  else
    match s.buf.dropWhile (fun c => c != 10) with
    | [] => (⟨[], true, s.buf.isEmpty⟩, s.buf)
    | _ :: rest => (⟨rest, false, false⟩, s.buf.takeWhile (fun c => c != 10))

/-- The `sentry` of a formatted extraction (`skipws` set): fails and sets
`failbit` when the stream is not `good()`; otherwise skips white space, and
fails with `eofbit | failbit` when only white space was left. -/
def IStream.sentry (s : IStream) : IStream × Bool :=
  if !s.good then (⟨s.buf, s.eofbit, true⟩, false)
  else
    match s.buf.dropWhile isspace with
    | [] => (⟨[], true, true⟩, false)
    | c :: rest => (⟨c :: rest, false, false⟩, true)

/-- Value of a run of decimal digit characters. -/
def digitsValue (ds : List Nat) : Nat := ds.foldl (fun a c => a * 10 + (c - 48)) 0

/-- Stage 2 of `num_get` for a decimal integer: an optional sign (`-` is 45,
`+` is 43) followed by the longest run of digits.  Returns the sign, the
digits and the unread remainder. -/
def scanInt (buf : List Nat) : Bool × List Nat × List Nat :=
  match buf with
  | 45 :: t => (true, t.takeWhile isdigit, t.dropWhile isdigit)
  | 43 :: t => (false, t.takeWhile isdigit, t.dropWhile isdigit)
  | _ => (false, buf.takeWhile isdigit, buf.dropWhile isdigit)

/-- Formatted extraction `is >> v` for `std::size_t v` (decimal base).  `old`
is the previous content of `v`, kept when the sentry fails.  Without digits
the value is 0 and `failbit` is set; a value above `2^64 - 1` gives
`2^64 - 1` and `failbit`; a leading `-` negates modulo `2^64`.  `eofbit` is
set when the scan ran into the end of the data. -/
def IStream.extract_size_t (s : IStream) (old : Nat) : IStream × Nat :=
  match s.sentry with
  | (s1, false) => (s1, old)
  | (s1, true) =>
    match scanInt s1.buf with
    | (neg, ds, rest) =>
      if ds.isEmpty then (⟨rest, rest.isEmpty, true⟩, 0)
      else if 2 ^ 64 - 1 < digitsValue ds then (⟨rest, rest.isEmpty, true⟩, 2 ^ 64 - 1)
      else (⟨rest, rest.isEmpty, false⟩,
            if neg then (2 ^ 64 - digitsValue ds) % 2 ^ 64 else digitsValue ds)

/-- Formatted extraction `is >> v` for `int v`: the text is converted as a
`long` (saturating, with `failbit`, outside `[-2^63, 2^63-1]`) and then
narrowed to `int` (saturating, with `failbit`, outside `[-2^31, 2^31-1]`). -/
def IStream.extract_int (s : IStream) (old : Int) : IStream × Int :=
  match s.sentry with
  | (s1, false) => (s1, old)
  | (s1, true) =>
    match scanInt s1.buf with
    | (neg, ds, rest) =>
      if ds.isEmpty then (⟨rest, rest.isEmpty, true⟩, 0)
      else
        let v : Int := digitsValue ds
        let l : Int := if neg then (if 2 ^ 63 < v then -(2 ^ 63) else -v)
                       else (if 2 ^ 63 - 1 < v then 2 ^ 63 - 1 else v)
        let ovf : Bool := if neg then decide (2 ^ 63 < v) else decide (2 ^ 63 - 1 < v)
        if l < -(2 ^ 31) then (⟨rest, rest.isEmpty, true⟩, -(2 ^ 31))
        else if 2 ^ 31 - 1 < l then (⟨rest, rest.isEmpty, true⟩, 2 ^ 31 - 1)
        else (⟨rest, rest.isEmpty, ovf⟩, l)

/-- Formatted extraction `is >> str` for `std::string str`: `old` is kept
when the sentry fails, otherwise the longest run of non-space bytes is
extracted. -/
def IStream.extract_string (s : IStream) (old : List Nat) : IStream × List Nat :=
  match s.sentry with
  | (s1, false) => (s1, old)
  | (s1, true) =>
    (⟨s1.buf.dropWhile (fun c => !isspace c),
      (s1.buf.dropWhile (fun c => !isspace c)).isEmpty,
      (s1.buf.takeWhile (fun c => !isspace c)).isEmpty⟩,
     s1.buf.takeWhile (fun c => !isspace c))

/-- The statement `line.erase(std::find(line.begin(), line.end(), '#'), line.end())`
(`'#'` is byte 35). -/
def erase_comment (line : List Nat) : List Nat := line.takeWhile (fun c => c != 35)

/-- Decimal digits of `n`, most significant first, as produced by `os << n`;
`fuel` bounds the number of digits. -/
def put_digits : Nat → Nat → List Nat → List Nat
  | 0, _, acc => acc
  | fuel + 1, n, acc =>
    if n / 10 = 0 then (48 + n % 10) :: acc
    else put_digits fuel (n / 10) ((48 + n % 10) :: acc)

/-- The text written by `os << n` for an unsigned integer `n`. -/
def put_nat (n : Nat) : List Nat := put_digits (n + 1) n []

/-! ## Pixels and images -/

/-- The C++ `bit_pixel = basic_pixel<bool, 1>`. -/
structure bit_pixel where
  value : Bool
deriving DecidableEq, Repr

/-- The C++ `gray_pixel = basic_pixel<std::uint8_t, 1>`. -/
structure gray_pixel where
  value : Nat
deriving DecidableEq, Repr

/-- The C++ `rgb_pixel = basic_pixel<std::uint8_t, 3>`. -/
structure rgb_pixel where
  red : Nat
  green : Nat
  blue : Nat
deriving DecidableEq, Repr

instance : Inhabited bit_pixel := ⟨⟨false⟩⟩
instance : Inhabited gray_pixel := ⟨⟨0⟩⟩
instance : Inhabited rgb_pixel := ⟨⟨0, 0, 0⟩⟩

/-- The C++ `pnm::image<Pixel>`: the two sizes and the flat pixel buffer. -/
structure Image (P : Type) where
  nx : Nat
  ny : Nat
  pixels : List P
deriving DecidableEq, Repr

/-- Errors: one constructor per `throw` site kind of the library, plus
`undefined_store`, which marks an unchecked store outside the buffer. -/
inductive PnmError where
  | bad_magic (seen : List Nat)
  | invalid_token (token : List Nat)
  | bad_size_line (line : List Nat)
  | bad_max_line (line : List Nat)
  | too_many_pixels (idx x y : Nat)
  | undefined_store (idx size : Nat)
deriving DecidableEq, Repr

/-- Decidable equality of results, for evaluating the decoders on concrete files. -/
instance instDecidableEqExcept {ε α : Type} [DecidableEq ε] [DecidableEq α] :
    DecidableEq (Except ε α)
  | .ok a, .ok b =>
    if h : a = b then isTrue (by rw [h]) else isFalse (fun h1 => h (Except.ok.inj h1))
  | .error a, .error b =>
    if h : a = b then isTrue (by rw [h]) else isFalse (fun h1 => h (Except.error.inj h1))
  | .ok _, .error _ => isFalse (fun h => Except.noConfusion h)
  | .error _, .ok _ => isFalse (fun h => Except.noConfusion h)

/-- The image that the sized constructor `image(width, height)` builds when
the construction of its buffer does not throw: `width * height` (a `size_t`
product) value-initialised pixels.  `Image.construct` is the constructor with
the exceptions of that construction. -/
def Image.mk_sized {P : Type} [Inhabited P] (width height : Nat) : Image P :=
  ⟨width, height, List.replicate ((width * height) % 2 ^ 64) default⟩

/-- The C++ `size()`. -/
def Image.size {P : Type} (img : Image P) : Nat := img.pixels.length

/-- Flat offset `ix + iy * nx_` used by `operator()(ix, iy)`, in `size_t` arithmetic. -/
def Image.offset {P : Type} (img : Image P) (ix iy : Nat) : Nat :=
  (ix + iy * img.nx) % 2 ^ 64

/-- Unchecked read `pixels_[i]` (`raw_access` on a const image). -/
def Image.raw_access {P : Type} [Inhabited P] (img : Image P) (i : Nat) : P :=
  img.pixels.getD i default

/-- Unchecked read `img(ix, iy)`. -/
def Image.get {P : Type} [Inhabited P] (img : Image P) (ix iy : Nat) : P :=
  img.raw_access (img.offset ix iy)

/-- Unchecked store `raw_access(i) = p`. -/
def Image.raw_store {P : Type} (img : Image P) (i : Nat) (p : P) : Except PnmError (Image P) :=
  if i < img.pixels.length then .ok ⟨img.nx, img.ny, img.pixels.set i p⟩
  else .error (.undefined_store i img.pixels.length)

/-- Unchecked store `img(ix, iy) = p`. -/
def Image.store {P : Type} (img : Image P) (ix iy : Nat) (p : P) : Except PnmError (Image P) :=
  img.raw_store (img.offset ix iy) p

/-- The invariant of the container: the buffer holds `nx * ny` pixels, which
is a representable `size_t`. -/
def Image.wf {P : Type} (img : Image P) : Prop :=
  img.pixels.length = img.nx * img.ny ∧ img.nx < 2 ^ 64 ∧ img.ny < 2 ^ 64 ∧
    img.nx * img.ny < 2 ^ 64

/-- A counted loop `for (i = start; remaining iterations; ++i) body`. -/
def for_loop {σ : Type} (body : Nat → σ → Except PnmError σ) :
    Nat → Nat → σ → Except PnmError σ
  | 0, _, s => .ok s
  | n + 1, i, s =>
    match body i s with
    | .error e => .error e
    | .ok s1 => for_loop body n (i + 1) s1

/-! ## Gain strategy (`detail::get_gain`)

`reduce` computes in `double`.  A finite non-negative binary64 value is
represented exactly as `m * 2 ^ e`; every operation rounds the exact
rational result to the nearest 53-bit significand, ties to even.  All values
that arise from `size_t` operands lie in the normal range, so neither
subnormals nor overflow need a model. -/

/-- A finite non-negative `double`, `m * 2 ^ e`. -/
structure Dbl where
  m : Nat
  e : Int
deriving DecidableEq, Repr

/-- Quotient `p / q` rounded to the nearest integer, ties to even. -/
def round_half_even (p q : Nat) : Nat :=
  if 2 * (p % q) < q then p / q
  else if q < 2 * (p % q) then p / q + 1
  else if (p / q) % 2 = 0 then p / q else p / q + 1

/-- Auxiliary for `ilog2`, with a counter bounding the number of halvings. -/
def ilog2_aux : Nat → Nat → Nat
  | 0, _ => 0
  | fuel + 1, n => if 2 ≤ n then ilog2_aux fuel (n / 2) + 1 else 0

/-- Position of the highest set bit: `floor (log2 n)` for `n > 0`. -/
def ilog2 (n : Nat) : Nat := ilog2_aux n n

/-- The `double` nearest to the rational `p / q` (`q > 0`), ties to even. -/
def Dbl.round (p q : Nat) : Dbl :=
  if p = 0 then ⟨0, 0⟩
  else
    let e0 : Int := (ilog2 p : Int) - (ilog2 q : Int) - 52
    let e : Int :=
      if p * 2 ^ (-e0).toNat < 2 ^ 52 * (q * 2 ^ e0.toNat) then e0 - 1 else e0
    ⟨round_half_even (p * 2 ^ (-e).toNat) (q * 2 ^ e.toNat), e⟩

/-- Numerator of the exact value of a `Dbl` over the denominator `Dbl.den`. -/
def Dbl.num (a : Dbl) : Nat := a.m * 2 ^ a.e.toNat

/-- Denominator of the exact value of a `Dbl`. -/
def Dbl.den (a : Dbl) : Nat := 2 ^ (-a.e).toNat

/-- Conversion `static_cast<double>(n)` of an unsigned integer. -/
def Dbl.ofNat (n : Nat) : Dbl := Dbl.round n 1

/-- Addition of doubles. -/
def Dbl.add (a b : Dbl) : Dbl := Dbl.round (a.num * b.den + b.num * a.den) (a.den * b.den)

/-- Multiplication of doubles. -/
def Dbl.mul (a b : Dbl) : Dbl := Dbl.round (a.num * b.num) (a.den * b.den)

/-- Division of doubles (`b` non-zero). -/
def Dbl.div (a b : Dbl) : Dbl := Dbl.round (a.num * b.den) (a.den * b.num)

/-- Truncation toward zero, the integer part used by `static_cast<std::uint8_t>`. -/
def Dbl.trunc (a : Dbl) : Nat := a.num / a.den

/-- The three gain strategies (`identity`, `enlarge`, `reduce`) with their
stored ratio. -/
inductive gain where
  | identity
  | enlarge (ratio : Nat)
  | reduce (ratio : Dbl)
deriving DecidableEq, Repr

/-- The constructor `enlarge(const std::uint8_t max)`: `ratio(256 / (max+1))`. -/
def enlarge_ratio (max : Nat) : Nat := 256 / (max % 256 + 1)

/-- The constructor `reduce(const std::size_t max)`: `ratio(256.0 / (max+1.0))`. -/
def reduce_ratio (max : Nat) : Dbl :=
  Dbl.div (Dbl.ofNat 256) (Dbl.add (Dbl.ofNat max) (Dbl.ofNat 1))

/-- The function `detail::get_gain`. -/
def get_gain (max : Nat) : gain :=
  if max = 255 then gain.identity
  else if 255 < max then gain.reduce (reduce_ratio max)
  else gain.enlarge (enlarge_ratio max)

/-- The virtual call `gain->invoke(x)` for a `size_t` sample `x`; the result is
a `std::uint8_t`.  For `reduce` the product is truncated toward zero and the
conversion keeps the low 8 bits. -/
def gain.invoke (g : gain) (x : Nat) : Nat :=
  match g with
  | gain.identity => x % 256
  | gain.enlarge ratio => ((x * ratio) % 2 ^ 64) % 256
  | gain.reduce ratio => (Dbl.mul (Dbl.ofNat x) ratio).trunc % 256

/-! ## Decoders

The three ASCII decoders each contain the same two nested loops twice (once
for the header, once for the pixels):

```
while(!ifs.eof()) {
    std::getline(ifs, line); erase comment; if(line.empty()){continue;}
    std::istringstream iss(line);
    while(!iss.eof()) {
        iss >> v;
        if(iss.fail()) { std::string dummy; iss >> dummy; if(!all_of(dummy, isspace)) throw ...; }
        else { BODY }
    }
    if(DONE) {break;}        // header loops only
}
```

`token_loop` is the inner loop and `line_loop` the outer one, with the
extraction, `BODY` and `DONE` as parameters. -/

/-- The inner loop over the tokens of one line. -/
def token_loop {α σ : Type} (extract : IStream → IStream × α)
    (body : σ → α → Except PnmError σ) :
    Nat → IStream → σ → Option (Except PnmError σ)
  | 0, _, _ => none
  | fuel + 1, iss, st =>
    if iss.eof then some (.ok st)
    else
      match extract iss with
      | (iss1, v) =>
        if iss1.fail then
          match iss1.extract_string [] with
          | (iss2, dummy) =>
            if !dummy.all isspace then some (.error (.invalid_token dummy))
            else token_loop extract body fuel iss2 st
        else
          match body st v with
          | .error e => some (.error e)
          | .ok st1 => token_loop extract body fuel iss1 st1

/-- The outer loop over the lines of the file; `tokfuel` is the budget of each
inner loop. -/
def line_loop {α σ : Type} (extract : IStream → IStream × α)
    (body : σ → α → Except PnmError σ) (done : σ → Bool) (tokfuel : Nat) :
    Nat → IStream → σ → Option (Except PnmError (IStream × σ))
  | 0, _, _ => none
  | fuel + 1, ifs, st =>
    if ifs.eof then some (.ok (ifs, st))
    else
      match ifs.getline with
      | (ifs1, line) =>
        if (erase_comment line).isEmpty then line_loop extract body done tokfuel fuel ifs1 st
        else
          match token_loop extract body tokfuel (IStream.ofBytes (erase_comment line)) st with
          | none => none
          | some (.error e) => some (.error e)
          | some (.ok st1) =>
            if done st1 then some (.ok (ifs1, st1))
            else line_loop extract body done tokfuel fuel ifs1 st1

/-- Local variables `x_read, y_read, x, y` of the header loop of `read_pbm_ascii`. -/
structure size_header where
  x_read : Bool
  y_read : Bool
  x : Nat
  y : Nat
deriving DecidableEq, Repr

/-- The else-branch of the PBM header loop: the first field not yet read takes `tmp`. -/
def size_header.assign (h : size_header) (tmp : Nat) : size_header :=
  if !h.x_read then ⟨true, h.y_read, tmp, h.y⟩
  else if !h.y_read then ⟨h.x_read, true, h.x, tmp⟩
  else h

/-- Local variables `x_read, y_read, max_read, x, y, max` of the header loop of
`read_pgm_ascii` and `read_ppm_ascii`. -/
structure header where
  x_read : Bool
  y_read : Bool
  max_read : Bool
  x : Nat
  y : Nat
  max : Nat
deriving DecidableEq, Repr

/-- The else-branch of the PGM / PPM header loop. -/
def header.assign (h : header) (tmp : Nat) : header :=
  if !h.x_read then ⟨true, h.y_read, h.max_read, tmp, h.y, h.max⟩
  else if !h.y_read then ⟨h.x_read, true, h.max_read, h.x, tmp, h.max⟩
  else if !h.max_read then ⟨h.x_read, h.y_read, true, h.x, h.y, tmp⟩
  else h

/-- The two leading bytes `desc[0], desc[1]` after `char desc[2] = {0, 0}; ifs.read(desc, 2);`. -/
def read_magic (file : List Nat) : IStream × Nat × Nat :=
  (((IStream.ofBytes file).read 2).1,
   ((IStream.ofBytes file).read 2).2.getD 0 0,
   ((IStream.ofBytes file).read 2).2.getD 1 0)

/-- Body of the pixel loop of `read_pbm_ascii`; the state is `(img, idx)`. -/
def pbm_pixel_body (x y : Nat) (st : Image bit_pixel × Nat) (pix : Int) :
    Except PnmError (Image bit_pixel × Nat) :=
  if (x * y) % 2 ^ 64 ≤ st.2 then .error (.too_many_pixels st.2 x y)
  else
    match st.1.raw_store st.2 ⟨pix != 0⟩ with
    | .error e => .error e
    | .ok img => .ok (img, st.2 + 1)

/-- The function `read_pbm_ascii`, on the content of the file. -/
def read_pbm_ascii (fuel : Nat) (file : List Nat) : Option (Except PnmError (Image bit_pixel)) :=
  match read_magic file with
  | (ifs, d0, d1) =>
    if !(d0 == 80 && d1 == 49) then some (.error (.bad_magic [d0, d1]))
    else
      match line_loop (fun s => s.extract_size_t 0) (fun h tmp => .ok (size_header.assign h tmp))
          (fun h => h.x_read && h.y_read) fuel fuel ifs ⟨false, false, 0, 0⟩ with
      | none => none
      | some (.error e) => some (.error e)
      | some (.ok (ifs1, h)) =>
        match line_loop (fun s => s.extract_int 0) (pbm_pixel_body h.x h.y) (fun _ => false)
            fuel fuel ifs1 (Image.mk_sized h.x h.y, 0) with
        | none => none
        | some (.error e) => some (.error e)
        | some (.ok (_, st)) => some (.ok st.1)

/-- Body of the pixel loop of `read_pgm_ascii`; the state is `(img, idx)`. -/
def pgm_pixel_body (g : gain) (x y : Nat) (st : Image gray_pixel × Nat) (pix : Nat) :
    Except PnmError (Image gray_pixel × Nat) :=
  if (x * y) % 2 ^ 64 ≤ st.2 then .error (.too_many_pixels st.2 x y)
  else
    match st.1.raw_store st.2 ⟨g.invoke pix⟩ with
    | .error e => .error e
    | .ok img => .ok (img, st.2 + 1)

/-- The function `read_pgm_ascii`, on the content of the file. -/
def read_pgm_ascii (fuel : Nat) (file : List Nat) : Option (Except PnmError (Image gray_pixel)) :=
  match read_magic file with
  | (ifs, d0, d1) =>
    if !(d0 == 80 && d1 == 50) then some (.error (.bad_magic [d0, d1]))
    else
      match line_loop (fun s => s.extract_size_t 0) (fun h tmp => .ok (header.assign h tmp))
          (fun h => h.x_read && h.y_read && h.max_read) fuel fuel ifs
          ⟨false, false, false, 0, 0, 0⟩ with
      | none => none
      | some (.error e) => some (.error e)
      | some (.ok (ifs1, h)) =>
        match line_loop (fun s => s.extract_size_t 0) (pgm_pixel_body (get_gain h.max) h.x h.y)
            (fun _ => false) fuel fuel ifs1 (Image.mk_sized h.x h.y, 0) with
        | none => none
        | some (.error e) => some (.error e)
        | some (.ok (_, st)) => some (.ok st.1)

/-- Local variables of the pixel loop of `read_ppm_ascii`. -/
structure ppm_state where
  img : Image rgb_pixel
  idx : Nat
  R_read : Bool
  G_read : Bool
  B_read : Bool
  pixel : rgb_pixel
deriving DecidableEq, Repr

/-- Body of the pixel loop of `read_ppm_ascii`. -/
def ppm_pixel_body (g : gain) (x y : Nat) (st : ppm_state) (pix : Nat) :
    Except PnmError ppm_state :=
  if !st.R_read then
    .ok ⟨st.img, st.idx, true, st.G_read, st.B_read, ⟨g.invoke pix, st.pixel.green, st.pixel.blue⟩⟩
  else if !st.G_read then
    .ok ⟨st.img, st.idx, st.R_read, true, st.B_read, ⟨st.pixel.red, g.invoke pix, st.pixel.blue⟩⟩
  else
    match (if !st.B_read then (⟨st.pixel.red, st.pixel.green, g.invoke pix⟩ : rgb_pixel)
           else st.pixel) with
    | pixel =>
      if (x * y) % 2 ^ 64 ≤ st.idx then .error (.too_many_pixels st.idx x y)
      else
        match st.img.raw_store st.idx pixel with
        | .error e => .error e
        | .ok img => .ok ⟨img, st.idx + 1, false, false, false, pixel⟩

/-- The function `read_ppm_ascii`, on the content of the file. -/
def read_ppm_ascii (fuel : Nat) (file : List Nat) : Option (Except PnmError (Image rgb_pixel)) :=
  match read_magic file with
  | (ifs, d0, d1) =>
    if !(d0 == 80 && d1 == 51) then some (.error (.bad_magic [d0, d1]))
    else
      match line_loop (fun s => s.extract_size_t 0) (fun h tmp => .ok (header.assign h tmp))
          (fun h => h.x_read && h.y_read && h.max_read) fuel fuel ifs
          ⟨false, false, false, 0, 0, 0⟩ with
      | none => none
      | some (.error e) => some (.error e)
      | some (.ok (ifs1, h)) =>
        match line_loop (fun s => s.extract_size_t 0) (ppm_pixel_body (get_gain h.max) h.x h.y)
            (fun _ => false) fuel fuel ifs1
            ⟨Image.mk_sized h.x h.y, 0, false, false, false, ⟨0, 0, 0⟩⟩ with
        | none => none
        | some (.error e) => some (.error e)
        | some (.ok (_, st)) => some (.ok st.img)

/-- The size line of a binary file: `std::getline(ifs, line); iss >> x >> y;`.
Returns the stream after the line, the line, `iss.fail()`, `x` and `y`. -/
def read_size_line (ifs : IStream) : IStream × List Nat × Bool × Nat × Nat :=
  (ifs.getline.1, ifs.getline.2,
   (((IStream.ofBytes ifs.getline.2).extract_size_t 0).1.extract_size_t 0).1.fail,
   ((IStream.ofBytes ifs.getline.2).extract_size_t 0).2,
   (((IStream.ofBytes ifs.getline.2).extract_size_t 0).1.extract_size_t 0).2)

/-- The max-value line of a binary file: `std::getline(ifs, line); iss >> max;`.
Returns the stream after the line, the line, `iss.fail()` and `max`. -/
def read_max_line (ifs : IStream) : IStream × List Nat × Bool × Nat :=
  (ifs.getline.1, ifs.getline.2,
   ((IStream.ofBytes ifs.getline.2).extract_size_t 0).1.fail,
   ((IStream.ofBytes ifs.getline.2).extract_size_t 0).2)

/-- Body of the loop `for(i=0; i<quot; ++i)` of `read_pbm_binary`: one byte,
eight pixels of row `j`. -/
def read_pbm_binary_full_byte (j i : Nat) (st : Image bit_pixel × IStream) :
    Except PnmError (Image bit_pixel × IStream) :=
  match st.2.read_byte with
  | (ifs1, v) => do
    let img ← st.1.store (i * 8 + 0) j ⟨v &&& 0x80 == 0x80⟩
    let img ← img.store (i * 8 + 1) j ⟨v &&& 0x40 == 0x40⟩
    let img ← img.store (i * 8 + 2) j ⟨v &&& 0x20 == 0x20⟩
    let img ← img.store (i * 8 + 3) j ⟨v &&& 0x10 == 0x10⟩
    let img ← img.store (i * 8 + 4) j ⟨v &&& 0x08 == 0x08⟩
    let img ← img.store (i * 8 + 5) j ⟨v &&& 0x04 == 0x04⟩
    let img ← img.store (i * 8 + 6) j ⟨v &&& 0x02 == 0x02⟩
    let img ← img.store (i * 8 + 7) j ⟨v &&& 0x01 == 0x01⟩
    pure (img, ifs1)

/-- The end of the row loop of `read_pbm_binary`: one more byte is read, then
`switch(rem)` falls through from `case rem` down to `case 1`. -/
def read_pbm_binary_last_byte (quot rem j : Nat) (st : Image bit_pixel × IStream) :
    Except PnmError (Image bit_pixel × IStream) :=
  match st.2.read_byte with
  | (ifs1, v) => do
    let img ← if rem = 7 then st.1.store (quot * 8 + 7) j ⟨v &&& 0x02 == 0x02⟩ else pure st.1
    let img ← if 6 ≤ rem ∧ rem ≤ 7 then img.store (quot * 8 + 6) j ⟨v &&& 0x04 == 0x04⟩ else pure img
    let img ← if 5 ≤ rem ∧ rem ≤ 7 then img.store (quot * 8 + 5) j ⟨v &&& 0x08 == 0x08⟩ else pure img
    let img ← if 4 ≤ rem ∧ rem ≤ 7 then img.store (quot * 8 + 4) j ⟨v &&& 0x10 == 0x10⟩ else pure img
    let img ← if 3 ≤ rem ∧ rem ≤ 7 then img.store (quot * 8 + 3) j ⟨v &&& 0x20 == 0x20⟩ else pure img
    let img ← if 2 ≤ rem ∧ rem ≤ 7 then img.store (quot * 8 + 2) j ⟨v &&& 0x40 == 0x40⟩ else pure img
    let img ← if 1 ≤ rem ∧ rem ≤ 7 then img.store (quot * 8 + 1) j ⟨v &&& 0x80 == 0x80⟩ else pure img
    pure (img, ifs1)

/-- Body of the loop `for(j=0; j<y; ++j)` of `read_pbm_binary`. -/
def read_pbm_binary_row (quot rem : Nat) (j : Nat) (st : Image bit_pixel × IStream) :
    Except PnmError (Image bit_pixel × IStream) :=
  match for_loop (read_pbm_binary_full_byte j) quot 0 st with
  | .error e => .error e
  | .ok st1 => read_pbm_binary_last_byte quot rem j st1

/-- The function `read_pbm_binary` on the content of the file, returning the
image together with the final state of the input stream. -/
def read_pbm_binary_stream (file : List Nat) : Except PnmError (Image bit_pixel × IStream) :=
  match (IStream.ofBytes file).getline with
  | (ifs, desc) =>
    if desc != [80, 52] then .error (.bad_magic desc)
    else
      match read_size_line ifs with
      | (ifs1, line, failed, x, y) =>
        if failed then .error (.bad_size_line line)
        else for_loop (read_pbm_binary_row (x >>> 3) (x &&& 7)) y 0 (Image.mk_sized x y, ifs1)

/-- The function `read_pbm_binary`, on the content of the file. -/
def read_pbm_binary (file : List Nat) : Except PnmError (Image bit_pixel) :=
  match read_pbm_binary_stream file with
  | .error e => .error e
  | .ok st => .ok st.1

/-- Body of the pixel loop of `read_pgm_binary`. -/
def read_pgm_binary_pixel (g : gain) (i : Nat) (st : Image gray_pixel × IStream) :
    Except PnmError (Image gray_pixel × IStream) :=
  match st.2.read_byte with
  | (ifs1, v) =>
    match st.1.raw_store i ⟨g.invoke v⟩ with
    | .error e => .error e
    | .ok img => .ok (img, ifs1)

/-- The function `read_pgm_binary` on the content of the file, returning the
image together with the final state of the input stream. -/
def read_pgm_binary_stream (file : List Nat) : Except PnmError (Image gray_pixel × IStream) :=
  match (IStream.ofBytes file).getline with
  | (ifs, desc) =>
    if desc != [80, 53] then .error (.bad_magic desc)
    else
      match read_size_line ifs with
      | (ifs1, line, failed, x, y) =>
        if failed then .error (.bad_size_line line)
        else
          match read_max_line ifs1 with
          | (ifs2, mline, mfailed, max) =>
            if mfailed then .error (.bad_max_line mline)
            else
              for_loop (read_pgm_binary_pixel (get_gain max))
                (Image.mk_sized x y : Image gray_pixel).size 0 (Image.mk_sized x y, ifs2)

/-- The function `read_pgm_binary`, on the content of the file. -/
def read_pgm_binary (file : List Nat) : Except PnmError (Image gray_pixel) :=
  match read_pgm_binary_stream file with
  | .error e => .error e
  | .ok st => .ok st.1

/-- Body of the pixel loop of `read_ppm_binary`: three bytes per pixel. -/
def read_ppm_binary_pixel (g : gain) (i : Nat) (st : Image rgb_pixel × IStream) :
    Except PnmError (Image rgb_pixel × IStream) :=
  match st.2.read_byte with
  | (ifs1, R) =>
    match ifs1.read_byte with
    | (ifs2, G) =>
      match ifs2.read_byte with
      | (ifs3, B) =>
        match st.1.raw_store i ⟨g.invoke R, g.invoke G, g.invoke B⟩ with
        | .error e => .error e
        | .ok img => .ok (img, ifs3)

/-- The function `read_ppm_binary` on the content of the file, returning the
image together with the final state of the input stream. -/
def read_ppm_binary_stream (file : List Nat) : Except PnmError (Image rgb_pixel × IStream) :=
  match (IStream.ofBytes file).getline with
  | (ifs, desc) =>
    if desc != [80, 54] then .error (.bad_magic desc)
    else
      match read_size_line ifs with
      | (ifs1, line, failed, x, y) =>
        if failed then .error (.bad_size_line line)
        else
          match read_max_line ifs1 with
          | (ifs2, mline, mfailed, max) =>
            if mfailed then .error (.bad_max_line mline)
            else
              for_loop (read_ppm_binary_pixel (get_gain max))
                (Image.mk_sized x y : Image rgb_pixel).size 0 (Image.mk_sized x y, ifs2)

/-- The function `read_ppm_binary`, on the content of the file. -/
def read_ppm_binary (file : List Nat) : Except PnmError (Image rgb_pixel) :=
  match read_ppm_binary_stream file with
  | .error e => .error e
  | .ok st => .ok st.1

/-! ## Encoders

Each encoder is modelled by the bytes it writes to the (successfully opened)
output file. -/

/-- The header `"P<k>\n" << x_size << ' ' << y_size << "\n"`; `k` is the digit byte. -/
def put_size_header {P : Type} (k : Nat) (img : Image P) : List Nat :=
  [80, k, 10] ++ put_nat img.nx ++ [32] ++ put_nat img.ny ++ [10]

/-- The function `write_pbm_ascii`. -/
def write_pbm_ascii (img : Image bit_pixel) : List Nat :=
  put_size_header 49 img ++
  (List.range img.ny).flatMap (fun j =>
    (List.range img.nx).flatMap (fun i => [if (img.get i j).value then 49 else 48, 32]) ++ [10])

/-- The lambda `get_or` of `write_pbm_binary`. -/
def get_or (i j : Nat) (im : Image bit_pixel) : Bool :=
  if i < im.nx ∧ j < im.ny then (im.get i j).value else false

/-- The loop `for(i=0; i<img.x_size(); i+=8)` of `write_pbm_binary` for row `j`,
started at `i` with the current content of `buf`; `fuel` bounds the number
of iterations. -/
def write_pbm_binary_row (img : Image bit_pixel) (j : Nat) : Nat → Nat → Nat → List Nat
  | 0, _, _ => []
  | fuel + 1, i, buf =>
    if i < img.nx then
      match (if get_or (i + 0) j img then buf ||| 0x80 else buf) with
      | b0 => match (if get_or (i + 1) j img then b0 ||| 0x40 else b0) with
      | b1 => match (if get_or (i + 2) j img then b1 ||| 0x20 else b1) with
      | b2 => match (if get_or (i + 3) j img then b2 ||| 0x10 else b2) with
      | b3 => match (if get_or (i + 4) j img then b3 ||| 0x08 else b3) with
      | b4 => match (if get_or (i + 5) j img then b4 ||| 0x04 else b4) with
      | b5 => match (if get_or (i + 6) j img then b5 ||| 0x02 else b5) with
      | b6 => match (if get_or (i + 7) j img then b6 ||| 0x01 else b6) with
      | b7 => b7 :: write_pbm_binary_row img j fuel (i + 8) b7
    else []

/-- Pixel data written by `write_pbm_binary` for row `j`: `buf` is set to 0 at
the start of the row. -/
def write_pbm_binary_row_bytes (img : Image bit_pixel) (j : Nat) : List Nat :=
  write_pbm_binary_row img j img.nx 0 0

/-- The function `write_pbm_binary`. -/
def write_pbm_binary (img : Image bit_pixel) : List Nat :=
  put_size_header 52 img ++ (List.range img.ny).flatMap (write_pbm_binary_row_bytes img)

/-- The function `write_pgm_ascii`; the header ends with the line `256`. -/
def write_pgm_ascii (img : Image gray_pixel) : List Nat :=
  put_size_header 50 img ++ [50, 53, 54, 10] ++
  (List.range img.ny).flatMap (fun j =>
    (List.range img.nx).flatMap (fun i => put_nat (img.get i j).value ++ [32]) ++ [10])

/-- The function `write_pgm_binary`; the header ends with the line `256`. -/
def write_pgm_binary (img : Image gray_pixel) : List Nat :=
  put_size_header 53 img ++ [50, 53, 54, 10] ++
  (List.range img.ny).flatMap (fun j =>
    (List.range img.nx).flatMap (fun i => [(img.get i j).value]) ++ [10])

/-- The function `write_ppm_ascii`; the header ends with the line `255`. -/
def write_ppm_ascii (img : Image rgb_pixel) : List Nat :=
  put_size_header 51 img ++ [50, 53, 53, 10] ++
  (List.range img.ny).flatMap (fun j =>
    (List.range img.nx).flatMap (fun i =>
      put_nat (img.get i j).red ++ [32] ++ put_nat (img.get i j).green ++ [32] ++
        put_nat (img.get i j).blue ++ [32]) ++ [10])

/-- The function `write_ppm_binary`; the header ends with the line `255`. -/
def write_ppm_binary (img : Image rgb_pixel) : List Nat :=
  put_size_header 54 img ++ [50, 53, 53, 10] ++
  (List.range img.ny).flatMap (fun j =>
    (List.range img.nx).flatMap (fun i =>
      [(img.get i j).red, (img.get i j).green, (img.get i j).blue]))

/-! ## Specification-side helpers -/

/-- Sequential execution of a loop body over a list of tokens, stopping at
the first error. -/
def run_tokens {α σ : Type} (body : σ → α → Except PnmError σ) : σ → List α → Except PnmError σ
  | st, [] => .ok st
  | st, a :: l =>
    match body st a with
    | .error e => .error e
    | .ok st1 => run_tokens body st1 l

/-- Row `j` of the pixel buffer. -/
def Image.row {P : Type} (img : Image P) (j : Nat) : List P :=
  (img.pixels.drop (j * img.nx)).take img.nx

/-- The rows of the pixel buffer, top to bottom. -/
def Image.rows {P : Type} (img : Image P) : List (List P) :=
  (List.range img.ny).map img.row

/-- Text of a sequence of rows: every token is followed by a space, every row
by a newline. -/
def lines_text {α : Type} (txt : α → List Nat) (rows : List (List α)) : List Nat :=
  rows.flatMap (fun row => row.flatMap (fun a => txt a ++ [32]) ++ [10])

/-- The sample token written for a bit pixel, as the integer read back. -/
def bit_sample (p : bit_pixel) : Int := if p.value then 1 else 0

/-- Text of a bit sample token. -/
def bit_text (a : Int) : List Nat := [48 + a.toNat]

/-- The three samples written for an RGB pixel. -/
def rgb_samples (p : rgb_pixel) : List Nat := [p.red, p.green, p.blue]

/-- An RGB pixel decoded from three samples through the gain `g`. -/
def rgb_decode (g : gain) (p : rgb_pixel) : rgb_pixel :=
  ⟨g.invoke p.red, g.invoke p.green, g.invoke p.blue⟩

/-- All channels of the pixel are 8-bit values. -/
def rgb_pixel.is_byte (p : rgb_pixel) : Prop := p.red < 256 ∧ p.green < 256 ∧ p.blue < 256

/-! ## Definitions for the gain and the sniffing entry points -/

/-- The value that `gain->invoke(x)` computes before the conversion to
`std::uint8_t`: `x` for `identity`, the `size_t` product for `enlarge`, the
truncated `double` product for `reduce`. -/
def gain.scaled (g : gain) (x : Nat) : Nat :=
  match g with
  | gain.identity => x
  | gain.enlarge ratio => (x * ratio) % 2 ^ 64
  | gain.reduce ratio => (Dbl.mul (Dbl.ofNat x) ratio).trunc

/-- The exact rational value of a `Dbl`. -/
def Dbl.val (a : Dbl) : ℚ := (a.num : ℚ) / (a.den : ℚ)

/-- Content of `char descripter[2]` after `ifs.read(descripter, 2)` in the
sniffing entry points.  The array is not initialised: `init` is its
indeterminate content, which survives where the file is too short. -/
def read_descripter (init : Nat × Nat) (file : List Nat) : Nat × Nat :=
  (((IStream.ofBytes file).read 2).2.getD 0 init.1,
   ((IStream.ofBytes file).read 2).2.getD 1 init.2)

/-- The function `read_pbm`: sniffs the first two bytes and dispatches. -/
def read_pbm (fuel : Nat) (init : Nat × Nat) (file : List Nat) :
    Option (Except PnmError (Image bit_pixel)) :=
  match read_descripter init file with
  | (d0, d1) =>
    if d0 == 80 && d1 == 49 then read_pbm_ascii fuel file
    else if d0 == 80 && d1 == 52 then some (read_pbm_binary file)
    else some (.error (.bad_magic [d0, d1]))

/-- The function `read_pgm`: sniffs the first two bytes and dispatches. -/
def read_pgm (fuel : Nat) (init : Nat × Nat) (file : List Nat) :
    Option (Except PnmError (Image gray_pixel)) :=
  match read_descripter init file with
  | (d0, d1) =>
    if d0 == 80 && d1 == 50 then read_pgm_ascii fuel file
    else if d0 == 80 && d1 == 53 then some (read_pgm_binary file)
    else some (.error (.bad_magic [d0, d1]))

/-- The function `read_ppm`: sniffs the first two bytes and dispatches. -/
def read_ppm (fuel : Nat) (init : Nat × Nat) (file : List Nat) :
    Option (Except PnmError (Image rgb_pixel)) :=
  match read_descripter init file with
  | (d0, d1) =>
    if d0 == 80 && d1 == 51 then read_ppm_ascii fuel file
    else if d0 == 80 && d1 == 54 then some (read_ppm_binary file)
    else some (.error (.bad_magic [d0, d1]))

/-! ## Container accessors and row views (`image`, `detail::line_proxy`) -/

/-- Failures of the container operations: `out_of_range` is the exception of
`std::vector::at`, `width_differs` the exception of the copy between row views
of unequal widths, and `undefined_access` marks an unchecked access outside
the buffer. -/
inductive AccessError where
  | out_of_range (index bound : Nat)
  | width_differs (n1 n2 : Nat)
  | undefined_access (index size : Nat)
deriving DecidableEq, Repr

/-- The C++ `width()`. -/
def Image.width {P : Type} (img : Image P) : Nat := img.nx

/-- The C++ `height()`. -/
def Image.height {P : Type} (img : Image P) : Nat := img.ny

/-- The checked access `image::at(ix, iy)`, which is `pixels_.at(ix + iy * nx_)`:
the only test is the one of `std::vector::at` on the flat index. -/
def Image.at_xy {P : Type} [Inhabited P] (img : Image P) (ix iy : Nat) : Except AccessError P :=
  if img.offset ix iy < img.pixels.length then .ok (img.pixels.getD (img.offset ix iy) default)
  else .error (.out_of_range (img.offset ix iy) img.pixels.length)

/-- The fields `nx_, iy_, offset_` of a `detail::line_proxy`; the buffer that
`container_` points to is passed to the operations. -/
structure line_proxy where
  nx_ : Nat
  iy_ : Nat
  offset_ : Nat
deriving DecidableEq, Repr

/-- The constructor `line_proxy(c, iy, nx)`: `offset_` is the `size_t` product `nx * iy`. -/
def line_proxy.make (iy nx : Nat) : line_proxy := ⟨nx, iy, (nx * iy) % 2 ^ 64⟩

/-- The row view `img[i]` (`image::operator[]`). -/
def Image.line {P : Type} (img : Image P) (i : Nat) : line_proxy := line_proxy.make i img.nx

/-- The C++ `line_proxy::width()`. -/
def line_proxy.width (p : line_proxy) : Nat := p.nx_

/-- The C++ `line_proxy::y_position()`. -/
def line_proxy.y_position (p : line_proxy) : Nat := p.iy_

/-- Flat index `offset_ + i` used by `line_proxy::operator[]`, in `size_t` arithmetic. -/
def line_proxy.index (p : line_proxy) (i : Nat) : Nat := (p.offset_ + i) % 2 ^ 64

/-- Unchecked read `p[i]` in the buffer `c`. -/
def line_proxy.get {P : Type} [Inhabited P] (p : line_proxy) (c : List P) (i : Nat) : P :=
  c.getD (p.index i) default

/-- The loop `for(i=0; i<nx_; ++i) (*this)[i] = other[i];` of
`line_proxy::operator=`, for two views `dst` (`*this`) and `src` (`other`) of
the same buffer `c`; the first argument counts the iterations left. -/
def line_proxy.copy_loop {P : Type} [Inhabited P] (dst src : line_proxy) :
    Nat → Nat → List P → Except AccessError (List P)
  | 0, _, c => .ok c
  | n + 1, i, c =>
    if c.length ≤ src.index i then .error (.undefined_access (src.index i) c.length)
    else if c.length ≤ dst.index i then .error (.undefined_access (dst.index i) c.length)
    else line_proxy.copy_loop dst src n (i + 1) (c.set (dst.index i) (src.get c i))

/-- The assignment `dst = src` (`line_proxy::operator=`) between two views of
the same buffer `c`; returns the buffer after the copy. -/
def line_proxy.assign {P : Type} [Inhabited P] (dst src : line_proxy) (c : List P) :
    Except AccessError (List P) :=
  if dst.nx_ != src.nx_ then .error (.width_differs dst.nx_ src.nx_)
  else line_proxy.copy_loop dst src dst.nx_ 0 c

/-- The statement `img[a] = img[b];`. -/
def Image.assign_row {P : Type} [Inhabited P] (img : Image P) (a b : Nat) :
    Except AccessError (Image P) :=
  match (img.line a).assign (img.line b) img.pixels with
  | .error e => .error e
  | .ok c => .ok ⟨img.nx, img.ny, c⟩

/-! ## Plain-format text: tokens, lines, and the meaning of the nested loops -/

/-- A numeric token as it stands in a file: a sign (nothing, `-` or `+`)
and a run of decimal digits. -/
structure num_token where
  sign : List Nat
  digits : List Nat
deriving DecidableEq, Repr

/-- The bytes of a token. -/
def num_token.text (t : num_token) : List Nat := t.sign ++ t.digits

/-- The token is an optional sign followed by at least one decimal digit. -/
def num_token.wf (t : num_token) : Prop :=
  (t.sign = [] ∨ t.sign = [45] ∨ t.sign = [43]) ∧ t.digits ≠ [] ∧
    ∀ c ∈ t.digits, isdigit c = true

/-- The token is a number that `std::size_t` can hold. -/
def num_token.fits_size (t : num_token) : Prop := t.wf ∧ digitsValue t.digits ≤ 2 ^ 64 - 1

/-- The number denoted by the token, as a `std::size_t` (a leading `-` negates
modulo `2^64`). -/
def num_token.size_value (t : num_token) : Nat :=
  if t.sign = [45] then (2 ^ 64 - digitsValue t.digits) % 2 ^ 64 else digitsValue t.digits

/-- The token is a number that `int` can hold. -/
def num_token.fits_int (t : num_token) : Prop :=
  t.wf ∧ if t.sign = [45] then digitsValue t.digits ≤ 2 ^ 31 else digitsValue t.digits ≤ 2 ^ 31 - 1

/-- The number denoted by the token, as an `int`. -/
def num_token.int_value (t : num_token) : Int :=
  if t.sign = [45] then -(digitsValue t.digits : Int) else (digitsValue t.digits : Int)

/-- White space other than the newline. -/
def blank (c : Nat) : Prop := isspace c = true ∧ c ≠ 10

/-- Tokens with the white space that follows each of them: every token is
`good`, and only the last one may have nothing after it. -/
def items_wf (good : num_token → Prop) : List (num_token × List Nat) → Prop
  | [] => True
  | p :: l => good p.1 ∧ (∀ c ∈ p.2, blank c) ∧ (l ≠ [] → p.2 ≠ []) ∧ items_wf good l

/-- One line of a plain-format file, without its newline: leading white
space, tokens separated by white space, and an optional comment (the text
after `#`). -/
structure text_line where
  lead : List Nat
  items : List (num_token × List Nat)
  comment : Option (List Nat)
deriving DecidableEq, Repr

/-- The bytes of the line before the comment. -/
def text_line.content (L : text_line) : List Nat :=
  L.lead ++ L.items.flatMap (fun p => p.1.text ++ p.2)

/-- The bytes of the line. -/
def text_line.text (L : text_line) : List Nat :=
  L.content ++ (match L.comment with | none => [] | some t => 35 :: t)

/-- The tokens of the line. -/
def text_line.tokens (L : text_line) : List num_token := L.items.map Prod.fst

/-- The line is made of white space, `good` tokens and a comment without newline. -/
def text_line.wf (good : num_token → Prop) (L : text_line) : Prop :=
  (∀ c ∈ L.lead, blank c) ∧ items_wf good L.items ∧
    ∀ t, L.comment = some t → ∀ c ∈ t, c ≠ 10

/-- The bytes of a text: each line of `ls` followed by a newline, then the
bytes `tail`. -/
def lines_bytes (ls : List text_line) (tail : List Nat) : List Nat :=
  ls.flatMap (fun L => L.text ++ [10]) ++ tail

/-- The tokens of a sequence of lines, in reading order. -/
def lines_tokens (ls : List text_line) : List num_token := ls.flatMap text_line.tokens

instance num_token.wf_decidable (t : num_token) : Decidable t.wf :=
  inferInstanceAs (Decidable ((t.sign = [] ∨ t.sign = [45] ∨ t.sign = [43]) ∧ t.digits ≠ [] ∧
    ∀ c ∈ t.digits, isdigit c = true))

instance num_token.fits_size_decidable : DecidablePred num_token.fits_size :=
  fun t => inferInstanceAs (Decidable (t.wf ∧ digitsValue t.digits ≤ 2 ^ 64 - 1))

instance num_token.fits_int_decidable : DecidablePred num_token.fits_int :=
  fun t => inferInstanceAs (Decidable (t.wf ∧
    if t.sign = [45] then digitsValue t.digits ≤ 2 ^ 31 else digitsValue t.digits ≤ 2 ^ 31 - 1))

instance blank_decidable : DecidablePred blank :=
  fun c => inferInstanceAs (Decidable (isspace c = true ∧ c ≠ 10))

instance items_wf_decidable (good : num_token → Prop) [DecidablePred good] :
    ∀ items, Decidable (items_wf good items)
  | [] => isTrue trivial
  | p :: l =>
    have : Decidable (items_wf good l) := items_wf_decidable good l
    inferInstanceAs (Decidable (good p.1 ∧ (∀ c ∈ p.2, blank c) ∧ (l ≠ [] → p.2 ≠ []) ∧
      items_wf good l))

instance text_line.wf_decidable (good : num_token → Prop) [DecidablePred good] :
    DecidablePred (text_line.wf good) :=
  fun L =>
    match hc : L.comment with
    | none => decidable_of_iff ((∀ c ∈ L.lead, blank c) ∧ items_wf good L.items)
        ⟨fun h => ⟨h.1, h.2, fun t ht => by rw [hc] at ht; exact Option.noConfusion ht⟩,
         fun h => ⟨h.1, h.2.1⟩⟩
    | some t => decidable_of_iff ((∀ c ∈ L.lead, blank c) ∧ items_wf good L.items ∧
          ∀ c ∈ t, c ≠ 10)
        ⟨fun h => ⟨h.1, h.2.1, fun u hu => by
            rw [hc] at hu; cases hu; exact h.2.2⟩,
         fun h => ⟨h.1, h.2.1, h.2.2 t hc⟩⟩

/-- The header variables of `read_pbm_ascii` after the values `vs` were read. -/
def size_header.of_values : List Nat → size_header
  | [] => ⟨false, false, 0, 0⟩
  | [a] => ⟨true, false, a, 0⟩
  | a :: b :: _ => ⟨true, true, a, b⟩

/-- The header variables of `read_pgm_ascii` and `read_ppm_ascii` after the
values `vs` were read. -/
def header.of_values : List Nat → header
  | [] => ⟨false, false, false, 0, 0, 0⟩
  | [a] => ⟨true, false, false, a, 0, 0⟩
  | [a, b] => ⟨true, true, false, a, b, 0⟩
  | a :: b :: c :: _ => ⟨true, true, true, a, b, c⟩

/-- Two input streams that differ at most by one comment: they are equal, or
both at the end of the data, or the first has `#` and a text without newline
inserted in front of a newline or of the end of the data. -/
def IStream.comment_related (s1 s2 : IStream) : Prop :=
  s1 = s2 ∨ (s1.eofbit = true ∧ s2.eofbit = true) ∨
  ∃ pre text tail : List Nat, (∀ c ∈ text, c ≠ 10) ∧ (tail = [] ∨ ∃ post, tail = 10 :: post) ∧
    s1 = ⟨pre ++ 35 :: text ++ tail, false, false⟩ ∧ s2 = ⟨pre ++ tail, false, false⟩

/-- Two results of a line loop that agree up to the comment: both out of
budget, the same error, or the same state with related streams. -/
def results_related {σ : Type} (r1 r2 : Option (Except PnmError (IStream × σ))) : Prop :=
  match r1, r2 with
  | none, none => True
  | some (.error e1), some (.error e2) => e1 = e2
  | some (.ok (s1, st1)), some (.ok (s2, st2)) => s1.comment_related s2 ∧ st1 = st2
  | _, _ => False

/-- The image has width `w`, height `h` and a buffer of `w * h` pixels, the
product being the `size_t` one. -/
def Image.has_dimensions {P : Type} (img : Image P) (w h : Nat) : Prop :=
  img.width = w ∧ img.height = h ∧ img.size = (w * h) % 2 ^ 64

/-- The lines after the header line: `none` when the file ends with the
header line, without a newline; otherwise the lines `ps`, each followed by a
newline, and the line `last`, which is not. -/
def pixel_lines : Option (List text_line × text_line) → List text_line
  | none => []
  | some (ps, last) => ps ++ [last]

/-- The bytes of a plain-format file: the magic code `P` and the digit byte
`k`, the header lines `hs` (the first of them standing on the line of the
magic code), each followed by a newline, the header line `Lh`, and either the
end of the file (`rest = none`) or a newline and the lines of `rest`. -/
def plain_file (k : Nat) (hs : List text_line) (Lh : text_line)
    (rest : Option (List text_line × text_line)) : List Nat :=
  80 :: k ::
    (match rest with
     | none => lines_bytes hs Lh.text
     | some (ps, last) => lines_bytes (hs ++ [Lh]) (lines_bytes ps last.text))

/-! ## Row copy between two buffers, line iterators (`detail::line_proxy_iterator`) -/

/-- The loop `for(i=0; i<nx_; ++i) (*this)[i] = other[i];` of
`line_proxy::operator=` when `other` views another buffer `csrc`; the first
argument counts the iterations left.  Returns the destination buffer and the
failure that stopped the loop, if any. -/
def line_proxy.copy_from {P : Type} [Inhabited P] (dst src : line_proxy) (csrc : List P) :
    Nat → Nat → List P → List P × Option AccessError
  | 0, _, c => (c, none)
  | n + 1, i, c =>
    if csrc.length ≤ src.index i then (c, some (.undefined_access (src.index i) csrc.length))
    else if c.length ≤ dst.index i then (c, some (.undefined_access (dst.index i) c.length))
    else line_proxy.copy_from dst src csrc n (i + 1) (c.set (dst.index i) (src.get csrc i))

/-- The assignment `dst = src` (`line_proxy::operator=`) when `dst` views the
buffer `cdst` and `src` another buffer `csrc`.  Returns the content of the
destination buffer after the call and the exception thrown, if any. -/
def line_proxy.assign_from {P : Type} [Inhabited P] (dst src : line_proxy) (cdst csrc : List P) :
    List P × Option AccessError :=
  if dst.nx_ != src.nx_ then (cdst, some (.width_differs dst.nx_ src.nx_))
  else line_proxy.copy_from dst src csrc dst.nx_ 0 cdst

/-- The statement `img[a] = other[b];` for two different images: the image
`img` after the call and the exception thrown, if any. -/
def Image.assign_row_from {P : Type} [Inhabited P] (img : Image P) (a : Nat) (other : Image P)
    (b : Nat) : Image P × Option AccessError :=
  (⟨img.nx, img.ny, ((img.line a).assign_from (other.line b) img.pixels other.pixels).1⟩,
   ((img.line a).assign_from (other.line b) img.pixels other.pixels).2)

/-- The fields `nx_, ny_, proxy_` of a `detail::line_proxy_iterator`. -/
structure line_proxy_iterator where
  nx_ : Nat
  ny_ : Nat
  proxy_ : line_proxy
deriving DecidableEq, Repr

/-- The constructor `line_proxy_iterator(c, nx, ny, iy)`: `proxy_(c, iy, nx)`. -/
def line_proxy_iterator.make (nx ny iy : Nat) : line_proxy_iterator :=
  ⟨nx, ny, line_proxy.make iy nx⟩

/-- The C++ `image::line_begin()`. -/
def Image.line_begin {P : Type} (img : Image P) : line_proxy_iterator :=
  line_proxy_iterator.make img.nx img.ny 0

/-- The C++ `image::line_end()`. -/
def Image.line_end {P : Type} (img : Image P) : line_proxy_iterator :=
  line_proxy_iterator.make img.nx img.ny img.ny

/-- The C++ `operator*`: a copy of `proxy_`. -/
def line_proxy_iterator.deref (it : line_proxy_iterator) : line_proxy := it.proxy_

/-- A signed 64-bit quantity reduced to a `size_t`. -/
def wrap_size_t (z : Int) : Nat := (z % 2 ^ 64).toNat

/-- The C++ `operator++`: `proxy_.iy_ += 1; proxy_.offset_ += nx_;`. -/
def line_proxy_iterator.incr (it : line_proxy_iterator) : line_proxy_iterator :=
  ⟨it.nx_, it.ny_,
   ⟨it.proxy_.nx_, (it.proxy_.iy_ + 1) % 2 ^ 64, (it.proxy_.offset_ + it.nx_) % 2 ^ 64⟩⟩

/-- The C++ `operator--`: `proxy_.iy_ -= 1; proxy_.offset_ -= nx_;`. -/
def line_proxy_iterator.decr (it : line_proxy_iterator) : line_proxy_iterator :=
  ⟨it.nx_, it.ny_,
   ⟨it.proxy_.nx_, wrap_size_t ((it.proxy_.iy_ : Int) - 1),
    wrap_size_t ((it.proxy_.offset_ : Int) - (it.nx_ : Int))⟩⟩

/-- The C++ `operator+=(d)`: `proxy_.iy_ += d; proxy_.offset_ += nx_ * d;` with
`d` a `std::ptrdiff_t`. -/
def line_proxy_iterator.advance (it : line_proxy_iterator) (d : Int) : line_proxy_iterator :=
  ⟨it.nx_, it.ny_,
   ⟨it.proxy_.nx_, wrap_size_t ((it.proxy_.iy_ : Int) + d),
    wrap_size_t ((it.proxy_.offset_ : Int) + (it.nx_ : Int) * d)⟩⟩

/-- The C++ `operator-=(d)`: `proxy_.iy_ -= d; proxy_.offset_ -= nx_ * d;`. -/
def line_proxy_iterator.retreat (it : line_proxy_iterator) (d : Int) : line_proxy_iterator :=
  ⟨it.nx_, it.ny_,
   ⟨it.proxy_.nx_, wrap_size_t ((it.proxy_.iy_ : Int) - d),
    wrap_size_t ((it.proxy_.offset_ : Int) - (it.nx_ : Int) * d)⟩⟩

/-- The C++ `line_proxy_iterator::operator=`: it assigns `nx_`, `ny_`,
`proxy_.nx_`, `proxy_.iy_` and `proxy_.container_`; `proxy_.offset_` keeps the
value it had in the assigned iterator `a`. -/
def line_proxy_iterator.assign (a b : line_proxy_iterator) : line_proxy_iterator :=
  ⟨b.nx_, b.ny_, ⟨b.proxy_.nx_, b.proxy_.iy_, a.proxy_.offset_⟩⟩

/-- The C++ `line_proxy::operator==` for two views of the same container:
`nx_` and `iy_` are compared. -/
def line_proxy.eq (p q : line_proxy) : Bool := p.nx_ == q.nx_ && p.iy_ == q.iy_

/-- The C++ `line_proxy_iterator::operator==` for two iterators over the same
container. -/
def line_proxy_iterator.eq (a b : line_proxy_iterator) : Bool :=
  a.ny_ == b.ny_ && a.proxy_.eq b.proxy_

/-- What the embedding keeps of an allocator `Alloc` for pixels: `max_size`
is the value of `std::vector<Pixel, Alloc>::max_size()`, and `allocate n`
tells whether `Alloc::allocate(n)` returns storage for `n` pixels (`true`) or
throws `std::bad_alloc` (`false`). -/
structure Allocator where
  max_size : Nat
  allocate : Nat → Bool

/-- The default `std::allocator<Pixel>` on a 64-bit target, for pixels of
`elem_size` bytes when `avail` bytes can be obtained: `max_size()` is
`PTRDIFF_MAX / sizeof(Pixel)`. -/
def std_allocator (elem_size avail : Nat) : Allocator :=
  ⟨(2 ^ 63 - 1) / elem_size, fun n => decide (n * elem_size ≤ avail)⟩

/-- The exceptions of `std::vector<Pixel, Alloc>(n)`: `std::length_error`
when `n` exceeds `max_size()`, `std::bad_alloc` when the allocator fails. -/
inductive AllocError where
  | length_error (n : Nat)
  | bad_alloc (n : Nat)
deriving DecidableEq, Repr

/-- The constructor `std::vector<Pixel, Alloc>(n)`: `n` value-initialised
pixels.  The count is checked against `max_size()` first; storage is
requested from the allocator only for `n != 0`. -/
def vector_sized {P : Type} [Inhabited P] (A : Allocator) (n : Nat) :
    Except AllocError (List P) :=
  if A.max_size < n then .error (.length_error n)
  else if n != 0 && !A.allocate n then .error (.bad_alloc n)
  else .ok (List.replicate n default)

/-- The construction `std::vector<Pixel, Alloc>(n)` does not throw. -/
def Allocator.grants (A : Allocator) (n : Nat) : Bool :=
  decide (n ≤ A.max_size) && (n == 0 || A.allocate n)

/-- The sized constructor `image(width, height)`, which is
`nx_(width), ny_(height), pixels_(width * height)` with a `size_t` product,
together with the exceptions of the construction of `pixels_`. -/
def Image.construct {P : Type} [Inhabited P] (A : Allocator) (width height : Nat) :
    Except AllocError (Image P) :=
  match vector_sized A ((width * height) % 2 ^ 64) with
  | .error e => .error e
  | .ok pixels => .ok ⟨width, height, pixels⟩

/-- What a decoder with an allocator throws: an error of the library or an
exception of the construction of the image. -/
inductive DecodeError where
  | pnm (e : PnmError)
  | alloc (e : AllocError)
deriving DecidableEq, Repr

/-- The function `read_pbm_ascii<Alloc>`, on the content of the file. -/
def read_pbm_ascii_alloc (A : Allocator) (fuel : Nat) (file : List Nat) :
    Option (Except DecodeError (Image bit_pixel)) :=
  match read_magic file with
  | (ifs, d0, d1) =>
    if !(d0 == 80 && d1 == 49) then some (.error (.pnm (.bad_magic [d0, d1])))
    else
      match line_loop (fun s => s.extract_size_t 0) (fun h tmp => .ok (size_header.assign h tmp))
          (fun h => h.x_read && h.y_read) fuel fuel ifs ⟨false, false, 0, 0⟩ with
      | none => none
      | some (.error e) => some (.error (.pnm e))
      | some (.ok (ifs1, h)) =>
        match Image.construct A h.x h.y with
        | .error a => some (.error (.alloc a))
        | .ok img =>
          match line_loop (fun s => s.extract_int 0) (pbm_pixel_body h.x h.y) (fun _ => false)
              fuel fuel ifs1 (img, 0) with
          | none => none
          | some (.error e) => some (.error (.pnm e))
          | some (.ok (_, st)) => some (.ok st.1)

/-- The function `read_pgm_ascii<Alloc>`, on the content of the file. -/
def read_pgm_ascii_alloc (A : Allocator) (fuel : Nat) (file : List Nat) :
    Option (Except DecodeError (Image gray_pixel)) :=
  match read_magic file with
  | (ifs, d0, d1) =>
    if !(d0 == 80 && d1 == 50) then some (.error (.pnm (.bad_magic [d0, d1])))
    else
      match line_loop (fun s => s.extract_size_t 0) (fun h tmp => .ok (header.assign h tmp))
          (fun h => h.x_read && h.y_read && h.max_read) fuel fuel ifs
          ⟨false, false, false, 0, 0, 0⟩ with
      | none => none
      | some (.error e) => some (.error (.pnm e))
      | some (.ok (ifs1, h)) =>
        match Image.construct A h.x h.y with
        | .error a => some (.error (.alloc a))
        | .ok img =>
          match line_loop (fun s => s.extract_size_t 0)
              (pgm_pixel_body (get_gain h.max) h.x h.y) (fun _ => false) fuel fuel ifs1
              (img, 0) with
          | none => none
          | some (.error e) => some (.error (.pnm e))
          | some (.ok (_, st)) => some (.ok st.1)

/-- The function `read_ppm_ascii<Alloc>`, on the content of the file. -/
def read_ppm_ascii_alloc (A : Allocator) (fuel : Nat) (file : List Nat) :
    Option (Except DecodeError (Image rgb_pixel)) :=
  match read_magic file with
  | (ifs, d0, d1) =>
    if !(d0 == 80 && d1 == 51) then some (.error (.pnm (.bad_magic [d0, d1])))
    else
      match line_loop (fun s => s.extract_size_t 0) (fun h tmp => .ok (header.assign h tmp))
          (fun h => h.x_read && h.y_read && h.max_read) fuel fuel ifs
          ⟨false, false, false, 0, 0, 0⟩ with
      | none => none
      | some (.error e) => some (.error (.pnm e))
      | some (.ok (ifs1, h)) =>
        match Image.construct A h.x h.y with
        | .error a => some (.error (.alloc a))
        | .ok img =>
          match line_loop (fun s => s.extract_size_t 0)
              (ppm_pixel_body (get_gain h.max) h.x h.y) (fun _ => false) fuel fuel ifs1
              ⟨img, 0, false, false, false, ⟨0, 0, 0⟩⟩ with
          | none => none
          | some (.error e) => some (.error (.pnm e))
          | some (.ok (_, st)) => some (.ok st.img)

/-! ## Decimal output and input -/

theorem put_digits_spec (fuel : Nat) : ∀ (n : Nat) (acc : List Nat), n < fuel →
    ∃ d ds, put_digits fuel n acc = d :: ds ++ acc ∧ isdigit d = true ∧
      (∀ c ∈ ds, isdigit c = true) ∧
      ∀ a, (d :: ds).foldl (fun a c => a * 10 + (c - 48)) a = a * 10 ^ (ds.length + 1) + n := by
  induction fuel with
  | zero => intro n acc h; omega
  | succ f ih =>
    intro n acc h
    unfold put_digits
    by_cases h0 : n / 10 = 0
    · rw [if_pos h0]
      refine ⟨48 + n % 10, [], by simp, ?_, by simp, ?_⟩
      · simp [isdigit]; omega
      · intro a; simp; omega
    · rw [if_neg h0]
      obtain ⟨d, ds, h1, h2, h3, h4⟩ := ih (n / 10) ((48 + n % 10) :: acc) (by omega)
      refine ⟨d, ds ++ [48 + n % 10], by simp [h1], h2, ?_, ?_⟩
      · intro c hc
        rcases List.mem_append.1 hc with hc | hc
        · exact h3 c hc
        · simp at hc; subst hc; simp [isdigit]; omega
      · intro a
        have := h4 a
        rw [← List.cons_append, List.foldl_append, this]
        simp [pow_succ]
        have : n = 10 * (n / 10) + n % 10 := (Nat.div_add_mod n 10).symm
        nlinarith [this]

theorem put_nat_spec (n : Nat) :
    ∃ d ds, put_nat n = d :: ds ∧ isdigit d = true ∧ (∀ c ∈ ds, isdigit c = true) ∧
      digitsValue (d :: ds) = n := by
  obtain ⟨d, ds, h1, h2, h3, h4⟩ := put_digits_spec (n + 1) n [] (by omega)
  refine ⟨d, ds, by simpa [put_nat] using h1, h2, h3, ?_⟩
  simpa [digitsValue] using h4 0

theorem isdigit_not_space {c : Nat} (h : isdigit c = true) : isspace c = false := by
  simp [isdigit, isspace] at *; omega

theorem isdigit_ne_newline {c : Nat} (h : isdigit c = true) : (c != 10) = true := by
  simp [isdigit] at *; omega

theorem isdigit_ne_hash {c : Nat} (h : isdigit c = true) : (c != 35) = true := by
  simp [isdigit] at *; omega

theorem put_nat_digits (n : Nat) : ∀ c ∈ put_nat n, isdigit c = true := by
  obtain ⟨d, ds, h1, h2, h3, -⟩ := put_nat_spec n
  intro c hc
  rw [h1] at hc
  rcases List.mem_cons.1 hc with hc | hc
  · subst hc; exact h2
  · exact h3 c hc

theorem scanInt_digit (d : Nat) (t : List Nat) (h : isdigit d = true) :
    scanInt (d :: t) = (false, (d :: t).takeWhile isdigit, (d :: t).dropWhile isdigit) := by
  have h45 : d ≠ 45 := by rintro rfl; simp [isdigit] at h
  have h43 : d ≠ 43 := by rintro rfl; simp [isdigit] at h
  unfold scanInt
  split
  · rename_i heq; simp at heq; exact absurd heq.1 h45
  · rename_i heq; simp at heq; exact absurd heq.1 h43
  · rfl

/-- The sentry skips leading white space and stops at the first other byte. -/
theorem sentry_skip (sp : List Nat) (hsp : ∀ c ∈ sp, isspace c = true) (d : Nat) (t : List Nat)
    (hd : isspace d = false) :
    IStream.sentry ⟨sp ++ d :: t, false, false⟩ = (⟨d :: t, false, false⟩, true) := by
  have h : (sp ++ d :: t).dropWhile isspace = d :: t := by
    rw [List.dropWhile_append_of_pos hsp, List.dropWhile_cons_of_neg (by simp [hd])]
  simp only [IStream.sentry, IStream.good, h]
  simp

/-- The sentry fails at the end of the data when only white space is left. -/
theorem sentry_end (sp : List Nat) (hsp : ∀ c ∈ sp, isspace c = true) :
    IStream.sentry ⟨sp, false, false⟩ = (⟨[], true, true⟩, false) := by
  have h : sp.dropWhile isspace = [] := List.dropWhile_eq_nil_iff.2 hsp
  simp only [IStream.sentry, IStream.good, h]
  simp

/-- Extraction of a number that is followed by a non-digit byte. -/
theorem extract_size_t_put_nat (sp : List Nat) (hsp : ∀ c ∈ sp, isspace c = true) (n : Nat)
    (hn : n < 2 ^ 64) (c : Nat) (hc : isdigit c = false) (rest : List Nat) (old : Nat) :
    IStream.extract_size_t ⟨sp ++ put_nat n ++ c :: rest, false, false⟩ old =
      (⟨c :: rest, false, false⟩, n) := by
  obtain ⟨d, ds, h1, h2, h3, h4⟩ := put_nat_spec n
  have hs : IStream.sentry ⟨sp ++ put_nat n ++ c :: rest, false, false⟩ =
      (⟨d :: ds ++ c :: rest, false, false⟩, true) := by
    rw [h1, List.append_assoc, List.cons_append]
    exact sentry_skip sp hsp d _ (isdigit_not_space h2)
  have htk : (d :: (ds ++ c :: rest)).takeWhile isdigit = d :: ds := by
    rw [← List.cons_append, List.takeWhile_append_of_pos]
    · simp [List.takeWhile, hc]
    · intro a ha
      rcases List.mem_cons.1 ha with ha | ha
      · subst ha; exact h2
      · exact h3 a ha
  have hdr : (d :: (ds ++ c :: rest)).dropWhile isdigit = c :: rest := by
    rw [← List.cons_append, List.dropWhile_append_of_pos]
    · simp [List.dropWhile, hc]
    · intro a ha
      rcases List.mem_cons.1 ha with ha | ha
      · subst ha; exact h2
      · exact h3 a ha
  unfold IStream.extract_size_t
  rw [hs]
  simp only [List.cons_append, scanInt_digit d _ h2, htk, hdr, h4]
  simp
  omega

/-- Extraction of a number that ends the data. -/
theorem extract_size_t_put_nat_end (sp : List Nat) (hsp : ∀ c ∈ sp, isspace c = true) (n : Nat)
    (hn : n < 2 ^ 64) (old : Nat) :
    IStream.extract_size_t ⟨sp ++ put_nat n, false, false⟩ old = (⟨[], true, false⟩, n) := by
  obtain ⟨d, ds, h1, h2, h3, h4⟩ := put_nat_spec n
  have hs : IStream.sentry ⟨sp ++ put_nat n, false, false⟩ =
      (⟨d :: ds, false, false⟩, true) := by
    rw [h1]
    exact sentry_skip sp hsp d _ (isdigit_not_space h2)
  have hall : ∀ a ∈ d :: ds, isdigit a = true := by
    intro a ha
    rcases List.mem_cons.1 ha with ha | ha
    · subst ha; exact h2
    · exact h3 a ha
  have htk : (d :: ds).takeWhile isdigit = d :: ds := List.takeWhile_eq_self_iff.2 hall
  have hdr : (d :: ds).dropWhile isdigit = [] := List.dropWhile_eq_nil_iff.2 hall
  unfold IStream.extract_size_t
  rw [hs]
  simp only [scanInt_digit d _ h2, htk, hdr, h4]
  simp
  omega

/-- The call `getline` on a line that is terminated by a newline. -/
theorem getline_line (l rest : List Nat) (hl : ∀ c ∈ l, (c != 10) = true) :
    IStream.getline ⟨l ++ 10 :: rest, false, false⟩ = (⟨rest, false, false⟩, l) := by
  have h1 : (l ++ 10 :: rest).dropWhile (fun c => c != 10) = 10 :: rest := by
    rw [List.dropWhile_append_of_pos hl]; simp [List.dropWhile]
  have h2 : (l ++ 10 :: rest).takeWhile (fun c => c != 10) = l := by
    rw [List.takeWhile_append_of_pos hl]; simp [List.takeWhile]
  simp only [IStream.getline, IStream.good, h1, h2]
  simp

/-- The call `getline` at the end of the data. -/
theorem getline_end : IStream.getline ⟨[], false, false⟩ = (⟨[], true, true⟩, []) := by
  simp [IStream.getline, IStream.good]

theorem erase_comment_self (l : List Nat) (hl : ∀ c ∈ l, (c != 35) = true) :
    erase_comment l = l := List.takeWhile_eq_self_iff.2 hl

/-! ## The token loop and the line loop on well-formed text -/

theorem run_tokens_append {α σ : Type} (body : σ → α → Except PnmError σ) (l1 l2 : List α) :
    ∀ st : σ, run_tokens body st (l1 ++ l2) =
      match run_tokens body st l1 with
      | .error e => .error e
      | .ok st1 => run_tokens body st1 l2 := by
  induction l1 with
  | nil => intro st; simp [run_tokens]
  | cons a l ih =>
    intro st
    simp only [List.cons_append, run_tokens]
    cases body st a with
    | error e => simp
    | ok st1 => simpa using ih st1

/-- The token loop on a line made of tokens that are each followed by one space. -/
theorem token_loop_tokens {α σ : Type} (extract : IStream → IStream × α)
    (body : σ → α → Except PnmError σ) (txt : α → List Nat) (good : α → Prop)
    (hext : ∀ sp, (∀ c ∈ sp, isspace c = true) → ∀ a, good a → ∀ rest,
        extract ⟨sp ++ txt a ++ 32 :: rest, false, false⟩ = (⟨32 :: rest, false, false⟩, a))
    (hend : ∀ sp, (∀ c ∈ sp, isspace c = true) →
        (extract ⟨sp, false, false⟩).1 = ⟨[], true, true⟩)
    (l : List α) : ∀ (sp : List Nat), (∀ c ∈ sp, isspace c = true) → (∀ a ∈ l, good a) →
      ∀ (st : σ) (fuel : Nat), l.length + 2 ≤ fuel →
      token_loop extract body fuel ⟨sp ++ l.flatMap (fun a => txt a ++ [32]), false, false⟩ st
        = some (run_tokens body st l) := by
  induction l with
  | nil =>
    intro sp hsp _ st fuel hf
    obtain ⟨f, rfl⟩ : ∃ f, fuel = f + 2 := ⟨fuel - 2, by simp at hf; omega⟩
    have h1 := hend sp hsp
    rcases hx : extract ⟨sp, false, false⟩ with ⟨iss1, v⟩
    rw [hx] at h1
    simp only at h1
    subst h1
    simp [token_loop, IStream.eof, IStream.fail, hx, IStream.extract_string, IStream.sentry,
      IStream.good, run_tokens]
  | cons a l ih =>
    intro sp hsp hgood st fuel hf
    obtain ⟨f, rfl⟩ : ∃ f, fuel = f + 1 := ⟨fuel - 1, by simp at hf; omega⟩
    have hx := hext sp hsp a (hgood a (by simp)) (l.flatMap (fun a => txt a ++ [32]))
    have hb : sp ++ (a :: l).flatMap (fun a => txt a ++ [32]) =
        sp ++ txt a ++ 32 :: l.flatMap (fun a => txt a ++ [32]) := by simp
    rw [hb]
    unfold token_loop
    simp only [IStream.eof, hx, IStream.fail, run_tokens]
    cases body st a with
    | error e => simp
    | ok st1 =>
      have := ih [32] (by simp [isspace]) (fun b hb => hgood b (by simp [hb])) st1 f
        (by simp at hf; omega)
      simpa using this

/-- The pixel loop (`DONE` never holds) on `lines_text`. -/
theorem line_loop_rows {α σ : Type} (extract : IStream → IStream × α)
    (body : σ → α → Except PnmError σ) (txt : α → List Nat) (good : α → Prop)
    (hext : ∀ sp, (∀ c ∈ sp, isspace c = true) → ∀ a, good a → ∀ rest,
        extract ⟨sp ++ txt a ++ 32 :: rest, false, false⟩ = (⟨32 :: rest, false, false⟩, a))
    (hend : ∀ sp, (∀ c ∈ sp, isspace c = true) →
        (extract ⟨sp, false, false⟩).1 = ⟨[], true, true⟩)
    (htxt : ∀ a, good a → ∀ c ∈ txt a, (c != 10) = true ∧ (c != 35) = true)
    (tokfuel : Nat) (rows : List (List α)) :
    (∀ row ∈ rows, row.length + 2 ≤ tokfuel) → (∀ row ∈ rows, ∀ a ∈ row, good a) →
    ∀ (st : σ) (fuel : Nat), rows.length + 2 ≤ fuel →
      line_loop extract body (fun _ => false) tokfuel fuel ⟨lines_text txt rows, false, false⟩ st =
        some (match run_tokens body st rows.flatten with
              | .error e => .error e
              | .ok st1 => .ok (⟨[], true, true⟩, st1)) := by
  induction rows with
  | nil =>
    intro _ _ st fuel hf
    obtain ⟨f, rfl⟩ : ∃ f, fuel = f + 2 := ⟨fuel - 2, by simp at hf; omega⟩
    simp [lines_text, line_loop, IStream.eof, getline_end, erase_comment, run_tokens]
  | cons row rows ih =>
    intro htf hgood st fuel hf
    obtain ⟨f, rfl⟩ : ∃ f, fuel = f + 1 := ⟨fuel - 1, by simp at hf; omega⟩
    have hrowc : ∀ c ∈ row.flatMap (fun a => txt a ++ [32]), (c != 10) = true ∧ (c != 35) = true := by
      intro c hc
      obtain ⟨a, ha, hca⟩ := List.mem_flatMap.1 hc
      rcases List.mem_append.1 hca with h | h
      · exact htxt a (hgood row (by simp) a ha) c h
      · simp at h; subst h; decide
    have hb : lines_text txt (row :: rows) =
        row.flatMap (fun a => txt a ++ [32]) ++ 10 :: lines_text txt rows := by
      simp [lines_text]
    have hih := ih (fun r hr => htf r (by simp [hr])) (fun r hr => hgood r (by simp [hr]))
    rw [hb]
    unfold line_loop
    simp only [IStream.eof, getline_line _ _ (fun c hc => (hrowc c hc).1),
      erase_comment_self _ (fun c hc => (hrowc c hc).2)]
    by_cases hrow : row = []
    · subst hrow
      simpa using hih st f (by simp at hf; omega)
    · have hne : (row.flatMap (fun a => txt a ++ [32])).isEmpty = false := by
        cases row with
        | nil => exact absurd rfl hrow
        | cons a l => simp
      have htl := token_loop_tokens extract body txt good hext hend row [] (by simp)
        (hgood row (by simp)) st tokfuel (htf row (by simp))
      simp only [List.nil_append] at htl
      simp only [hne, IStream.ofBytes, htl, List.flatten_cons, run_tokens_append]
      cases run_tokens body st row with
      | error e => simp
      | ok st1 => simpa using hih st1 f (by simp at hf; omega)

/-! ## Header scanning on the text written by the encoders -/

theorem token_loop_eof {α σ : Type} (extract : IStream → IStream × α)
    (body : σ → α → Except PnmError σ) (f : Nat) (iss : IStream) (st : σ)
    (h : iss.eofbit = true) : token_loop extract body (f + 1) iss st = some (.ok st) := by
  simp [token_loop, IStream.eof, h]

theorem token_loop_step {α σ : Type} (extract : IStream → IStream × α)
    (body : σ → α → Except PnmError σ) (f : Nat) (iss iss1 : IStream) (v : α) (st st1 : σ)
    (h : iss.eofbit = false) (hx : extract iss = (iss1, v)) (hf : iss1.failbit = false)
    (hb : body st v = .ok st1) :
    token_loop extract body (f + 1) iss st = token_loop extract body f iss1 st1 := by
  simp [token_loop, IStream.eof, IStream.fail, h, hx, hf, hb]

theorem put_nat_not_newline (n : Nat) : ∀ c ∈ put_nat n, (c != 10) = true :=
  fun c hc => isdigit_ne_newline (put_nat_digits n c hc)

theorem put_nat_not_hash (n : Nat) : ∀ c ∈ put_nat n, (c != 35) = true :=
  fun c hc => isdigit_ne_hash (put_nat_digits n c hc)

theorem put_nat_ne_nil (n : Nat) : put_nat n ≠ [] := by
  obtain ⟨d, ds, h1, -⟩ := put_nat_spec n
  simp [h1]

/-- The size line `"<w> <h>"` gives two tokens. -/
theorem token_loop_size_line {σ : Type} (body : σ → Nat → Except PnmError σ) (w h : Nat)
    (hw : w < 2 ^ 64) (hh : h < 2 ^ 64) (st st1 st2 : σ) (hb1 : body st w = .ok st1)
    (hb2 : body st1 h = .ok st2) (fuel : Nat) (hf : 3 ≤ fuel) :
    token_loop (fun s => s.extract_size_t 0) body fuel
      (IStream.ofBytes (put_nat w ++ [32] ++ put_nat h)) st = some (.ok st2) := by
  obtain ⟨f, rfl⟩ : ∃ f, fuel = f + 3 := ⟨fuel - 3, by omega⟩
  have h1 := extract_size_t_put_nat [] (by simp) w hw 32 (by decide) (put_nat h) 0
  have h2 := extract_size_t_put_nat_end [32] (by simp [isspace]) h hh 0
  simp only [List.nil_append] at h1
  rw [IStream.ofBytes, List.append_assoc, List.singleton_append,
    token_loop_step _ body (f + 2) _ _ w st st1 rfl h1 rfl hb1]
  rw [token_loop_step _ body (f + 1) _ _ h st1 st2 rfl h2 rfl hb2]
  exact token_loop_eof _ _ _ _ _ rfl

/-- The line `"<m>"` gives one token. -/
theorem token_loop_max_line {σ : Type} (body : σ → Nat → Except PnmError σ) (m : Nat)
    (hm : m < 2 ^ 64) (st st1 : σ) (hb1 : body st m = .ok st1) (fuel : Nat) (hf : 2 ≤ fuel) :
    token_loop (fun s => s.extract_size_t 0) body fuel (IStream.ofBytes (put_nat m)) st =
      some (.ok st1) := by
  obtain ⟨f, rfl⟩ : ∃ f, fuel = f + 2 := ⟨fuel - 2, by omega⟩
  have h2 := extract_size_t_put_nat_end [] (by simp) m hm 0
  simp only [List.nil_append] at h2
  rw [IStream.ofBytes, token_loop_step _ body (f + 1) _ _ m st st1 rfl h2 rfl hb1]
  exact token_loop_eof _ _ _ _ _ rfl

theorem size_line_chars (w h : Nat) :
    ∀ c ∈ put_nat w ++ [32] ++ put_nat h, (c != 10) = true ∧ (c != 35) = true := by
  intro c hc
  simp only [List.mem_append, List.mem_singleton] at hc
  rcases hc with (hc | hc) | hc
  · exact ⟨put_nat_not_newline w c hc, put_nat_not_hash w c hc⟩
  · subst hc; decide
  · exact ⟨put_nat_not_newline h c hc, put_nat_not_hash h c hc⟩

/-- The header loop of `read_pbm_ascii` on the text that follows the magic code. -/
theorem size_header_loop (w h : Nat) (hw : w < 2 ^ 64) (hh : h < 2 ^ 64) (rest : List Nat)
    (tokfuel fuel : Nat) (htf : 3 ≤ tokfuel) (hf : 2 ≤ fuel) :
    line_loop (fun s => s.extract_size_t 0) (fun h tmp => .ok (size_header.assign h tmp))
      (fun h => h.x_read && h.y_read) tokfuel fuel
      ⟨10 :: (put_nat w ++ [32] ++ put_nat h ++ 10 :: rest), false, false⟩ ⟨false, false, 0, 0⟩ =
      some (.ok (⟨rest, false, false⟩, ⟨true, true, w, h⟩)) := by
  obtain ⟨f, rfl⟩ : ∃ f, fuel = f + 2 := ⟨fuel - 2, by omega⟩
  have g1 := getline_line [] (put_nat w ++ [32] ++ put_nat h ++ 10 :: rest) (by simp)
  have g2 := getline_line (put_nat w ++ [32] ++ put_nat h) rest
    (fun c hc => (size_line_chars w h c hc).1)
  have e2 := erase_comment_self (put_nat w ++ [32] ++ put_nat h)
    (fun c hc => (size_line_chars w h c hc).2)
  have hne : (put_nat w ++ [32] ++ put_nat h).isEmpty = false := by simp
  have t2 := token_loop_size_line (fun h tmp => .ok (size_header.assign h tmp)) w h hw hh
    ⟨false, false, 0, 0⟩ ⟨true, false, w, 0⟩ ⟨true, true, w, h⟩ (by simp [size_header.assign])
    (by simp [size_header.assign]) tokfuel htf
  simp only [List.nil_append] at g1
  rw [line_loop]
  simp only [IStream.eof, g1, erase_comment, List.takeWhile_nil, List.isEmpty_nil]
  rw [line_loop]
  simp only [IStream.eof, g2]
  simp only [e2, hne, t2]
  simp

/-- The header loop of `read_pgm_ascii` / `read_ppm_ascii` on the text that
follows the magic code. -/
theorem header_loop (w h m : Nat) (hw : w < 2 ^ 64) (hh : h < 2 ^ 64) (hm : m < 2 ^ 64)
    (rest : List Nat) (tokfuel fuel : Nat) (htf : 3 ≤ tokfuel) (hf : 3 ≤ fuel) :
    line_loop (fun s => s.extract_size_t 0) (fun h tmp => .ok (header.assign h tmp))
      (fun h => h.x_read && h.y_read && h.max_read) tokfuel fuel
      ⟨10 :: (put_nat w ++ [32] ++ put_nat h ++ 10 :: (put_nat m ++ 10 :: rest)), false, false⟩
      ⟨false, false, false, 0, 0, 0⟩ =
      some (.ok (⟨rest, false, false⟩, ⟨true, true, true, w, h, m⟩)) := by
  obtain ⟨f, rfl⟩ : ∃ f, fuel = f + 3 := ⟨fuel - 3, by omega⟩
  have g1 := getline_line [] (put_nat w ++ [32] ++ put_nat h ++ 10 :: (put_nat m ++ 10 :: rest))
    (by simp)
  have g2 := getline_line (put_nat w ++ [32] ++ put_nat h) (put_nat m ++ 10 :: rest)
    (fun c hc => (size_line_chars w h c hc).1)
  have g3 := getline_line (put_nat m) rest (put_nat_not_newline m)
  have e2 := erase_comment_self (put_nat w ++ [32] ++ put_nat h)
    (fun c hc => (size_line_chars w h c hc).2)
  have e3 := erase_comment_self (put_nat m) (put_nat_not_hash m)
  have hne : (put_nat w ++ [32] ++ put_nat h).isEmpty = false := by simp
  have hne3 : (put_nat m).isEmpty = false := by
    have := put_nat_ne_nil m
    cases hp : put_nat m with
    | nil => exact absurd hp this
    | cons a l => rfl
  have t2 := token_loop_size_line (fun h tmp => .ok (header.assign h tmp)) w h hw hh
    ⟨false, false, false, 0, 0, 0⟩ ⟨true, false, false, w, 0, 0⟩ ⟨true, true, false, w, h, 0⟩
    (by simp [header.assign]) (by simp [header.assign]) tokfuel htf
  have t3 := token_loop_max_line (fun h tmp => .ok (header.assign h tmp)) m hm
    ⟨true, true, false, w, h, 0⟩ ⟨true, true, true, w, h, m⟩ (by simp [header.assign])
    tokfuel (by omega)
  simp only [List.nil_append] at g1
  rw [line_loop]
  simp only [IStream.eof, g1, erase_comment, List.takeWhile_nil, List.isEmpty_nil]
  rw [line_loop]
  simp only [IStream.eof, g2]
  simp only [e2, hne, t2]
  simp only [Bool.and_false, Bool.false_eq_true, if_false]
  rw [line_loop]
  simp only [IStream.eof, g3]
  simp only [e3, hne3, t3]
  simp

/-! ## Rows of a well-formed image -/

theorem chunks_flatten (n : Nat) : ∀ (m : Nat) (l : List α), l.length = n * m →
    ((List.range m).map (fun j => (l.drop (j * n)).take n)).flatten = l := by
  intro m
  induction m with
  | zero => intro l h; simp at h; simp [h]
  | succ m ih =>
    intro l h
    rw [List.range_succ_eq_map, List.map_cons, List.map_map, List.flatten_cons]
    have h2 : (l.drop n).length = n * m := by
      rw [List.length_drop, h]; rw [Nat.mul_succ]; omega
    have h3 : ((fun j => (l.drop (j * n)).take n) ∘ Nat.succ) =
        (fun j => ((l.drop n).drop (j * n)).take n) := by
      funext j
      simp only [Function.comp, List.drop_drop]
      congr 2
      rw [Nat.succ_mul]; omega
    rw [h3, ih (l.drop n) h2]
    simp

theorem Image.rows_flatten {P : Type} (img : Image P) (h : img.wf) :
    img.rows.flatten = img.pixels := by
  have := chunks_flatten img.nx img.ny img.pixels (by rw [h.1])
  simpa [Image.rows, Image.row] using this

theorem Image.row_length {P : Type} (img : Image P) (h : img.wf) (j : Nat) (hj : j < img.ny) :
    (img.row j).length = img.nx := by
  have h1 : (j + 1) * img.nx ≤ img.nx * img.ny := by
    rw [Nat.mul_comm img.nx]; exact Nat.mul_le_mul_right _ hj
  simp only [Image.row, List.length_take, List.length_drop, h.1]
  rw [Nat.succ_mul] at h1
  omega

/-- Reading row `j` pixel by pixel through `img(i, j)` gives `img.row j`. -/
theorem Image.get_row {P : Type} [Inhabited P] (img : Image P) (h : img.wf) (j : Nat)
    (hj : j < img.ny) : (List.range img.nx).map (fun i => img.get i j) = img.row j := by
  have h1 : (j + 1) * img.nx ≤ img.nx * img.ny := by
    rw [Nat.mul_comm img.nx]; exact Nat.mul_le_mul_right _ hj
  rw [Nat.succ_mul] at h1
  apply List.ext_getElem
  · simp [Image.row_length img h j hj]
  · intro i hi1 hi2
    simp only [List.length_map, List.length_range] at hi1
    have hlt : i + j * img.nx < 2 ^ 64 := by have := h.2.2.2; omega
    have hlen : i + j * img.nx < img.pixels.length := by rw [h.1]; omega
    simp only [List.getElem_map, List.getElem_range, Image.get, Image.offset, Image.raw_access,
      Nat.mod_eq_of_lt hlt, Image.row, List.getElem_take, List.getElem_drop]
    rw [List.getD_eq_getElem _ _ hlen]
    congr 1
    omega

/-- The nested loops `for j < ny, for i < nx` of the encoders write the rows
of the buffer in order. -/
theorem encode_rows {P : Type} [Inhabited P] (img : Image P) (h : img.wf) (g : P → List Nat)
    (sep : List Nat) :
    (List.range img.ny).flatMap (fun j =>
      (List.range img.nx).flatMap (fun i => g (img.get i j)) ++ sep) =
    img.rows.flatMap (fun row => row.flatMap g ++ sep) := by
  simp only [Image.rows, List.flatMap_map]
  apply List.flatMap_congr
  intro j hj
  have hj' : j < img.ny := List.mem_range.1 hj
  rw [← Image.get_row img h j hj', List.flatMap_map]

theorem raw_store_append {P : Type} (nx ny : Nat) (pre post : List P) (d p : P) :
    Image.raw_store ⟨nx, ny, pre ++ d :: post⟩ pre.length p = .ok ⟨nx, ny, pre ++ p :: post⟩ := by
  simp [Image.raw_store]

theorem mk_sized_wf {P : Type} [Inhabited P] (img : Image P) (h : img.wf) :
    (Image.mk_sized img.nx img.ny : Image P) =
      ⟨img.nx, img.ny, List.replicate img.pixels.length default⟩ := by
  rw [Image.mk_sized, Nat.mod_eq_of_lt h.2.2.2, h.1]

/-! ## PBM ASCII round trip -/

theorem extract_int_bit (sp : List Nat) (hsp : ∀ c ∈ sp, isspace c = true) (a : Int)
    (ha : a = 0 ∨ a = 1) (rest : List Nat) :
    IStream.extract_int ⟨sp ++ bit_text a ++ 32 :: rest, false, false⟩ 0 =
      (⟨32 :: rest, false, false⟩, a) := by
  have hd : isdigit (48 + a.toNat) = true := by rcases ha with rfl | rfl <;> decide
  have hs := sentry_skip sp hsp (48 + a.toNat) (32 :: rest) (isdigit_not_space hd)
  have h32 : isdigit 32 = false := by decide
  unfold IStream.extract_int
  simp only [bit_text, List.append_assoc, List.singleton_append, hs, scanInt_digit _ _ hd]
  rw [List.takeWhile_cons_of_pos hd, List.takeWhile_cons_of_neg (by simp [h32]),
    List.dropWhile_cons_of_pos hd, List.dropWhile_cons_of_neg (by simp [h32])]
  rcases ha with rfl | rfl <;> simp [digitsValue]

theorem extract_int_end (sp : List Nat) (hsp : ∀ c ∈ sp, isspace c = true) :
    (IStream.extract_int ⟨sp, false, false⟩ 0).1 = ⟨[], true, true⟩ := by
  simp [IStream.extract_int, sentry_end sp hsp]

theorem extract_size_t_end (sp : List Nat) (hsp : ∀ c ∈ sp, isspace c = true) :
    (IStream.extract_size_t ⟨sp, false, false⟩ 0).1 = ⟨[], true, true⟩ := by
  simp [IStream.extract_size_t, sentry_end sp hsp]

/-- The pixel loop body of `read_pbm_ascii` run over a list of samples that
fits the buffer. -/
theorem run_pbm_pixels (x y : Nat) (vals : List Int) : ∀ (pre : List bit_pixel) (k : Nat),
    (x * y) % 2 ^ 64 = pre.length + vals.length + k →
    run_tokens (pbm_pixel_body x y)
      (⟨x, y, pre ++ List.replicate (vals.length + k) default⟩, pre.length) vals =
    .ok (⟨x, y, pre ++ vals.map (fun pix => ⟨pix != 0⟩) ++ List.replicate k default⟩,
          pre.length + vals.length) := by
  induction vals with
  | nil => intro pre k _; simp [run_tokens]
  | cons a l ih =>
    intro pre k h
    have h1 : ¬ ((x * y) % 2 ^ 64 ≤ pre.length) := by simp at h; omega
    have h2 : List.replicate ((a :: l).length + k) (default : bit_pixel) =
        default :: List.replicate (l.length + k) default := by
      simp [List.replicate_succ, Nat.add_right_comm]
    have h3 := ih (pre ++ [⟨a != 0⟩]) k (by simp at h ⊢; omega)
    simp only [run_tokens, pbm_pixel_body, h2, if_neg h1, raw_store_append]
    simp only [List.length_append, List.length_singleton, List.append_assoc,
      List.singleton_append] at h3
    rw [h3]
    simp [Nat.add_assoc, Nat.add_comm 1]

theorem bit_sample_decode (p : bit_pixel) : (⟨bit_sample p != 0⟩ : bit_pixel) = p := by
  rcases p with ⟨v⟩
  cases v <;> simp [bit_sample]

theorem write_pbm_ascii_eq (img : Image bit_pixel) (h : img.wf) :
    write_pbm_ascii img = 80 :: 49 :: 10 :: (put_nat img.nx ++ [32] ++ put_nat img.ny ++
      10 :: lines_text bit_text (img.rows.map (fun row => row.map bit_sample))) := by
  have hfun : (fun p : bit_pixel => [if p.value then 49 else 48, 32]) =
      (fun p => bit_text (bit_sample p) ++ [32]) := by
    funext p
    rcases p with ⟨v⟩
    cases v <;> simp [bit_text, bit_sample]
  have := encode_rows img h (fun p => [if p.value then 49 else 48, 32]) [10]
  simp only [write_pbm_ascii, put_size_header, this, lines_text, List.flatMap_map, hfun]
  simp

theorem read_magic_cons (a b : Nat) (rest : List Nat) :
    read_magic (a :: b :: rest) = (⟨rest, false, false⟩, a, b) := by
  simp [read_magic, IStream.ofBytes, IStream.read, IStream.good]

theorem Image.rows_length {P : Type} (img : Image P) : img.rows.length = img.ny := by
  simp [Image.rows]

theorem Image.mem_rows_length {P : Type} (img : Image P) (h : img.wf) :
    ∀ row ∈ img.rows, row.length = img.nx := by
  intro row hrow
  obtain ⟨j, hj, rfl⟩ := List.mem_map.1 hrow
  exact img.row_length h j (List.mem_range.1 hj)

/-- C6 (PBM ASCII round trip): for every well-formed bit image, `read_pbm_ascii`
applied to the bytes written by `write_pbm_ascii` terminates (any loop budget
of at least `nx + ny + 3` is enough) and returns the very same image: same
width, same height and the same boolean value in every pixel. -/
theorem pbm_ascii_round_trip (img : Image bit_pixel) (h : img.wf) (fuel : Nat)
    (hf : img.nx + img.ny + 3 ≤ fuel) :
    read_pbm_ascii fuel (write_pbm_ascii img) = some (.ok img) := by
  have hl := line_loop_rows (fun s => s.extract_int 0) (pbm_pixel_body img.nx img.ny) bit_text
    (fun a => a = 0 ∨ a = 1) extract_int_bit extract_int_end
    (by
      intro a ha c hc
      simp only [bit_text, List.mem_singleton] at hc
      rcases ha with rfl | rfl <;> subst hc <;> decide)
    fuel (img.rows.map (fun row => row.map bit_sample))
    (by
      intro row hrow
      obtain ⟨r, hr, rfl⟩ := List.mem_map.1 hrow
      rw [List.length_map, img.mem_rows_length h r hr]; omega)
    (by
      intro row hrow a ha
      obtain ⟨r, -, rfl⟩ := List.mem_map.1 hrow
      obtain ⟨p, -, rfl⟩ := List.mem_map.1 ha
      rcases p with ⟨v⟩
      cases v <;> simp [bit_sample])
    (⟨img.nx, img.ny, List.replicate img.pixels.length default⟩, 0) fuel
    (by rw [List.length_map, img.rows_length]; omega)
  have hflat : (img.rows.map (fun row => row.map bit_sample)).flatten =
      img.pixels.map bit_sample := by
    rw [← List.map_flatten, img.rows_flatten h]
  have hrun := run_pbm_pixels img.nx img.ny (img.pixels.map bit_sample) [] 0
    (by rw [Nat.mod_eq_of_lt h.2.2.2, ← h.1]; simp)
  simp only [List.length_map, Nat.add_zero, List.nil_append, List.length_nil, List.map_map,
    List.replicate_zero, List.append_nil, Nat.zero_add] at hrun
  have hdec : (fun pix : Int => (⟨pix != 0⟩ : bit_pixel)) ∘ bit_sample = id := by
    funext p; exact bit_sample_decode p
  rw [hdec, List.map_id] at hrun
  rw [hflat, hrun] at hl
  rw [write_pbm_ascii_eq img h]
  unfold read_pbm_ascii
  rw [read_magic_cons]
  simp only [size_header_loop img.nx img.ny h.2.1 h.2.2.1 _ fuel fuel (by omega) (by omega),
    mk_sized_wf img h, hl]
  simp

/-! ## PPM ASCII round trip -/

/-- The pixel loop body of `read_ppm_ascii` run over the samples of a list of
pixels that fits the buffer. -/
theorem run_ppm_pixels (g : gain) (x y : Nat) (ps : List rgb_pixel) :
    ∀ (pre : List rgb_pixel) (k : Nat) (px : rgb_pixel),
    (x * y) % 2 ^ 64 = pre.length + ps.length + k →
    ∃ px1, run_tokens (ppm_pixel_body g x y)
      ⟨⟨x, y, pre ++ List.replicate (ps.length + k) default⟩, pre.length, false, false, false, px⟩
      (ps.flatMap rgb_samples) =
    .ok ⟨⟨x, y, pre ++ ps.map (rgb_decode g) ++ List.replicate k default⟩,
          pre.length + ps.length, false, false, false, px1⟩ := by
  induction ps with
  | nil => intro pre k px _; exact ⟨px, by simp [run_tokens]⟩
  | cons a l ih =>
    intro pre k px h
    have h1 : ¬ ((x * y) % 2 ^ 64 ≤ pre.length) := by simp at h; omega
    have h2 : List.replicate ((a :: l).length + k) (default : rgb_pixel) =
        default :: List.replicate (l.length + k) default := by
      simp [List.replicate_succ, Nat.add_right_comm]
    obtain ⟨px1, h3⟩ := ih (pre ++ [rgb_decode g a]) k (rgb_decode g a)
      (by simp at h ⊢; omega)
    refine ⟨px1, ?_⟩
    have hfm : (a :: l).flatMap rgb_samples =
        a.red :: a.green :: a.blue :: l.flatMap rgb_samples := rfl
    rw [hfm]
    simp only [run_tokens,
      ppm_pixel_body, h2, if_neg h1, raw_store_append, Bool.not_false, Bool.not_true, if_true,
      Bool.false_eq_true, if_false]
    simp only [List.length_append, List.length_singleton, List.append_assoc,
      List.singleton_append, rgb_decode] at h3
    rw [h3]
    simp [Nat.add_assoc, Nat.add_comm 1, rgb_decode]

theorem rgb_samples_length (r : List rgb_pixel) :
    (r.flatMap rgb_samples).length = 3 * r.length := by
  induction r with
  | nil => rfl
  | cons a l ih =>
    rw [List.flatMap_cons, List.length_append, ih]
    simp [rgb_samples]
    omega

theorem flatten_map_flatMap {α β : Type} (f : α → List β) (rows : List (List α)) :
    (rows.map (fun r => r.flatMap f)).flatten = rows.flatten.flatMap f := by
  induction rows with
  | nil => rfl
  | cons r rs ih => simp [List.flatMap_append, ih]

theorem put_nat_255 : put_nat 255 = [50, 53, 53] := by decide

theorem put_nat_256 : put_nat 256 = [50, 53, 54] := by decide

theorem write_ppm_ascii_eq (img : Image rgb_pixel) (h : img.wf) :
    write_ppm_ascii img = 80 :: 51 :: 10 :: (put_nat img.nx ++ [32] ++ put_nat img.ny ++
      10 :: (put_nat 255 ++ 10 ::
        lines_text put_nat (img.rows.map (fun row => row.flatMap rgb_samples)))) := by
  have hfun : (fun p : rgb_pixel => put_nat p.red ++ [32] ++ put_nat p.green ++ [32] ++
      put_nat p.blue ++ [32]) = (fun p => (rgb_samples p).flatMap (fun a => put_nat a ++ [32])) := by
    funext p
    simp [rgb_samples]
  have := encode_rows img h (fun p => put_nat p.red ++ [32] ++ put_nat p.green ++ [32] ++
      put_nat p.blue ++ [32]) [10]
  simp only [write_ppm_ascii, put_size_header, this, lines_text, List.flatMap_map, hfun,
    put_nat_255, List.flatMap_assoc]
  simp

theorem gain_identity_byte (v : Nat) (hv : v < 256) : (get_gain 255).invoke v = v := by
  simp [get_gain, gain.invoke, Nat.mod_eq_of_lt hv]

theorem rgb_decode_identity (p : rgb_pixel) (hp : p.is_byte) : rgb_decode (get_gain 255) p = p := by
  rcases p with ⟨r, g, b⟩
  simp only [rgb_pixel.is_byte] at hp
  simp [rgb_decode, gain_identity_byte, hp.1, hp.2.1, hp.2.2]

/-- C4 (PPM ASCII round trip): for every well-formed RGB image whose channel
values are all in 0..255, `read_ppm_ascii` applied to the bytes written by
`write_ppm_ascii` terminates (any loop budget of at least `3 * nx + ny + 3` is
enough) and returns the very same image: same width, same height and the
same red, green and blue value in every pixel. -/
theorem ppm_ascii_round_trip (img : Image rgb_pixel) (h : img.wf)
    (hb : ∀ p ∈ img.pixels, p.is_byte) (fuel : Nat) (hf : 3 * img.nx + img.ny + 3 ≤ fuel) :
    read_ppm_ascii fuel (write_ppm_ascii img) = some (.ok img) := by
  have hl := line_loop_rows (fun s => s.extract_size_t 0)
    (ppm_pixel_body (get_gain 255) img.nx img.ny) put_nat (fun a => a < 2 ^ 64)
    (fun sp hsp a ha rest => extract_size_t_put_nat sp hsp a ha 32 (by decide) rest 0)
    extract_size_t_end
    (fun a _ c hc => ⟨put_nat_not_newline a c hc, put_nat_not_hash a c hc⟩)
    fuel (img.rows.map (fun row => row.flatMap rgb_samples))
    (by
      intro row hrow
      obtain ⟨r, hr, rfl⟩ := List.mem_map.1 hrow
      rw [rgb_samples_length, img.mem_rows_length h r hr]; omega)
    (by
      intro row hrow a ha
      obtain ⟨r, hr, rfl⟩ := List.mem_map.1 hrow
      obtain ⟨p, hp, hap⟩ := List.mem_flatMap.1 ha
      have hpm : p ∈ img.pixels := by
        rw [← img.rows_flatten h]; exact List.mem_flatten.2 ⟨r, hr, hp⟩
      have := hb p hpm
      simp only [rgb_pixel.is_byte] at this
      simp only [rgb_samples, List.mem_cons, List.mem_singleton, List.not_mem_nil, or_false] at hap
      have h256 : (256 : Nat) < 2 ^ 64 := by norm_num
      rcases hap with rfl | rfl | rfl <;> omega)
    ⟨⟨img.nx, img.ny, List.replicate img.pixels.length default⟩, 0, false, false, false, ⟨0, 0, 0⟩⟩
    fuel (by rw [List.length_map, img.rows_length]; omega)
  have hflat : (img.rows.map (fun row => row.flatMap rgb_samples)).flatten =
      img.pixels.flatMap rgb_samples := by
    rw [flatten_map_flatMap, img.rows_flatten h]
  obtain ⟨px1, hrun⟩ := run_ppm_pixels (get_gain 255) img.nx img.ny img.pixels [] 0 ⟨0, 0, 0⟩
    (by rw [Nat.mod_eq_of_lt h.2.2.2, ← h.1]; simp)
  have hdec : img.pixels.map (rgb_decode (get_gain 255)) = img.pixels := by
    conv_rhs => rw [← List.map_id img.pixels]
    exact List.map_congr_left (fun p hp => rgb_decode_identity p (hb p hp))
  simp only [Nat.add_zero, List.nil_append, List.length_nil, List.replicate_zero,
    List.append_nil, Nat.zero_add, hdec] at hrun
  rw [hflat, hrun] at hl
  rw [write_ppm_ascii_eq img h]
  unfold read_ppm_ascii
  rw [read_magic_cons]
  simp only [header_loop img.nx img.ny 255 h.2.1 h.2.2.1 (by norm_num) _ fuel fuel (by omega)
    (by omega), mk_sized_wf img h, hl]
  simp

/-! ## PPM binary round trip -/

theorem read_byte_cons (a : Nat) (t : List Nat) :
    IStream.read_byte ⟨a :: t, false, false⟩ = (⟨t, false, false⟩, a) := by
  simp [IStream.read_byte, IStream.read, IStream.good]

/-- The size line `"<w> <h>\n"` of a binary file. -/
theorem read_size_line_put (w h : Nat) (hw : w < 2 ^ 64) (hh : h < 2 ^ 64) (rest : List Nat) :
    read_size_line ⟨put_nat w ++ [32] ++ put_nat h ++ 10 :: rest, false, false⟩ =
      (⟨rest, false, false⟩, put_nat w ++ [32] ++ put_nat h, false, w, h) := by
  have g := getline_line (put_nat w ++ [32] ++ put_nat h) rest
    (fun c hc => (size_line_chars w h c hc).1)
  have h1 := extract_size_t_put_nat [] (by simp) w hw 32 (by decide) (put_nat h) 0
  have h2 := extract_size_t_put_nat_end [32] (by simp [isspace]) h hh 0
  simp only [List.nil_append] at h1
  simp only [List.singleton_append] at h2
  simp only [List.append_assoc, List.singleton_append, List.cons_append, List.nil_append] at g
  simp only [read_size_line, List.append_assoc, List.singleton_append, List.cons_append,
    List.nil_append, g,
    IStream.ofBytes, h1, h2, IStream.fail]

/-- The max-value line `"<m>\n"` of a binary file. -/
theorem read_max_line_put (m : Nat) (hm : m < 2 ^ 64) (rest : List Nat) :
    read_max_line ⟨put_nat m ++ 10 :: rest, false, false⟩ =
      (⟨rest, false, false⟩, put_nat m, false, m) := by
  have g := getline_line (put_nat m) rest (put_nat_not_newline m)
  have h2 := extract_size_t_put_nat_end [] (by simp) m hm 0
  simp only [List.nil_append] at h2
  simp only [read_max_line, g, IStream.ofBytes, h2, IStream.fail]

/-- The pixel loop of `read_ppm_binary` over the bytes of a list of pixels
that fits the buffer. -/
theorem for_loop_ppm_binary (g : gain) (x y : Nat) (rest : List Nat) (ps : List rgb_pixel) :
    ∀ (pre : List rgb_pixel) (k : Nat),
    for_loop (read_ppm_binary_pixel g) ps.length pre.length
      (⟨x, y, pre ++ List.replicate (ps.length + k) default⟩,
       ⟨ps.flatMap rgb_samples ++ rest, false, false⟩) =
    .ok (⟨x, y, pre ++ ps.map (rgb_decode g) ++ List.replicate k default⟩,
         ⟨rest, false, false⟩) := by
  induction ps with
  | nil => intro pre k; simp [for_loop]
  | cons a l ih =>
    intro pre k
    have h2 : List.replicate ((a :: l).length + k) (default : rgb_pixel) =
        default :: List.replicate (l.length + k) default := by
      simp [List.replicate_succ, Nat.add_right_comm]
    have hfm : (a :: l).flatMap rgb_samples ++ rest =
        a.red :: a.green :: a.blue :: (l.flatMap rgb_samples ++ rest) := rfl
    have h3 := ih (pre ++ [rgb_decode g a]) k
    simp only [List.length_append, List.length_singleton, List.append_assoc,
      List.singleton_append, rgb_decode] at h3
    rw [hfm, h2, List.length_cons, for_loop]
    simp only [read_ppm_binary_pixel, read_byte_cons, raw_store_append]
    rw [h3]
    simp [rgb_decode]

theorem write_ppm_binary_eq (img : Image rgb_pixel) (h : img.wf) :
    write_ppm_binary img = [80, 54] ++ 10 :: (put_nat img.nx ++ [32] ++ put_nat img.ny ++
      10 :: (put_nat 255 ++ 10 :: img.pixels.flatMap rgb_samples)) := by
  have := encode_rows img h rgb_samples []
  simp only [List.append_nil] at this
  have hf : (fun j => (List.range img.nx).flatMap (fun i =>
      [(img.get i j).red, (img.get i j).green, (img.get i j).blue])) =
      (fun j => (List.range img.nx).flatMap (fun i => rgb_samples (img.get i j))) := rfl
  have hflat : img.rows.flatMap (fun row => row.flatMap rgb_samples) =
      img.pixels.flatMap rgb_samples := by
    have h1 := flatten_map_flatMap rgb_samples img.rows
    rw [img.rows_flatten h] at h1
    exact h1
  simp only [write_ppm_binary, put_size_header, hf, this, put_nat_255, hflat]
  simp

/-- C5 (PPM binary round trip): for every well-formed RGB image whose channel
values are all in 0..255 (bytes equal to newline or to the comment mark
included), `read_ppm_binary` applied to the bytes written by
`write_ppm_binary` returns the very same image: same width, same height and
the same red, green and blue value in every pixel. -/
theorem ppm_binary_round_trip (img : Image rgb_pixel) (h : img.wf)
    (hb : ∀ p ∈ img.pixels, p.is_byte) :
    read_ppm_binary (write_ppm_binary img) = .ok img := by
  have hdec : img.pixels.map (rgb_decode (get_gain 255)) = img.pixels := by
    conv_rhs => rw [← List.map_id img.pixels]
    exact List.map_congr_left (fun p hp => rgb_decode_identity p (hb p hp))
  have hloop := for_loop_ppm_binary (get_gain 255) img.nx img.ny [] img.pixels [] 0
  simp only [Nat.add_zero, List.nil_append, List.length_nil, List.replicate_zero,
    List.append_nil, hdec] at hloop
  have g := getline_line [80, 54] (put_nat img.nx ++ [32] ++ put_nat img.ny ++
      10 :: (put_nat 255 ++ 10 :: img.pixels.flatMap rgb_samples)) (by decide)
  rw [write_ppm_binary_eq img h]
  unfold read_ppm_binary read_ppm_binary_stream
  simp only [IStream.ofBytes, g, read_size_line_put img.nx img.ny h.2.1 h.2.2.1,
    read_max_line_put 255 (by norm_num), mk_sized_wf img h, Image.size, List.length_replicate,
    hloop]
  simp

/-! ## PGM ASCII: what is read back -/

/-- The pixel loop body of `read_pgm_ascii` run over a list of samples that
fits the buffer. -/
theorem run_pgm_pixels (g : gain) (x y : Nat) (vals : List Nat) :
    ∀ (pre : List gray_pixel) (k : Nat),
    (x * y) % 2 ^ 64 = pre.length + vals.length + k →
    run_tokens (pgm_pixel_body g x y)
      (⟨x, y, pre ++ List.replicate (vals.length + k) default⟩, pre.length) vals =
    .ok (⟨x, y, pre ++ vals.map (fun pix => ⟨g.invoke pix⟩) ++ List.replicate k default⟩,
          pre.length + vals.length) := by
  induction vals with
  | nil => intro pre k _; simp [run_tokens]
  | cons a l ih =>
    intro pre k h
    have h1 : ¬ ((x * y) % 2 ^ 64 ≤ pre.length) := by simp at h; omega
    have h2 : List.replicate ((a :: l).length + k) (default : gray_pixel) =
        default :: List.replicate (l.length + k) default := by
      simp [List.replicate_succ, Nat.add_right_comm]
    have h3 := ih (pre ++ [⟨g.invoke a⟩]) k (by simp at h ⊢; omega)
    simp only [run_tokens, pgm_pixel_body, h2, if_neg h1, raw_store_append]
    simp only [List.length_append, List.length_singleton, List.append_assoc,
      List.singleton_append] at h3
    rw [h3]
    simp [Nat.add_assoc, Nat.add_comm 1]

theorem write_pgm_ascii_eq (img : Image gray_pixel) (h : img.wf) :
    write_pgm_ascii img = 80 :: 50 :: 10 :: (put_nat img.nx ++ [32] ++ put_nat img.ny ++
      10 :: (put_nat 256 ++ 10 ::
        lines_text put_nat (img.rows.map (fun row => row.map gray_pixel.value)))) := by
  have := encode_rows img h (fun p => put_nat p.value ++ [32]) [10]
  simp only [write_pgm_ascii, put_size_header, this, lines_text, List.flatMap_map, put_nat_256]
  simp

/-- Reading back a file written by `write_pgm_ascii`: the declared maximum is
256, so every sample goes through the gain selected for 256. -/
theorem pgm_ascii_read_back (img : Image gray_pixel) (h : img.wf)
    (hb : ∀ p ∈ img.pixels, p.value < 256) (fuel : Nat) (hf : img.nx + img.ny + 3 ≤ fuel) :
    read_pgm_ascii fuel (write_pgm_ascii img) =
      some (.ok ⟨img.nx, img.ny,
        img.pixels.map (fun p => ⟨(get_gain 256).invoke p.value⟩)⟩) := by
  have hl := line_loop_rows (fun s => s.extract_size_t 0)
    (pgm_pixel_body (get_gain 256) img.nx img.ny) put_nat (fun a => a < 2 ^ 64)
    (fun sp hsp a ha rest => extract_size_t_put_nat sp hsp a ha 32 (by decide) rest 0)
    extract_size_t_end
    (fun a _ c hc => ⟨put_nat_not_newline a c hc, put_nat_not_hash a c hc⟩)
    fuel (img.rows.map (fun row => row.map gray_pixel.value))
    (by
      intro row hrow
      obtain ⟨r, hr, rfl⟩ := List.mem_map.1 hrow
      rw [List.length_map, img.mem_rows_length h r hr]; omega)
    (by
      intro row hrow a ha
      obtain ⟨r, hr, rfl⟩ := List.mem_map.1 hrow
      obtain ⟨p, hp, rfl⟩ := List.mem_map.1 ha
      have hpm : p ∈ img.pixels := by
        rw [← img.rows_flatten h]; exact List.mem_flatten.2 ⟨r, hr, hp⟩
      have := hb p hpm
      have h256 : (256 : Nat) < 2 ^ 64 := by norm_num
      omega)
    (⟨img.nx, img.ny, List.replicate img.pixels.length default⟩, 0) fuel
    (by rw [List.length_map, img.rows_length]; omega)
  have hflat : (img.rows.map (fun row => row.map gray_pixel.value)).flatten =
      img.pixels.map gray_pixel.value := by
    rw [← List.map_flatten, img.rows_flatten h]
  have hrun := run_pgm_pixels (get_gain 256) img.nx img.ny (img.pixels.map gray_pixel.value) [] 0
    (by rw [Nat.mod_eq_of_lt h.2.2.2, ← h.1]; simp)
  simp only [List.length_map, Nat.add_zero, List.nil_append, List.length_nil, List.map_map,
    List.replicate_zero, List.append_nil, Nat.zero_add] at hrun
  rw [hflat, hrun] at hl
  rw [write_pgm_ascii_eq img h]
  unfold read_pgm_ascii
  rw [read_magic_cons]
  simp only [header_loop img.nx img.ny 256 h.2.1 h.2.2.1 (by norm_num) _ fuel fuel (by omega)
    (by omega), mk_sized_wf img h, hl]
  simp

/-! ## The codecs at concrete images (C1, C2, C3, C7, C8, C9, C10) and instances of the round trips -/

set_option maxRecDepth 100000 in
/-- C1 (PGM ASCII round trip), evaluated at the 2x1 image with values 10, 20:
`write_pgm_ascii` declares the maximum 256, so `read_pgm_ascii` rescales every
sample by 256/257 and, for every loop budget of at least 6, returns the
values 9 and 19 instead of 10 and 20. -/
theorem pgm_ascii_round_trip_fails (fuel : Nat) :
    read_pgm_ascii (fuel + 6) (write_pgm_ascii ⟨2, 1, [⟨10⟩, ⟨20⟩]⟩) =
      some (.ok ⟨2, 1, [⟨9⟩, ⟨19⟩]⟩) := by
  have h := pgm_ascii_read_back ⟨2, 1, [⟨10⟩, ⟨20⟩]⟩ (by simp [Image.wf]) (by simp)
    (fuel + 6) (by simp)
  rw [h]
  decide

/-- C2 (PBM binary round trip), evaluated at the 8x2 image whose first row is
all false and whose second row is all true: `read_pbm_binary` reads a second
byte for row 0 (the data of row 1) and finds the end of the file for row 1,
so the image read back is all false. -/
theorem pbm_binary_round_trip_fails :
    read_pbm_binary (write_pbm_binary
      ⟨8, 2, List.replicate 8 ⟨false⟩ ++ List.replicate 8 ⟨true⟩⟩) =
      .ok ⟨8, 2, List.replicate 16 ⟨false⟩⟩ := by
  decide

set_option maxRecDepth 100000 in
/-- C3 (PGM binary round trip), evaluated at the 1x2 image with values 100,
200: `write_pgm_binary` declares the maximum 256 and writes a newline after
each row, so `read_pgm_binary` returns 99 (100 rescaled) and 9 (the newline
byte 10 rescaled). -/
theorem pgm_binary_round_trip_fails :
    read_pgm_binary (write_pgm_binary ⟨1, 2, [⟨100⟩, ⟨200⟩]⟩) =
      .ok ⟨1, 2, [⟨99⟩, ⟨9⟩]⟩ := by
  decide

/-- C7 (PBM binary bit packing), evaluated at a row of width 9 with all pixels
true: `buf` is not cleared between the bytes of a row, so the second byte
written is 0xFF, not 0x80. -/
theorem pbm_binary_row_accumulates :
    write_pbm_binary_row_bytes ⟨9, 1, List.replicate 9 ⟨true⟩⟩ 0 = [0xFF, 0xFF] := by
  decide

/-- C8 (PBM binary bit mapping), evaluated at width 8, height 2 and the pixel
data 0xFF, 0x01: bit 0 of the second byte is set, yet pixel (7, 1) of the
decoded image is false (the whole second row is). -/
theorem pbm_binary_decode_second_row :
    read_pbm_binary ([80, 52, 10, 56, 32, 50, 10] ++ [0xFF, 0x01]) =
      .ok ⟨8, 2, List.replicate 8 ⟨true⟩ ++ List.replicate 8 ⟨false⟩⟩ := by
  decide

/-- C9 (PBM binary byte consumption), evaluated at width 8, height 1 followed
by three data bytes: `read_pbm_binary` consumes two of them (one byte is left
unread), although `1 * ceil(8/8)` is one. -/
theorem pbm_binary_reads_extra_byte :
    read_pbm_binary_stream ([80, 52, 10, 56, 32, 49, 10] ++ [0xFF, 0x01, 0x02]) =
      .ok (⟨8, 1, List.replicate 8 ⟨true⟩⟩, ⟨[0x02], false, false⟩) := by
  decide

/-- C10 (binary gray encoder separators), evaluated at the 1x2 image with
values 100, 200: after the header `write_pgm_binary` writes four bytes, the
two samples each followed by a newline. -/
theorem pgm_binary_writes_newlines :
    write_pgm_binary ⟨1, 2, [⟨100⟩, ⟨200⟩]⟩ =
      [80, 53, 10, 49, 32, 50, 10, 50, 53, 54, 10] ++ [100, 10, 200, 10] := by
  decide

/-- Witness for C4: a well-formed 2x2 image with 8-bit channels and a loop
budget of 11. -/
theorem ppm_ascii_round_trip_witness :
    Image.wf (⟨2, 2, [⟨10, 0, 255⟩, ⟨35, 10, 32⟩, ⟨1, 2, 3⟩, ⟨4, 5, 6⟩]⟩ : Image rgb_pixel) ∧
    3 * 2 + 2 + 3 ≤ 11 ∧
    read_ppm_ascii 11 (write_ppm_ascii
      ⟨2, 2, [⟨10, 0, 255⟩, ⟨35, 10, 32⟩, ⟨1, 2, 3⟩, ⟨4, 5, 6⟩]⟩) =
      some (.ok ⟨2, 2, [⟨10, 0, 255⟩, ⟨35, 10, 32⟩, ⟨1, 2, 3⟩, ⟨4, 5, 6⟩]⟩) :=
  ⟨by simp [Image.wf], by decide,
   ppm_ascii_round_trip ⟨2, 2, [⟨10, 0, 255⟩, ⟨35, 10, 32⟩, ⟨1, 2, 3⟩, ⟨4, 5, 6⟩]⟩
    (by simp [Image.wf]) (by simp [rgb_pixel.is_byte]) 11 (by decide)⟩

/-- Witness for C5: a well-formed 2x2 image that contains the bytes 10 and 35. -/
theorem ppm_binary_round_trip_witness :
    Image.wf (⟨2, 2, [⟨10, 0, 255⟩, ⟨35, 10, 32⟩, ⟨1, 2, 3⟩, ⟨4, 5, 6⟩]⟩ : Image rgb_pixel) ∧
    read_ppm_binary (write_ppm_binary
      ⟨2, 2, [⟨10, 0, 255⟩, ⟨35, 10, 32⟩, ⟨1, 2, 3⟩, ⟨4, 5, 6⟩]⟩) =
      .ok ⟨2, 2, [⟨10, 0, 255⟩, ⟨35, 10, 32⟩, ⟨1, 2, 3⟩, ⟨4, 5, 6⟩]⟩ :=
  ⟨by simp [Image.wf],
   ppm_binary_round_trip ⟨2, 2, [⟨10, 0, 255⟩, ⟨35, 10, 32⟩, ⟨1, 2, 3⟩, ⟨4, 5, 6⟩]⟩
    (by simp [Image.wf]) (by simp [rgb_pixel.is_byte])⟩

/-- Witness for C6: a well-formed 3x2 image and a loop budget of 8. -/
theorem pbm_ascii_round_trip_witness :
    Image.wf (⟨3, 2, [⟨true⟩, ⟨false⟩, ⟨true⟩, ⟨false⟩, ⟨false⟩, ⟨true⟩]⟩ : Image bit_pixel) ∧
    3 + 2 + 3 ≤ 8 ∧
    read_pbm_ascii 8 (write_pbm_ascii
      ⟨3, 2, [⟨true⟩, ⟨false⟩, ⟨true⟩, ⟨false⟩, ⟨false⟩, ⟨true⟩]⟩) =
      some (.ok ⟨3, 2, [⟨true⟩, ⟨false⟩, ⟨true⟩, ⟨false⟩, ⟨false⟩, ⟨true⟩]⟩) :=
  ⟨by simp [Image.wf], by decide,
   pbm_ascii_round_trip ⟨3, 2, [⟨true⟩, ⟨false⟩, ⟨true⟩, ⟨false⟩, ⟨false⟩, ⟨true⟩]⟩
    (by simp [Image.wf]) 8 (by decide)⟩

/-! ## Gain: identity and widening (C11, C12) -/

theorem gain_invoke_eq_scaled (g : gain) (x : Nat) : g.invoke x = g.scaled x % 256 := by
  cases g <;> rfl

/-- C11 (gain identity): with the declared maximum 255 `get_gain` selects the
identity strategy, which returns every sample `s` in 0..255 unchanged. -/
theorem gain_identity_unchanged :
    get_gain 255 = gain.identity ∧ ∀ s, s ≤ 255 → (get_gain 255).invoke s = s := by
  refine ⟨rfl, ?_⟩
  intro s hs
  have h : get_gain 255 = gain.identity := rfl
  rw [h]
  show s % 256 = s
  exact Nat.mod_eq_of_lt (by omega)

/-- Instance of C11 at the sample 200. -/
theorem gain_identity_unchanged_witness : (200 : Nat) ≤ 255 ∧ (get_gain 255).invoke 200 = 200 :=
  ⟨by decide, gain_identity_unchanged.2 200 (by decide)⟩

/-- C12 (gain widening): for every declared maximum `m < 255` `get_gain`
selects the widening strategy with the integer ratio `256 / (m + 1)`, and
for every sample `s` it returns `s * (256 / (m + 1))` reduced modulo 256; with
`m = 15` the ratio is 16 and the sample 15 maps to 240. -/
theorem gain_widening :
    (∀ m s, m < 255 → get_gain m = gain.enlarge (256 / (m + 1)) ∧
      (get_gain m).invoke s = (s * (256 / (m + 1))) % 256) ∧
    get_gain 15 = gain.enlarge 16 ∧ (get_gain 15).invoke 15 = 240 := by
  refine ⟨?_, by decide, by decide⟩
  intro m s hm
  have hg : get_gain m = gain.enlarge (256 / (m + 1)) := by
    have h1 : m ≠ 255 := by omega
    have h2 : ¬ 255 < m := by omega
    simp only [get_gain, if_neg h1, if_neg h2, enlarge_ratio]
    rw [Nat.mod_eq_of_lt (by omega)]
  refine ⟨hg, ?_⟩
  rw [hg]
  show (s * (256 / (m + 1))) % 2 ^ 64 % 256 = (s * (256 / (m + 1))) % 256
  exact Nat.mod_mod_of_dvd _ (by norm_num)

/-- Instance of C12 at the maximum 3 and the sample 2. -/
theorem gain_widening_witness :
    (3 : Nat) < 255 ∧ (get_gain 3).invoke 2 = (2 * (256 / (3 + 1))) % 256 :=
  ⟨by decide, (gain_widening.1 3 2 (by decide)).2⟩

/-! ## Magic codes: sniffing and explicit decoders (C15, C16, C17) -/

theorem read_descripter_cons (init : Nat × Nat) (a b : Nat) (rest : List Nat) :
    read_descripter init (a :: b :: rest) = (a, b) := by
  simp [read_descripter, IStream.ofBytes, IStream.read, IStream.good]

theorem read_pbm_cons (fuel : Nat) (init : Nat × Nat) (a b : Nat) (rest : List Nat) :
    read_pbm fuel init (a :: b :: rest) =
      if a = 80 ∧ b = 49 then read_pbm_ascii fuel (a :: b :: rest)
      else if a = 80 ∧ b = 52 then some (read_pbm_binary (a :: b :: rest))
      else some (.error (.bad_magic [a, b])) := by
  simp only [read_pbm, read_descripter_cons, Bool.and_eq_true, beq_iff_eq]

theorem read_pgm_cons (fuel : Nat) (init : Nat × Nat) (a b : Nat) (rest : List Nat) :
    read_pgm fuel init (a :: b :: rest) =
      if a = 80 ∧ b = 50 then read_pgm_ascii fuel (a :: b :: rest)
      else if a = 80 ∧ b = 53 then some (read_pgm_binary (a :: b :: rest))
      else some (.error (.bad_magic [a, b])) := by
  simp only [read_pgm, read_descripter_cons, Bool.and_eq_true, beq_iff_eq]

theorem read_ppm_cons (fuel : Nat) (init : Nat × Nat) (a b : Nat) (rest : List Nat) :
    read_ppm fuel init (a :: b :: rest) =
      if a = 80 ∧ b = 51 then read_ppm_ascii fuel (a :: b :: rest)
      else if a = 80 ∧ b = 54 then some (read_ppm_binary (a :: b :: rest))
      else some (.error (.bad_magic [a, b])) := by
  simp only [read_ppm, read_descripter_cons, Bool.and_eq_true, beq_iff_eq]

/-- C15 (format sniffing and dispatch): on every input with at least two
bytes `a, b`, each of `read_pbm`, `read_pgm`, `read_ppm` returns the result of
the family's ASCII decoder when `a b` is its ASCII magic (P1, P2, P3), the
result of the family's binary decoder when `a b` is its binary magic (P4, P5,
P6), and otherwise fails with a magic error that carries the two bytes. -/
theorem sniff_dispatch (fuel : Nat) (init : Nat × Nat) (a b : Nat) (rest : List Nat) :
    (read_pbm fuel init (a :: b :: rest) =
      if a = 80 ∧ b = 49 then read_pbm_ascii fuel (a :: b :: rest)
      else if a = 80 ∧ b = 52 then some (read_pbm_binary (a :: b :: rest))
      else some (.error (.bad_magic [a, b]))) ∧
    (read_pgm fuel init (a :: b :: rest) =
      if a = 80 ∧ b = 50 then read_pgm_ascii fuel (a :: b :: rest)
      else if a = 80 ∧ b = 53 then some (read_pgm_binary (a :: b :: rest))
      else some (.error (.bad_magic [a, b]))) ∧
    (read_ppm fuel init (a :: b :: rest) =
      if a = 80 ∧ b = 51 then read_ppm_ascii fuel (a :: b :: rest)
      else if a = 80 ∧ b = 54 then some (read_ppm_binary (a :: b :: rest))
      else some (.error (.bad_magic [a, b]))) :=
  ⟨read_pbm_cons fuel init a b rest, read_pgm_cons fuel init a b rest,
   read_ppm_cons fuel init a b rest⟩

/-- C16 (no magic mismatch after sniffing), evaluated at the file
`"P4 1 1\n"` followed by the byte 0x80: `read_pbm` accepts the two bytes `P4`
and dispatches to `read_pbm_binary`, which compares the whole first line with
`"P4"` and fails with a magic error carrying `"P4 1 1"`. -/
theorem sniffed_binary_magic_mismatch (fuel : Nat) (init : Nat × Nat) :
    read_pbm fuel init [80, 52, 32, 49, 32, 49, 10, 0x80] =
      some (.error (.bad_magic [80, 52, 32, 49, 32, 49])) := by
  rw [read_pbm_cons fuel init 80 52 [32, 49, 32, 49, 10, 0x80], if_neg (by decide),
    if_pos (by decide)]
  decide

/-- The two-byte test of the ASCII decoders fails when the file does not
start with `P` and the digit `k`. -/
theorem read_magic_reject (file : List Nat) (k : Nat) (hk : k ≠ 0)
    (h : file.take 2 ≠ [80, k]) :
    ((read_magic file).2.1 == 80 && (read_magic file).2.2 == k) = false := by
  rcases file with _ | ⟨a, _ | ⟨b, rest⟩⟩
  · simp [read_magic, IStream.ofBytes, IStream.read, IStream.good]
  · have h0 : ((0 : Nat) == k) = false := by
      simp only [beq_eq_false_iff_ne, ne_eq]
      exact fun h1 => hk h1.symm
    simp [read_magic, IStream.ofBytes, IStream.read, IStream.good, h0]
  · simp only [List.take_succ_cons, List.take_zero] at h
    simp only [read_magic_cons]
    by_cases ha : a = 80
    · by_cases hb : b = k
      · subst ha; subst hb; exact absurd rfl h
      · simp [hb]
    · simp [ha]

/-- The first line of a file is not `P` and the digit `k` alone when the
file does not start with these two bytes. -/
theorem getline_magic_reject (file : List Nat) (k : Nat) (h : file.take 2 ≠ [80, k]) :
    ((IStream.ofBytes file).getline.2 != [80, k]) = true := by
  simp only [bne_iff_ne, ne_eq]
  intro hd
  apply h
  simp only [IStream.getline, IStream.ofBytes, IStream.good, Bool.not_false, Bool.and_self,
    Bool.not_true, Bool.false_eq_true, if_false] at hd
  split at hd
  · simp only at hd
    rw [hd]
    rfl
  · simp only at hd
    rcases file with _ | ⟨a, _ | ⟨b, rest⟩⟩
    · simp at hd
    · simp only [List.takeWhile] at hd
      split at hd <;> simp at hd
    · simp only [List.takeWhile] at hd
      split at hd
      · split at hd
        · simp only [List.cons.injEq] at hd
          simp [hd.1, hd.2.1]
        · simp at hd
      · simp at hd

/-- C17 (explicit decoders reject a wrong magic code): whenever the first two
bytes of the file are not the decoder's magic code (P1, P4, P2, P5, P3, P6
for `read_pbm_ascii`, `read_pbm_binary`, `read_pgm_ascii`, `read_pgm_binary`,
`read_ppm_ascii`, `read_ppm_binary`), the decoder fails with a magic error
and returns no image; for the ASCII decoders this holds for every loop
budget. -/
theorem explicit_decoders_reject_wrong_magic (fuel : Nat) (file : List Nat) :
    (file.take 2 ≠ [80, 49] →
      ∃ seen, read_pbm_ascii fuel file = some (.error (.bad_magic seen))) ∧
    (file.take 2 ≠ [80, 52] → ∃ seen, read_pbm_binary file = .error (.bad_magic seen)) ∧
    (file.take 2 ≠ [80, 50] →
      ∃ seen, read_pgm_ascii fuel file = some (.error (.bad_magic seen))) ∧
    (file.take 2 ≠ [80, 53] → ∃ seen, read_pgm_binary file = .error (.bad_magic seen)) ∧
    (file.take 2 ≠ [80, 51] →
      ∃ seen, read_ppm_ascii fuel file = some (.error (.bad_magic seen))) ∧
    (file.take 2 ≠ [80, 54] → ∃ seen, read_ppm_binary file = .error (.bad_magic seen)) := by
  refine ⟨?_, ?_, ?_, ?_, ?_, ?_⟩
  · intro h
    refine ⟨[(read_magic file).2.1, (read_magic file).2.2], ?_⟩
    simp only [read_pbm_ascii, read_magic_reject file 49 (by decide) h]
    rfl
  · intro h
    refine ⟨(IStream.ofBytes file).getline.2, ?_⟩
    simp only [read_pbm_binary, read_pbm_binary_stream, getline_magic_reject file 52 h]
    rfl
  · intro h
    refine ⟨[(read_magic file).2.1, (read_magic file).2.2], ?_⟩
    simp only [read_pgm_ascii, read_magic_reject file 50 (by decide) h]
    rfl
  · intro h
    refine ⟨(IStream.ofBytes file).getline.2, ?_⟩
    simp only [read_pgm_binary, read_pgm_binary_stream, getline_magic_reject file 53 h]
    rfl
  · intro h
    refine ⟨[(read_magic file).2.1, (read_magic file).2.2], ?_⟩
    simp only [read_ppm_ascii, read_magic_reject file 51 (by decide) h]
    rfl
  · intro h
    refine ⟨(IStream.ofBytes file).getline.2, ?_⟩
    simp only [read_ppm_binary, read_ppm_binary_stream, getline_magic_reject file 54 h]
    rfl

/-- Instance of C17: the file `"P5\n1 1\n255\n"` followed by one byte, given
to `read_pbm_binary`. -/
theorem explicit_decoders_reject_wrong_magic_witness :
    List.take 2 [80, 53, 10, 49, 32, 49, 10, 50, 53, 53, 10, 7] ≠ [80, 52] ∧
    ∃ seen, read_pbm_binary [80, 53, 10, 49, 32, 49, 10, 50, 53, 53, 10, 7] =
      .error (.bad_magic seen) :=
  ⟨by decide,
   (explicit_decoders_reject_wrong_magic 0
      [80, 53, 10, 49, 32, 49, 10, 50, 53, 53, 10, 7]).2.1 (by decide)⟩

/-! ## Non-numeric tokens and the partial byte (C18, C19, C20) -/

/-- Once `failbit` is set without `eofbit` the token loop makes no progress:
every extraction leaves the stream as it is, `dummy` stays empty, and the
loop condition `!iss.eof()` stays true.  No loop budget is enough. -/
theorem token_loop_stuck {α σ : Type} (extract : IStream → IStream × α)
    (body : σ → α → Except PnmError σ) (buf : List Nat)
    (hx : (extract ⟨buf, false, true⟩).1 = ⟨buf, false, true⟩) (st : σ) :
    ∀ fuel, token_loop extract body fuel ⟨buf, false, true⟩ st = none := by
  intro fuel
  induction fuel with
  | zero => rfl
  | succ f ih =>
    rcases he : extract ⟨buf, false, true⟩ with ⟨iss1, v⟩
    rw [he] at hx
    simp only at hx
    subst hx
    simp only [token_loop, IStream.eof, he, IStream.fail, IStream.extract_string,
      IStream.sentry, IStream.good]
    simpa using ih

theorem extract_size_t_failed (buf : List Nat) (old : Nat) :
    (IStream.extract_size_t ⟨buf, false, true⟩ old).1 = ⟨buf, false, true⟩ := by
  simp [IStream.extract_size_t, IStream.sentry, IStream.good]

/-- A line that starts with a byte that is neither white space, a sign nor a
digit makes the token loop of a `size_t` extraction spin for ever. -/
theorem token_loop_bad_token {σ : Type} (body : σ → Nat → Except PnmError σ) (c : Nat)
    (t : List Nat) (hs : isspace c = false) (hd : isdigit c = false) (h45 : c ≠ 45)
    (h43 : c ≠ 43) (st : σ) :
    ∀ fuel, token_loop (fun s => s.extract_size_t 0) body fuel (IStream.ofBytes (c :: t)) st =
      none := by
  intro fuel
  cases fuel with
  | zero => rfl
  | succ f =>
    have hsen := sentry_skip [] (by simp) c t hs
    simp only [List.nil_append] at hsen
    have hscan : scanInt (c :: t) = (false, [], c :: t) := by
      unfold scanInt
      split
      · rename_i heq; simp at heq; exact absurd heq.1 h45
      · rename_i heq; simp at heq; exact absurd heq.1 h43
      · simp [List.takeWhile, List.dropWhile, hd]
    have hx : IStream.extract_size_t ⟨c :: t, false, false⟩ 0 = (⟨c :: t, false, true⟩, 0) := by
      simp [IStream.extract_size_t, hsen, hscan]
    have hstuck := token_loop_stuck (fun s => s.extract_size_t 0) body (c :: t)
      (extract_size_t_failed (c :: t) 0) st f
    simp only [token_loop, IStream.ofBytes, IStream.eof, hx, IStream.fail,
      IStream.extract_string, IStream.sentry, IStream.good]
    simpa using hstuck

/-- One turn of the line loop on an empty line. -/
theorem line_loop_skip {α σ : Type} (extract : IStream → IStream × α)
    (body : σ → α → Except PnmError σ) (done : σ → Bool) (tokfuel f : Nat) (ifs ifs1 : IStream)
    (line : List Nat) (st : σ) (h : ifs.eofbit = false) (hg : ifs.getline = (ifs1, line))
    (he : (erase_comment line).isEmpty = true) :
    line_loop extract body done tokfuel (f + 1) ifs st =
      line_loop extract body done tokfuel f ifs1 st := by
  simp [line_loop, IStream.eof, h, hg, he]

/-- One turn of the line loop on a line whose token loop does not end. -/
theorem line_loop_hang {α σ : Type} (extract : IStream → IStream × α)
    (body : σ → α → Except PnmError σ) (done : σ → Bool) (tokfuel f : Nat) (ifs ifs1 : IStream)
    (line : List Nat) (st : σ) (h : ifs.eofbit = false) (hg : ifs.getline = (ifs1, line))
    (he : (erase_comment line).isEmpty = false)
    (ht : token_loop extract body tokfuel (IStream.ofBytes (erase_comment line)) st = none) :
    line_loop extract body done tokfuel (f + 1) ifs st = none := by
  simp [line_loop, IStream.eof, h, hg, he, ht]

/-- C18 (invalid header token), evaluated at the file `"P1\nabc\n"`: the
extraction of `abc` sets `failbit`, `iss >> dummy` then extracts nothing, no
error is thrown and the token loop never ends: `read_pbm_ascii` gives no
result whatever the loop budget. -/
theorem header_bad_token_hangs (fuel : Nat) :
    read_pbm_ascii fuel [80, 49, 10, 97, 98, 99, 10] = none := by
  unfold read_pbm_ascii
  rw [read_magic_cons]
  simp only [beq_self_eq_true, Bool.and_self, Bool.not_true, Bool.false_eq_true, if_false]
  cases fuel with
  | zero => rfl
  | succ f =>
    rw [line_loop_skip _ _ _ _ f ⟨[10, 97, 98, 99, 10], false, false⟩
      ⟨[97, 98, 99, 10], false, false⟩ [] _ rfl (by decide) (by decide)]
    cases f with
    | zero => rfl
    | succ f =>
      rw [line_loop_hang _ _ _ _ f ⟨[97, 98, 99, 10], false, false⟩ ⟨[], false, false⟩
        [97, 98, 99] _ rfl (by decide) (by decide)
        (token_loop_bad_token _ 97 [98, 99] (by decide) (by decide) (by decide) (by decide) _ _)]

/-- C19 (decoders always finish), evaluated at the file `"P2\n1 1\n255\nx\n"`:
the header is read, then the token loop of the pixel line `x` never ends:
`read_pgm_ascii` gives no result whatever the loop budget. -/
theorem pixel_bad_token_hangs (fuel : Nat) :
    read_pgm_ascii fuel [80, 50, 10, 49, 32, 49, 10, 50, 53, 53, 10, 120, 10] = none := by
  by_cases hf : fuel < 3
  · interval_cases fuel <;> decide
  · obtain ⟨f, rfl⟩ : ∃ f, fuel = f + 3 := ⟨fuel - 3, by omega⟩
    have hh := header_loop 1 1 255 (by norm_num) (by norm_num) (by norm_num) [120, 10]
      (f + 3) (f + 3) (by omega) (by omega)
    have hfile : ([80, 50, 10, 49, 32, 49, 10, 50, 53, 53, 10, 120, 10] : List Nat) =
        80 :: 50 :: (10 :: (put_nat 1 ++ [32] ++ put_nat 1 ++
          10 :: (put_nat 255 ++ 10 :: [120, 10]))) := by decide
    rw [hfile]
    unfold read_pgm_ascii
    rw [read_magic_cons]
    simp only [beq_self_eq_true, Bool.and_self, Bool.not_true, Bool.false_eq_true, if_false, hh]
    rw [line_loop_hang _ _ _ _ (f + 2) ⟨[120, 10], false, false⟩ ⟨[], false, false⟩
      [120] _ rfl (by decide) (by decide)
      (token_loop_bad_token _ 120 [] (by decide) (by decide) (by decide) (by decide) _ _)]

/-- C20 (PBM binary decoder stays inside the buffer), evaluated at the file
`"P4\n1 1\n"` followed by the byte 0x80 (width 1, height 1): `case 1` of the
switch stores into `img(0*8+1, 0)`, flat index 1 of a buffer of one pixel. -/
theorem pbm_binary_store_outside_buffer :
    read_pbm_binary [80, 52, 10, 49, 32, 49, 10, 0x80] = .error (.undefined_store 1 1) := by
  decide

/-! ## The binary64 model: rounding error -/

theorem ilog2_aux_spec (fuel : Nat) : ∀ n, n ≤ fuel → 0 < n →
    2 ^ ilog2_aux fuel n ≤ n ∧ n < 2 ^ (ilog2_aux fuel n + 1) := by
  induction fuel with
  | zero => intro n h1 h2; omega
  | succ f ih =>
    intro n h1 h2
    unfold ilog2_aux
    by_cases h : 2 ≤ n
    · rw [if_pos h]
      obtain ⟨ha, hb⟩ := ih (n / 2) (by omega) (by omega)
      constructor
      · rw [pow_succ]; omega
      · rw [pow_succ]; omega
    · rw [if_neg h]
      have : n = 1 := by omega
      subst this
      simp

theorem ilog2_spec (n : Nat) (h : 0 < n) : 2 ^ ilog2 n ≤ n ∧ n < 2 ^ (ilog2 n + 1) :=
  ilog2_aux_spec n n (le_refl n) h

theorem round_half_even_spec (p q : Nat) (hq : 0 < q) :
    2 * (round_half_even p q * q) ≤ 2 * p + q ∧ 2 * p ≤ 2 * (round_half_even p q * q) + q := by
  have hp : p = p / q * q + p % q := (Nat.div_add_mod' p q).symm
  have hr : p % q < q := Nat.mod_lt p hq
  have hs : (p / q + 1) * q = p / q * q + q := by ring
  unfold round_half_even
  by_cases h1 : 2 * (p % q) < q
  · rw [if_pos h1]; omega
  · rw [if_neg h1]
    by_cases h2 : q < 2 * (p % q)
    · rw [if_pos h2, hs]; omega
    · rw [if_neg h2]
      by_cases h3 : p / q % 2 = 0
      · rw [if_pos h3]; omega
      · rw [if_neg h3, hs]; omega

theorem round_half_even_exact (k q : Nat) (hq : 0 < q) : round_half_even (k * q) q = k := by
  unfold round_half_even
  rw [Nat.mul_mod_left, Nat.mul_div_cancel k hq, if_pos (by omega)]

theorem two_zpow_pos (e : ℤ) : (0 : ℚ) < 2 ^ e := zpow_pos (by norm_num) e

/-- The quotient of the two natural powers used by `Dbl.num` and `Dbl.den` is
the integer power. -/
theorem two_zpow_split (e : ℤ) :
    ((2 ^ e.toNat : ℕ) : ℚ) / ((2 ^ (-e).toNat : ℕ) : ℚ) = (2 : ℚ) ^ e := by
  rcases le_or_lt 0 e with h | h
  · obtain ⟨n, rfl⟩ := Int.eq_ofNat_of_zero_le h
    simp
  · obtain ⟨n, rfl⟩ : ∃ n : ℕ, e = -(n : ℤ) := ⟨(-e).toNat, by omega⟩
    simp [zpow_neg]

theorem Dbl.val_eq (a : Dbl) : a.val = (a.m : ℚ) * (2 : ℚ) ^ a.e := by
  unfold Dbl.val Dbl.num Dbl.den
  rw [← two_zpow_split a.e]
  push_cast
  ring

theorem Dbl.den_pos (a : Dbl) : 0 < a.den := by
  unfold Dbl.den
  positivity

theorem Dbl.round_eq (p q : Nat) (hp : 0 < p) (hq : 0 < q) :
    ∃ e : ℤ, Dbl.round p q =
        ⟨round_half_even (p * 2 ^ (-e).toNat) (q * 2 ^ e.toNat), e⟩ ∧
      (2 : ℚ) ^ (52 : ℕ) * (2 : ℚ) ^ e ≤ (p : ℚ) / q := by
  have hq' : (0 : ℚ) < q := by exact_mod_cast hq
  have h2 : (2 : ℚ) ≠ 0 := by norm_num
  unfold Dbl.round
  rw [if_neg (by omega)]
  simp only []
  generalize he0 : (ilog2 p : ℤ) - (ilog2 q : ℤ) - 52 = e0
  by_cases T : p * 2 ^ (-e0).toNat < 2 ^ 52 * (q * 2 ^ e0.toNat)
  · refine ⟨e0 - 1, by rw [if_pos T], ?_⟩
    have h1 : ((2 : ℚ) ^ (ilog2 p : ℤ)) ≤ p := by
      rw [zpow_natCast]
      exact_mod_cast (ilog2_spec p hp).1
    have h3 : (q : ℚ) ≤ (2 : ℚ) ^ ((ilog2 q : ℤ) + 1) := by
      have : ((ilog2 q : ℤ) + 1) = ((ilog2 q + 1 : ℕ) : ℤ) := by push_cast; ring
      rw [this, zpow_natCast]
      exact_mod_cast le_of_lt (ilog2_spec q hq).2
    have key : (2 : ℚ) ^ (52 : ℤ) * (2 : ℚ) ^ (e0 - 1) * (2 : ℚ) ^ ((ilog2 q : ℤ) + 1) =
        (2 : ℚ) ^ (ilog2 p : ℤ) := by
      rw [← zpow_add₀ h2, ← zpow_add₀ h2]
      congr 1
      omega
    have h52 : (2 : ℚ) ^ (52 : ℕ) = (2 : ℚ) ^ (52 : ℤ) := by norm_cast
    rw [le_div_iff₀ hq', h52]
    calc (2 : ℚ) ^ (52 : ℤ) * (2 : ℚ) ^ (e0 - 1) * q
        ≤ (2 : ℚ) ^ (52 : ℤ) * (2 : ℚ) ^ (e0 - 1) * (2 : ℚ) ^ ((ilog2 q : ℤ) + 1) := by
          apply mul_le_mul_of_nonneg_left h3
          exact le_of_lt (mul_pos (two_zpow_pos _) (two_zpow_pos _))
      _ = (2 : ℚ) ^ (ilog2 p : ℤ) := key
      _ ≤ p := h1
  · refine ⟨e0, by rw [if_neg T], ?_⟩
    have hT : 2 ^ 52 * (q * 2 ^ e0.toNat) ≤ p * 2 ^ (-e0).toNat := not_lt.1 T
    have hTq : (2 : ℚ) ^ (52 : ℕ) * ((q : ℚ) * ((2 ^ e0.toNat : ℕ) : ℚ)) ≤
        (p : ℚ) * ((2 ^ (-e0).toNat : ℕ) : ℚ) := by exact_mod_cast hT
    have hA : (0 : ℚ) < ((2 ^ (-e0).toNat : ℕ) : ℚ) := by positivity
    rw [← two_zpow_split e0, le_div_iff₀ hq']
    rw [mul_div_assoc', div_mul_eq_mul_div, div_le_iff₀ hA]
    linarith

/-- The result of `Dbl.round`: a normalised significand within half a unit
in the last place of the quotient. -/
theorem Dbl.round_spec (p q : Nat) (hp : 0 < p) (hq : 0 < q) :
    ∃ e : ℤ, ∃ M : ℕ, Dbl.round p q = ⟨M, e⟩ ∧
      (2 : ℚ) ^ (52 : ℕ) * (2 : ℚ) ^ e ≤ (p : ℚ) / q ∧
      (M : ℚ) * (2 : ℚ) ^ e ≤ (p : ℚ) / q + (2 : ℚ) ^ e / 2 ∧
      (p : ℚ) / q ≤ (M : ℚ) * (2 : ℚ) ^ e + (2 : ℚ) ^ e / 2 := by
  obtain ⟨e, h1, h2⟩ := Dbl.round_eq p q hp hq
  refine ⟨e, _, h1, h2, ?_⟩
  have hq' : (0 : ℚ) < q := by exact_mod_cast hq
  have hQ : 0 < q * 2 ^ e.toNat := by positivity
  obtain ⟨s1, s2⟩ := round_half_even_spec (p * 2 ^ (-e).toNat) (q * 2 ^ e.toNat) hQ
  generalize round_half_even (p * 2 ^ (-e).toNat) (q * 2 ^ e.toNat) = M at s1 s2
  have c1 : 2 * ((M : ℚ) * ((q : ℚ) * ((2 ^ e.toNat : ℕ) : ℚ))) ≤
      2 * ((p : ℚ) * ((2 ^ (-e).toNat : ℕ) : ℚ)) + (q : ℚ) * ((2 ^ e.toNat : ℕ) : ℚ) := by
    exact_mod_cast s1
  have c2 : 2 * ((p : ℚ) * ((2 ^ (-e).toNat : ℕ) : ℚ)) ≤
      2 * ((M : ℚ) * ((q : ℚ) * ((2 ^ e.toNat : ℕ) : ℚ))) + (q : ℚ) * ((2 ^ e.toNat : ℕ) : ℚ) := by
    exact_mod_cast s2
  have hA : (0 : ℚ) < ((2 ^ (-e).toNat : ℕ) : ℚ) := by positivity
  have hB : (0 : ℚ) < ((2 ^ e.toNat : ℕ) : ℚ) := by positivity
  rw [← two_zpow_split e]
  generalize ((2 ^ (-e).toNat : ℕ) : ℚ) = A at c1 c2 hA
  generalize ((2 ^ e.toNat : ℕ) : ℚ) = B at c1 c2 hB
  constructor
  · rw [← sub_nonneg]
    have : (p : ℚ) / q + B / A / 2 - (M : ℚ) * (B / A) =
        (2 * (p * A) + q * B - 2 * (M * (q * B))) / (2 * q * A) := by
      field_simp
      ring
    rw [this]
    apply div_nonneg
    · linarith
    · positivity
  · rw [← sub_nonneg]
    have : (M : ℚ) * (B / A) + B / A / 2 - (p : ℚ) / q =
        (2 * (M * (q * B)) + q * B - 2 * (p * A)) / (2 * q * A) := by
      field_simp
      ring
    rw [this]
    apply div_nonneg
    · linarith
    · positivity

/-- Relative error of one rounding: at most `2 ^ (-53)`. -/
theorem Dbl.round_err (p q : Nat) (hp : 0 < p) (hq : 0 < q) :
    (Dbl.round p q).val ≤ (p : ℚ) / q * (1 + 1 / 2 ^ 53) ∧
    (p : ℚ) / q * (1 - 1 / 2 ^ 53) ≤ (Dbl.round p q).val := by
  obtain ⟨e, M, h1, h2, h3, h4⟩ := Dbl.round_spec p q hp hq
  rw [h1, Dbl.val_eq]
  simp only []
  have hE := two_zpow_pos e
  generalize (2 : ℚ) ^ e = E at h2 h3 h4 hE
  generalize (p : ℚ) / q = x at h2 h3 h4
  norm_num at h2 ⊢
  constructor <;> linarith

/-- A quotient that is a 53-bit integer times a power of two is not changed
by rounding. -/
theorem Dbl.round_exact (p q : Nat) (hq : 0 < q) (n : Nat) (t : ℤ) (hn : 0 < n)
    (hn2 : n < 2 ^ 53) (h : (p : ℚ) / q = (n : ℚ) * (2 : ℚ) ^ t) :
    (Dbl.round p q).val = (n : ℚ) * (2 : ℚ) ^ t := by
  have hq' : (0 : ℚ) < q := by exact_mod_cast hq
  have hn' : (0 : ℚ) < n := by exact_mod_cast hn
  have h2 : (2 : ℚ) ≠ 0 := by norm_num
  have hp : 0 < p := by
    rcases Nat.eq_zero_or_pos p with h0 | h0
    · subst h0
      have : (0 : ℚ) < (n : ℚ) * (2 : ℚ) ^ t := mul_pos hn' (two_zpow_pos t)
      rw [← h] at this
      simp at this
    · exact h0
  obtain ⟨e, h1, hnorm⟩ := Dbl.round_eq p q hp hq
  rw [h] at hnorm
  -- the exponent is at most `t`
  have het : e ≤ t := by
    have hlt : (n : ℚ) < (2 : ℚ) ^ (53 : ℕ) := by exact_mod_cast hn2
    have h3 : (2 : ℚ) ^ (52 : ℕ) * (2 : ℚ) ^ e < (2 : ℚ) ^ (53 : ℕ) * (2 : ℚ) ^ t :=
      lt_of_le_of_lt hnorm (mul_lt_mul_of_pos_right hlt (two_zpow_pos t))
    have h4 : (2 : ℚ) ^ ((52 : ℤ) + e) < (2 : ℚ) ^ ((53 : ℤ) + t) := by
      rw [zpow_add₀ h2, zpow_add₀ h2]
      exact_mod_cast h3
    have := (zpow_lt_zpow_iff_right₀ (by norm_num : (1 : ℚ) < 2)).1 h4
    omega
  obtain ⟨k, hk⟩ : ∃ k : ℕ, (k : ℤ) = t - e := ⟨(t - e).toNat, by omega⟩
  have hA : (0 : ℚ) < ((2 ^ (-e).toNat : ℕ) : ℚ) := by positivity
  have hB : (0 : ℚ) < ((2 ^ e.toNat : ℕ) : ℚ) := by positivity
  have hsplit := two_zpow_split e
  have htk : (2 : ℚ) ^ t = (2 : ℚ) ^ k * (2 : ℚ) ^ e := by
    have : t = (k : ℤ) + e := by omega
    rw [this, zpow_add₀ h2, zpow_natCast]
  -- the scaled numerator is a multiple of the scaled denominator
  have hPQ : p * 2 ^ (-e).toNat = (n * 2 ^ k) * (q * 2 ^ e.toNat) := by
    have hq1 : ((p * 2 ^ (-e).toNat : ℕ) : ℚ) = (((n * 2 ^ k) * (q * 2 ^ e.toNat) : ℕ) : ℚ) := by
      push_cast
      have hp' : (p : ℚ) = (n : ℚ) * (2 : ℚ) ^ t * q := by
        rw [← h]; field_simp
      rw [hp', htk, ← hsplit]
      push_cast
      field_simp
      ring
    exact_mod_cast hq1
  rw [h1, hPQ, round_half_even_exact _ _ (by positivity), Dbl.val_eq]
  simp only []
  rw [htk]
  push_cast
  ring

theorem Dbl.val_zero : (⟨0, 0⟩ : Dbl).val = 0 := by
  simp [Dbl.val, Dbl.num]

theorem Dbl.round_zero (q : Nat) : Dbl.round 0 q = ⟨0, 0⟩ := by
  simp [Dbl.round]

/-- Conversion of an integer below `2 ^ 53` is exact. -/
theorem Dbl.val_ofNat (n : Nat) (hn : n < 2 ^ 53) : (Dbl.ofNat n).val = n := by
  rcases Nat.eq_zero_or_pos n with h0 | h0
  · subst h0
    rw [Dbl.ofNat, Dbl.round_zero, Dbl.val_zero]
    simp
  · have := Dbl.round_exact n 1 (by norm_num) n 0 h0 hn (by simp)
    simpa [Dbl.ofNat] using this

theorem Dbl.val_nonneg (a : Dbl) : 0 ≤ a.val := by
  unfold Dbl.val
  positivity

theorem Dbl.num_eq (a : Dbl) : (a.num : ℚ) = a.val * a.den := by
  have : (0 : ℚ) < a.den := by exact_mod_cast a.den_pos
  unfold Dbl.val
  field_simp

theorem Dbl.num_pos (a : Dbl) (h : 0 < a.val) : 0 < a.num := by
  rcases Nat.eq_zero_or_pos a.num with h0 | h0
  · have := a.num_eq
    rw [h0] at this
    have hd : (0 : ℚ) < a.den := by exact_mod_cast a.den_pos
    have : a.val * a.den = 0 := by rw [← this]; simp
    have := mul_pos h hd
    linarith
  · exact h0

/-- Exact quotient behind `Dbl.add`. -/
theorem Dbl.add_quot (a b : Dbl) :
    ((a.num * b.den + b.num * a.den : ℕ) : ℚ) / ((a.den * b.den : ℕ) : ℚ) = a.val + b.val := by
  have ha : (0 : ℚ) < a.den := by exact_mod_cast a.den_pos
  have hb : (0 : ℚ) < b.den := by exact_mod_cast b.den_pos
  unfold Dbl.val
  push_cast
  field_simp

/-- Exact quotient behind `Dbl.mul`. -/
theorem Dbl.mul_quot (a b : Dbl) :
    ((a.num * b.num : ℕ) : ℚ) / ((a.den * b.den : ℕ) : ℚ) = a.val * b.val := by
  have ha : (0 : ℚ) < a.den := by exact_mod_cast a.den_pos
  have hb : (0 : ℚ) < b.den := by exact_mod_cast b.den_pos
  unfold Dbl.val
  push_cast
  field_simp

/-- Exact quotient behind `Dbl.div`. -/
theorem Dbl.div_quot (a b : Dbl) (hb : 0 < b.val) :
    ((a.num * b.den : ℕ) : ℚ) / ((a.den * b.num : ℕ) : ℚ) = a.val / b.val := by
  have ha : (0 : ℚ) < a.den := by exact_mod_cast a.den_pos
  have hbd : (0 : ℚ) < b.den := by exact_mod_cast b.den_pos
  have hbn : (0 : ℚ) < b.num := by exact_mod_cast b.num_pos hb
  unfold Dbl.val
  push_cast
  field_simp

/-- Truncation is the integer part of the value. -/
theorem Dbl.le_trunc (a : Dbl) (F : Nat) (h : (F : ℚ) ≤ a.val) : F ≤ a.trunc := by
  have hd : (0 : ℚ) < a.den := by exact_mod_cast a.den_pos
  unfold Dbl.trunc
  rw [Nat.le_div_iff_mul_le a.den_pos]
  have : (F : ℚ) * a.den ≤ a.num := by
    rw [a.num_eq]
    exact mul_le_mul_of_nonneg_right h (le_of_lt hd)
  exact_mod_cast this

theorem Dbl.trunc_le (a : Dbl) (F : Nat) (h : a.val < (F : ℚ) + 1) : a.trunc ≤ F := by
  have hd : (0 : ℚ) < a.den := by exact_mod_cast a.den_pos
  unfold Dbl.trunc
  rw [← Nat.lt_succ_iff, Nat.div_lt_iff_lt_mul a.den_pos]
  have : (a.num : ℚ) < ((F : ℚ) + 1) * a.den := by
    rw [a.num_eq]
    exact mul_lt_mul_of_pos_right h hd
  exact_mod_cast this

/-! ## Gain: narrowing (C13) and range (C14) -/

theorem Dbl.val_add_one (m : Nat) (hm : m + 1 < 2 ^ 53) :
    (Dbl.add (Dbl.ofNat m) (Dbl.ofNat 1)).val = (m : ℚ) + 1 := by
  have h1 := Dbl.val_ofNat m (by omega)
  have h2 := Dbl.val_ofNat 1 (by norm_num)
  have hq := Dbl.add_quot (Dbl.ofNat m) (Dbl.ofNat 1)
  rw [h1, h2] at hq
  have := Dbl.round_exact _ _
    (Nat.mul_pos (Dbl.ofNat m).den_pos (Dbl.ofNat 1).den_pos) (m + 1) 0 (by omega) hm
    (by rw [hq]; push_cast; simp)
  simpa [Dbl.add] using this

/-- The stored ratio of `reduce` is `256 / (max + 1)` up to one rounding. -/
theorem reduce_ratio_err (m : Nat) (hm : m + 1 < 2 ^ 53) :
    (reduce_ratio m).val ≤ 256 / ((m : ℚ) + 1) * (1 + 1 / 2 ^ 53) ∧
    256 / ((m : ℚ) + 1) * (1 - 1 / 2 ^ 53) ≤ (reduce_ratio m).val := by
  have h1 := Dbl.val_ofNat 256 (by norm_num)
  have h2 := Dbl.val_add_one m hm
  have hb : 0 < (Dbl.add (Dbl.ofNat m) (Dbl.ofNat 1)).val := by rw [h2]; positivity
  have ha : 0 < (Dbl.ofNat 256).val := by rw [h1]; norm_num
  have hq := Dbl.div_quot (Dbl.ofNat 256) (Dbl.add (Dbl.ofNat m) (Dbl.ofNat 1)) hb
  rw [h1, h2] at hq
  have := Dbl.round_err _ _
    (Nat.mul_pos ((Dbl.ofNat 256).num_pos ha) (Dbl.add (Dbl.ofNat m) (Dbl.ofNat 1)).den_pos)
    (Nat.mul_pos (Dbl.ofNat 256).den_pos ((Dbl.add (Dbl.ofNat m) (Dbl.ofNat 1)).num_pos hb))
  rw [hq] at this
  simpa [reduce_ratio, Dbl.div] using this

/-- The product computed by `reduce::invoke` is `s * ratio` up to one rounding. -/
theorem reduce_product_err (s : Nat) (hs : 0 < s) (hs2 : s < 2 ^ 53) (R : Dbl) (hR : 0 < R.val) :
    (Dbl.mul (Dbl.ofNat s) R).val ≤ (s : ℚ) * R.val * (1 + 1 / 2 ^ 53) ∧
    (s : ℚ) * R.val * (1 - 1 / 2 ^ 53) ≤ (Dbl.mul (Dbl.ofNat s) R).val := by
  have h1 := Dbl.val_ofNat s hs2
  have ha : 0 < (Dbl.ofNat s).val := by rw [h1]; exact_mod_cast hs
  have hq := Dbl.mul_quot (Dbl.ofNat s) R
  rw [h1] at hq
  have := Dbl.round_err _ _
    (Nat.mul_pos ((Dbl.ofNat s).num_pos ha) (R.num_pos hR))
    (Nat.mul_pos (Dbl.ofNat s).den_pos R.den_pos)
  rw [hq] at this
  simpa [Dbl.mul] using this

theorem reduce_scaled_zero (R : Dbl) : (Dbl.mul (Dbl.ofNat 0) R).trunc = 0 := by
  simp [Dbl.mul, Dbl.ofNat, Dbl.round_zero, Dbl.num, Dbl.trunc]

theorem get_gain_reduce (m : Nat) (hm : 255 < m) : get_gain m = gain.reduce (reduce_ratio m) := by
  have h1 : m ≠ 255 := by omega
  simp [get_gain, h1, hm]

/-- The value computed by `reduce::invoke` lies between `x (1 - u)^2` and
`x (1 + u)^2`, where `x = 256 s / (m + 1)` and `u = 2 ^ (-53)`. -/
theorem reduce_value_bounds (m s : Nat) (hm : m + 1 < 2 ^ 53) (hs : 0 < s) (hsm : s ≤ m) :
    (Dbl.mul (Dbl.ofNat s) (reduce_ratio m)).val ≤
      256 * (s : ℚ) / ((m : ℚ) + 1) * (1 + 1 / 2 ^ 53) ^ 2 ∧
    256 * (s : ℚ) / ((m : ℚ) + 1) * (1 - 1 / 2 ^ 53) ^ 2 ≤
      (Dbl.mul (Dbl.ofNat s) (reduce_ratio m)).val := by
  obtain ⟨r1, r2⟩ := reduce_ratio_err m hm
  have hK : (0 : ℚ) < (m : ℚ) + 1 := by positivity
  have hx : (0 : ℚ) < 256 / ((m : ℚ) + 1) := by positivity
  have hR : 0 < (reduce_ratio m).val := by
    have : (0 : ℚ) < 256 / ((m : ℚ) + 1) * (1 - 1 / 2 ^ 53) := by
      apply mul_pos hx; norm_num
    linarith
  obtain ⟨p1, p2⟩ := reduce_product_err s hs (by omega) (reduce_ratio m) hR
  have hs' : (0 : ℚ) < s := by exact_mod_cast hs
  generalize (reduce_ratio m).val = r at r1 r2 p1 p2 hR
  generalize (Dbl.mul (Dbl.ofNat s) (reduce_ratio m)).val = y at p1 p2
  have e1 : 256 * (s : ℚ) / ((m : ℚ) + 1) = (s : ℚ) * (256 / ((m : ℚ) + 1)) := by ring
  rw [e1]
  generalize 256 / ((m : ℚ) + 1) = x at r1 r2 hx
  constructor
  · calc y ≤ (s : ℚ) * r * (1 + 1 / 2 ^ 53) := p1
      _ ≤ (s : ℚ) * (x * (1 + 1 / 2 ^ 53)) * (1 + 1 / 2 ^ 53) := by
          apply mul_le_mul_of_nonneg_right _ (by norm_num)
          exact mul_le_mul_of_nonneg_left r1 (le_of_lt hs')
      _ = (s : ℚ) * x * (1 + 1 / 2 ^ 53) ^ 2 := by ring
  · calc (s : ℚ) * x * (1 - 1 / 2 ^ 53) ^ 2
        = (s : ℚ) * (x * (1 - 1 / 2 ^ 53)) * (1 - 1 / 2 ^ 53) := by ring
      _ ≤ (s : ℚ) * r * (1 - 1 / 2 ^ 53) := by
          apply mul_le_mul_of_nonneg_right _ (by norm_num)
          exact mul_le_mul_of_nonneg_left r2 (le_of_lt hs')
      _ ≤ y := p2

theorem two_pow_consts :
    ((1 : ℚ) + 1 / 2 ^ 53) ^ 2 = 1 + (2 ^ 54 + 1) / 2 ^ 106 ∧
    ((1 : ℚ) - 1 / 2 ^ 53) ^ 2 = 1 - (2 ^ 54 - 1) / 2 ^ 106 := by
  constructor <;> norm_num

/-- The truncated product of `reduce::invoke` stays below 256 for every
maximum below `2 ^ 51` and every sample up to the maximum. -/
theorem reduce_scaled_le (m s : Nat) (hm : m < 2 ^ 51) (hsm : s ≤ m) :
    (Dbl.mul (Dbl.ofNat s) (reduce_ratio m)).trunc ≤ 255 := by
  rcases Nat.eq_zero_or_pos s with h0 | h0
  · subst h0; rw [reduce_scaled_zero]; omega
  · obtain ⟨b1, -⟩ := reduce_value_bounds m s (by omega) h0 hsm
    apply Dbl.trunc_le
    have hK : (0 : ℚ) < (m : ℚ) + 1 := by positivity
    have hs' : (s : ℚ) ≤ m := by exact_mod_cast hsm
    have hm' : (m : ℚ) + 1 ≤ 2 ^ 51 := by exact_mod_cast hm
    have hs0 : (0 : ℚ) < s := by exact_mod_cast h0
    rw [two_pow_consts.1, div_mul_eq_mul_div, le_div_iff₀ hK] at b1
    generalize (Dbl.mul (Dbl.ofNat s) (reduce_ratio m)).val = y at b1 ⊢
    have hy : y * ((m : ℚ) + 1) < (255 + 1) * ((m : ℚ) + 1) := by
      have e : (256 : ℚ) * s * (1 + (2 ^ 54 + 1) / 2 ^ 106) =
          256 * s + 256 * (2 ^ 54 + 1) / 2 ^ 106 * s := by ring
      rw [e] at b1
      have h3 : (256 : ℚ) * (2 ^ 54 + 1) / 2 ^ 106 * s ≤
          256 * (2 ^ 54 + 1) / 2 ^ 106 * (2 ^ 51) := by
        apply mul_le_mul_of_nonneg_left _ (by norm_num)
        linarith
      have h4 : (256 : ℚ) * (2 ^ 54 + 1) / 2 ^ 106 * (2 ^ 51) < 256 := by norm_num
      linarith
    push_cast
    exact lt_of_mul_lt_mul_right hy (le_of_lt hK)

/-- The truncated product of `reduce::invoke` against the exact quotient:
equal to it, or one less when the quotient is an integer. -/
theorem reduce_scaled_floor (m s : Nat) (hm : m < 2 ^ 43) (hsm : s ≤ m) :
    (Dbl.mul (Dbl.ofNat s) (reduce_ratio m)).trunc = s * 256 / (m + 1) ∨
    ((m + 1) ∣ s * 256 ∧
      (Dbl.mul (Dbl.ofNat s) (reduce_ratio m)).trunc + 1 = s * 256 / (m + 1)) := by
  rcases Nat.eq_zero_or_pos s with h0 | h0
  · subst h0; left; rw [reduce_scaled_zero]; simp
  · obtain ⟨b1, b2⟩ := reduce_value_bounds m s (by omega) h0 hsm
    have hK : (0 : ℚ) < (m : ℚ) + 1 := by positivity
    have hs' : (s : ℚ) ≤ m := by exact_mod_cast hsm
    have hm' : (m : ℚ) + 1 ≤ 2 ^ 43 := by exact_mod_cast hm
    have hs0 : (0 : ℚ) < s := by exact_mod_cast h0
    rw [two_pow_consts.1, div_mul_eq_mul_div, le_div_iff₀ hK] at b1
    rw [two_pow_consts.2, div_mul_eq_mul_div, div_le_iff₀ hK] at b2
    -- the exact quotient and remainder
    have hdm : (m + 1) * (s * 256 / (m + 1)) + s * 256 % (m + 1) = s * 256 :=
      Nat.div_add_mod (s * 256) (m + 1)
    have hrho : s * 256 % (m + 1) < m + 1 := Nat.mod_lt _ (by omega)
    generalize hF : s * 256 / (m + 1) = F at hdm ⊢
    generalize hR : s * 256 % (m + 1) = rho at hdm hrho
    have hdq : ((m : ℚ) + 1) * F + rho = s * 256 := by exact_mod_cast hdm
    have hrq : (rho : ℚ) ≤ m := by
      have : rho ≤ m := by omega
      exact_mod_cast this
    have hrho0 : (0 : ℚ) ≤ rho := by positivity
    -- size of the two error terms
    have e1 : (256 : ℚ) * s * (1 + (2 ^ 54 + 1) / 2 ^ 106) =
        256 * s + 256 * (2 ^ 54 + 1) / 2 ^ 106 * s := by ring
    have e2 : (256 : ℚ) * s * (1 - (2 ^ 54 - 1) / 2 ^ 106) =
        256 * s - 256 * (2 ^ 54 - 1) / 2 ^ 106 * s := by ring
    rw [e1] at b1
    rw [e2] at b2
    have h3 : (256 : ℚ) * (2 ^ 54 + 1) / 2 ^ 106 * s ≤
        256 * (2 ^ 54 + 1) / 2 ^ 106 * (2 ^ 43) := by
      apply mul_le_mul_of_nonneg_left _ (by norm_num)
      linarith
    have h4 : (256 : ℚ) * (2 ^ 54 + 1) / 2 ^ 106 * (2 ^ 43) < 1 := by norm_num
    have h5 : (256 : ℚ) * (2 ^ 54 - 1) / 2 ^ 106 * s ≤
        256 * (2 ^ 54 - 1) / 2 ^ 106 * (2 ^ 43) := by
      apply mul_le_mul_of_nonneg_left _ (by norm_num)
      linarith
    have h6 : (256 : ℚ) * (2 ^ 54 - 1) / 2 ^ 106 * (2 ^ 43) < 1 := by norm_num
    generalize hy : (Dbl.mul (Dbl.ofNat s) (reduce_ratio m)).val = y at b1 b2
    -- upper bound
    have hup : (Dbl.mul (Dbl.ofNat s) (reduce_ratio m)).trunc ≤ F := by
      apply Dbl.trunc_le
      rw [hy]
      have : y * ((m : ℚ) + 1) < ((F : ℚ) + 1) * ((m : ℚ) + 1) := by nlinarith
      exact lt_of_mul_lt_mul_right this (le_of_lt hK)
    rcases Nat.eq_zero_or_pos rho with hr0 | hr0
    · -- exact multiple
      have hdvd : (m + 1) ∣ s * 256 := Nat.dvd_of_mod_eq_zero (by rw [hR, hr0])
      rcases Nat.eq_zero_or_pos F with hF0 | hF0
      · left; omega
      · have hlow : F - 1 ≤ (Dbl.mul (Dbl.ofNat s) (reduce_ratio m)).trunc := by
          apply Dbl.le_trunc
          rw [hy]
          have hF1 : ((F - 1 : ℕ) : ℚ) = (F : ℚ) - 1 := by
            rw [Nat.cast_sub hF0]; simp
          rw [hF1]
          have hr0' : (rho : ℚ) = 0 := by exact_mod_cast hr0
          have : ((F : ℚ) - 1) * ((m : ℚ) + 1) ≤ y * ((m : ℚ) + 1) := by nlinarith
          exact le_of_mul_le_mul_right this hK
        rcases Nat.lt_or_ge (Dbl.mul (Dbl.ofNat s) (reduce_ratio m)).trunc F with hlt | hge
        · right; exact ⟨hdvd, by omega⟩
        · left; omega
    · left
      have hlow : F ≤ (Dbl.mul (Dbl.ofNat s) (reduce_ratio m)).trunc := by
        apply Dbl.le_trunc
        rw [hy]
        have hr1 : (1 : ℚ) ≤ rho := by exact_mod_cast hr0
        have : (F : ℚ) * ((m : ℚ) + 1) ≤ y * ((m : ℚ) + 1) := by nlinarith
        exact le_of_mul_le_mul_right this hK
      omega

/-- When `max + 1` is a power of two the ratio and the product are exact, and
the truncated product is the exact quotient. -/
theorem reduce_scaled_pow2 (k s : Nat) (hk : 8 < k) (hk2 : k ≤ 52) (hs : s < 2 ^ k) :
    (Dbl.mul (Dbl.ofNat s) (reduce_ratio (2 ^ k - 1))).trunc = s * 256 / 2 ^ k := by
  have h2 : (2 : ℚ) ≠ 0 := by norm_num
  have hpos : 0 < 2 ^ k := by positivity
  have hlt : 2 ^ k < 2 ^ 53 := Nat.pow_lt_pow_right (by norm_num) (by omega)
  have hm1 : 2 ^ k - 1 + 1 = 2 ^ k := by omega
  -- the divisor
  have hD := Dbl.val_add_one (2 ^ k - 1) (by omega)
  have hDq : (((2 ^ k - 1 : ℕ) : ℚ) + 1) = (2 : ℚ) ^ (k : ℤ) := by
    have : (((2 ^ k - 1 + 1 : ℕ)) : ℚ) = ((2 ^ k : ℕ) : ℚ) := by rw [hm1]
    push_cast at this
    rw [zpow_natCast]
    linarith
  rw [hDq] at hD
  -- the ratio
  have h256 := Dbl.val_ofNat 256 (by norm_num)
  have hDpos : 0 < (Dbl.add (Dbl.ofNat (2 ^ k - 1)) (Dbl.ofNat 1)).val := by
    rw [hD]; exact two_zpow_pos _
  have hq := Dbl.div_quot (Dbl.ofNat 256) (Dbl.add (Dbl.ofNat (2 ^ k - 1)) (Dbl.ofNat 1)) hDpos
  rw [h256, hD] at hq
  have hR : (reduce_ratio (2 ^ k - 1)).val = (2 : ℚ) ^ ((8 : ℤ) - k) := by
    have := Dbl.round_exact _ _
      (Nat.mul_pos (Dbl.ofNat 256).den_pos
        ((Dbl.add (Dbl.ofNat (2 ^ k - 1)) (Dbl.ofNat 1)).num_pos hDpos)) 1 ((8 : ℤ) - k)
      (by norm_num) (by norm_num)
      (by
        rw [hq, zpow_sub₀ h2]
        norm_num)
    simpa [reduce_ratio, Dbl.div] using this
  rcases Nat.eq_zero_or_pos s with h0 | h0
  · subst h0; rw [reduce_scaled_zero]; simp
  · -- the product
    have hS := Dbl.val_ofNat s (by omega)
    have hpq := Dbl.mul_quot (Dbl.ofNat s) (reduce_ratio (2 ^ k - 1))
    rw [hS, hR] at hpq
    have hY : (Dbl.mul (Dbl.ofNat s) (reduce_ratio (2 ^ k - 1))).val =
        (s : ℚ) * (2 : ℚ) ^ ((8 : ℤ) - k) := by
      have := Dbl.round_exact _ _
        (Nat.mul_pos (Dbl.ofNat s).den_pos (reduce_ratio (2 ^ k - 1)).den_pos) s ((8 : ℤ) - k)
        h0 (by omega) hpq
      simpa [Dbl.mul] using this
    have hYq : (Dbl.mul (Dbl.ofNat s) (reduce_ratio (2 ^ k - 1))).val =
        ((s * 256 : ℕ) : ℚ) / ((2 ^ k : ℕ) : ℚ) := by
      rw [hY, zpow_sub₀ h2, zpow_natCast]
      push_cast
      norm_num
      ring
    have hkq : (0 : ℚ) < ((2 ^ k : ℕ) : ℚ) := by exact_mod_cast hpos
    apply le_antisymm
    · apply Dbl.trunc_le
      rw [hYq, div_lt_iff₀ hkq]
      have : s * 256 < (s * 256 / 2 ^ k + 1) * 2 ^ k := by
        have := Nat.div_add_mod (s * 256) (2 ^ k)
        have := Nat.mod_lt (s * 256) hpos
        nlinarith
      exact_mod_cast this
    · apply Dbl.le_trunc
      rw [hYq, le_div_iff₀ hkq]
      have : s * 256 / 2 ^ k * 2 ^ k ≤ s * 256 := Nat.div_mul_le_self _ _
      exact_mod_cast this

theorem quotient_lt_256 (m s : Nat) (hsm : s ≤ m) : s * 256 / (m + 1) < 256 := by
  rw [Nat.div_lt_iff_lt_mul (by omega)]
  nlinarith

theorem get_gain_enlarge (m : Nat) (hm : m < 255) : get_gain m = gain.enlarge (256 / (m + 1)) := by
  have h1 : m ≠ 255 := by omega
  have h2 : ¬ 255 < m := by omega
  simp only [get_gain, if_neg h1, if_neg h2, enlarge_ratio]
  rw [Nat.mod_eq_of_lt (by omega)]

set_option maxRecDepth 100000 in
/-- C13 (gain narrowing), evaluated at the declared maximum 321 and the sample
161: the exact quotient `161 * 256 / 322` is 128, the `double` product of 161
and the rounded ratio is just below 128, and the gain returns 127. -/
theorem gain_narrowing_rounds_down :
    (get_gain 321).invoke 161 = 127 ∧ 161 * 256 / (321 + 1) = 128 := by
  decide

set_option maxRecDepth 100000 in
/-- C13 (gain narrowing), as the code computes it: for every declared maximum
`m` with `255 < m < 2 ^ 43` and every sample `s ≤ m` the gain returns
`floor (s * 256 / (m + 1))`, or one less than that when `s * 256` is an exact
multiple of `m + 1`; when `m + 1` is a power of two (`2 ^ 9` to `2 ^ 52`) it
returns exactly `floor (s * 256 / (m + 1))`; with `m = 65535` the sample
65535 maps to 255 and the sample 0 maps to 0. -/
theorem gain_narrowing :
    (∀ m s, 255 < m → m < 2 ^ 43 → s ≤ m →
      (get_gain m).invoke s = s * 256 / (m + 1) ∨
      ((m + 1) ∣ s * 256 ∧ (get_gain m).invoke s + 1 = s * 256 / (m + 1))) ∧
    (∀ k s, 8 < k → k ≤ 52 → s < 2 ^ k →
      (get_gain (2 ^ k - 1)).invoke s = s * 256 / 2 ^ k) ∧
    (get_gain 65535).invoke 65535 = 255 ∧ (get_gain 65535).invoke 0 = 0 := by
  refine ⟨?_, ?_, by decide, by decide⟩
  · intro m s hm hm2 hsm
    have hF := quotient_lt_256 m s hsm
    rw [get_gain_reduce m hm]
    show (Dbl.mul (Dbl.ofNat s) (reduce_ratio m)).trunc % 256 = _ ∨ (_ ∧
      (Dbl.mul (Dbl.ofNat s) (reduce_ratio m)).trunc % 256 + 1 = _)
    rcases reduce_scaled_floor m s hm2 hsm with h | ⟨h1, h2⟩
    · left; rw [h]; exact Nat.mod_eq_of_lt hF
    · right
      refine ⟨h1, ?_⟩
      rw [Nat.mod_eq_of_lt (by omega)]
      exact h2
  · intro k s hk hk2 hs
    have hpos : 0 < 2 ^ k := by positivity
    have hbig : 2 ^ 9 ≤ 2 ^ k := Nat.pow_le_pow_right (by norm_num) (by omega)
    have hF := quotient_lt_256 (2 ^ k - 1) s (by omega)
    have hm1 : 2 ^ k - 1 + 1 = 2 ^ k := by omega
    rw [hm1] at hF
    rw [get_gain_reduce (2 ^ k - 1) (by omega)]
    show (Dbl.mul (Dbl.ofNat s) (reduce_ratio (2 ^ k - 1))).trunc % 256 = _
    rw [reduce_scaled_pow2 k s hk hk2 hs]
    exact Nat.mod_eq_of_lt hF

/-- Instance of C13 at the maximum 1000 and the sample 500. -/
theorem gain_narrowing_witness :
    (255 : Nat) < 1000 ∧ 1000 < 2 ^ 43 ∧ 500 ≤ 1000 ∧
    ((get_gain 1000).invoke 500 = 500 * 256 / (1000 + 1) ∨
      ((1000 + 1) ∣ 500 * 256 ∧ (get_gain 1000).invoke 500 + 1 = 500 * 256 / (1000 + 1))) :=
  ⟨by decide, by norm_num, by decide,
   gain_narrowing.1 1000 500 (by decide) (by norm_num) (by decide)⟩

set_option maxRecDepth 100000 in
/-- C14 (gain stays in range), evaluated at the declared maximum `2 ^ 53` and
the sample `2 ^ 53`: `max + 1.0` rounds to `2 ^ 53`, the ratio is `2 ^ (-45)`
and the product is 256, outside 0..255. -/
theorem gain_scaled_out_of_range :
    (get_gain (2 ^ 53)).scaled (2 ^ 53) = 256 := by
  decide

/-- C14 (gain stays in range), as the code computes it: for every declared
maximum `m < 2 ^ 51` and every sample `s ≤ m` the value computed before the
8-bit conversion lies in 0..255, so the conversion changes nothing. -/
theorem gain_scaled_in_range (m s : Nat) (hm : m < 2 ^ 51) (hsm : s ≤ m) :
    (get_gain m).scaled s ≤ 255 ∧ (get_gain m).invoke s = (get_gain m).scaled s := by
  have key : (get_gain m).scaled s ≤ 255 := by
    rcases Nat.lt_trichotomy m 255 with h | h | h
    · rw [get_gain_enlarge m h]
      show (s * (256 / (m + 1))) % 2 ^ 64 ≤ 255
      have h1 : (m + 1) * (256 / (m + 1)) ≤ 256 := Nat.mul_div_le 256 (m + 1)
      have h2 : 1 ≤ 256 / (m + 1) := by
        rw [Nat.le_div_iff_mul_le (by omega)]; omega
      have h3 : s * (256 / (m + 1)) ≤ m * (256 / (m + 1)) := Nat.mul_le_mul_right _ hsm
      have h4 : (m + 1) * (256 / (m + 1)) = m * (256 / (m + 1)) + 256 / (m + 1) := by ring
      have h5 : s * (256 / (m + 1)) ≤ 255 := by omega
      exact le_trans (Nat.mod_le _ _) h5
    · subst h
      show s ≤ 255
      exact hsm
    · rw [get_gain_reduce m h]
      exact reduce_scaled_le m s hm hsm
  refine ⟨key, ?_⟩
  rw [gain_invoke_eq_scaled]
  exact Nat.mod_eq_of_lt (by omega)

/-- Instance of C14 at the maximum 1000 and the sample 1000. -/
theorem gain_scaled_in_range_witness :
    (1000 : Nat) < 2 ^ 51 ∧ 1000 ≤ 1000 ∧
    (get_gain 1000).scaled 1000 ≤ 255 ∧
    (get_gain 1000).invoke 1000 = (get_gain 1000).scaled 1000 :=
  ⟨by norm_num, by decide, gain_scaled_in_range 1000 1000 (by norm_num) (by decide)⟩

/-! ## The maximum declared by the encoders (C26) -/

/-- C26 (encoders declare a fixed maximum): for every grayscale image the
output of `write_pgm_ascii` and of `write_pgm_binary` is the magic line (`P2`,
`P5`), the line `<width> <height>`, the line `256`, and then the pixel data;
for every RGB image the output of `write_ppm_ascii` and of `write_ppm_binary`
is the magic line (`P3`, `P6`), the line `<width> <height>`, the line `255`,
and then the pixel data.  The header is a function of the width and the
height alone. -/
theorem encoders_declare_fixed_maximum (g : Image gray_pixel) (c : Image rgb_pixel) :
    (∃ data, write_pgm_ascii g =
      [80, 50, 10] ++ (put_nat g.width ++ [32] ++ put_nat g.height ++ [10]) ++
        ([50, 53, 54, 10] ++ data)) ∧
    (∃ data, write_pgm_binary g =
      [80, 53, 10] ++ (put_nat g.width ++ [32] ++ put_nat g.height ++ [10]) ++
        ([50, 53, 54, 10] ++ data)) ∧
    (∃ data, write_ppm_ascii c =
      [80, 51, 10] ++ (put_nat c.width ++ [32] ++ put_nat c.height ++ [10]) ++
        ([50, 53, 53, 10] ++ data)) ∧
    (∃ data, write_ppm_binary c =
      [80, 54, 10] ++ (put_nat c.width ++ [32] ++ put_nat c.height ++ [10]) ++
        ([50, 53, 53, 10] ++ data)) ∧
    put_nat 256 = [50, 53, 54] ∧ put_nat 255 = [50, 53, 53] := by
  refine ⟨⟨(List.range g.ny).flatMap (fun j =>
      (List.range g.nx).flatMap (fun i => put_nat (g.get i j).value ++ [32]) ++ [10]), ?_⟩,
    ⟨(List.range g.ny).flatMap (fun j =>
      (List.range g.nx).flatMap (fun i => [(g.get i j).value]) ++ [10]), ?_⟩,
    ⟨(List.range c.ny).flatMap (fun j =>
      (List.range c.nx).flatMap (fun i =>
        put_nat (c.get i j).red ++ [32] ++ put_nat (c.get i j).green ++ [32] ++
          put_nat (c.get i j).blue ++ [32]) ++ [10]), ?_⟩,
    ⟨(List.range c.ny).flatMap (fun j =>
      (List.range c.nx).flatMap (fun i =>
        [(c.get i j).red, (c.get i j).green, (c.get i j).blue])), ?_⟩, by decide, by decide⟩
  · simp only [write_pgm_ascii, put_size_header, Image.width, Image.height, List.append_assoc]
  · simp only [write_pgm_binary, put_size_header, Image.width, Image.height, List.append_assoc]
  · simp only [write_ppm_ascii, put_size_header, Image.width, Image.height, List.append_assoc]
  · simp only [write_ppm_binary, put_size_header, Image.width, Image.height, List.append_assoc]
/-! ## The container: layout, checked access, row copy (C28 to C30) -/

/-- Inside a well-formed image the flat offset of `(x, y)` is `x + y * nx`,
below the buffer length. -/
theorem Image.offset_lt {P : Type} (img : Image P) (h : img.wf) (x y : Nat) (hx : x < img.nx)
    (hy : y < img.ny) :
    img.offset x y = x + y * img.nx ∧ x + y * img.nx < img.pixels.length := by
  have h1 : x + y * img.nx < img.nx * img.ny := by
    calc x + y * img.nx < img.nx + y * img.nx := by omega
      _ = (y + 1) * img.nx := by ring
      _ ≤ img.ny * img.nx := Nat.mul_le_mul_right _ hy
      _ = img.nx * img.ny := Nat.mul_comm _ _
  refine ⟨?_, by rw [h.1]; exact h1⟩
  unfold Image.offset
  exact Nat.mod_eq_of_lt (lt_trans h1 h.2.2.2)

/-- Inside a well-formed image the row view of row `y` indexes `x + y * nx`. -/
theorem Image.line_index {P : Type} (img : Image P) (h : img.wf) (x y : Nat) (hx : x < img.nx)
    (hy : y < img.ny) : (img.line y).index x = x + y * img.nx := by
  have h0 := (Image.offset_lt img h x y hx hy).2
  rw [h.1] at h0
  have h1 : img.nx * y ≤ x + y * img.nx := by rw [Nat.mul_comm]; omega
  have h2 : img.nx * y < 2 ^ 64 := lt_of_le_of_lt h1 (lt_trans h0 h.2.2.2)
  unfold Image.line line_proxy.make line_proxy.index
  simp only
  rw [Nat.mod_eq_of_lt h2, Nat.mod_eq_of_lt (by rw [Nat.mul_comm, Nat.add_comm]; exact lt_trans h0 h.2.2.2)]
  rw [Nat.mul_comm, Nat.add_comm]
/-- The sized constructor when the product of the dimensions is representable. -/
theorem mk_sized_spec {P : Type} [Inhabited P] (w h : Nat) (hwh : w * h < 2 ^ 64) :
    (Image.mk_sized w h : Image P).width = w ∧ (Image.mk_sized w h : Image P).height = h ∧
    (Image.mk_sized w h : Image P).size = w * h ∧
    (Image.mk_sized w h : Image P).pixels = List.replicate (w * h) default := by
  unfold Image.mk_sized Image.width Image.height Image.size
  rw [Nat.mod_eq_of_lt hwh]
  simp

/-- The row view of row `y` and `operator()(x, y)` compute the same flat index. -/
theorem line_index_eq_offset {P : Type} (img : Image P) (x y : Nat) :
    (img.line y).index x = img.offset x y := by
  unfold Image.line line_proxy.make line_proxy.index Image.offset
  simp only
  rw [Nat.mul_comm img.nx y]
  omega

/-- C28 (row-major layout): in every image and for every `x`, `y`, the
row-view access `img[y][x]` and the unchecked access `img(x, y)` use the same
index of the buffer and read the same pixel, and the row view `img[y]` has
`width() = width` and `y_position() = y`; when the image is well formed and
`x < width`, `y < height`, that index is `x + y * width`, it lies inside the
buffer, and the flat access `raw_access(x + y * width)` reads the same pixel. -/
theorem row_major_layout {P : Type} [Inhabited P] (img : Image P) (x y : Nat) :
    (img.line y).index x = img.offset x y ∧
    (img.line y).get img.pixels x = img.get x y ∧
    (img.line y).width = img.width ∧
    (img.line y).y_position = y ∧
    (img.wf → x < img.width → y < img.height →
      img.offset x y = x + y * img.width ∧
      x + y * img.width < img.size ∧
      img.get x y = img.raw_access (x + y * img.width) ∧
      (img.line y).get img.pixels x = img.raw_access (x + y * img.width)) := by
  have hl := line_index_eq_offset img x y
  refine ⟨hl, ?_, rfl, rfl, ?_⟩
  · unfold line_proxy.get Image.get Image.raw_access
    rw [hl]
  · intro h hx hy
    have ho := Image.offset_lt img h x y hx hy
    refine ⟨ho.1, ho.2, ?_, ?_⟩
    · unfold Image.get
      rw [ho.1]
      rfl
    · unfold line_proxy.get Image.raw_access
      rw [hl, ho.1]
      rfl

/-- Instance of C28: the pixel `(1, 1)` of a 3x2 image. -/
theorem row_major_layout_witness :
    Image.wf (⟨3, 2, [⟨10⟩, ⟨11⟩, ⟨12⟩, ⟨13⟩, ⟨14⟩, ⟨15⟩]⟩ : Image gray_pixel) ∧
    Image.get (⟨3, 2, [⟨10⟩, ⟨11⟩, ⟨12⟩, ⟨13⟩, ⟨14⟩, ⟨15⟩]⟩ : Image gray_pixel) 1 1 =
      Image.raw_access (⟨3, 2, [⟨10⟩, ⟨11⟩, ⟨12⟩, ⟨13⟩, ⟨14⟩, ⟨15⟩]⟩ : Image gray_pixel)
        (1 + 1 * 3) ∧
    line_proxy.get (Image.line (⟨3, 2, [⟨10⟩, ⟨11⟩, ⟨12⟩, ⟨13⟩, ⟨14⟩, ⟨15⟩]⟩ : Image gray_pixel) 1)
        [(⟨10⟩ : gray_pixel), ⟨11⟩, ⟨12⟩, ⟨13⟩, ⟨14⟩, ⟨15⟩] 1 =
      Image.raw_access (⟨3, 2, [⟨10⟩, ⟨11⟩, ⟨12⟩, ⟨13⟩, ⟨14⟩, ⟨15⟩]⟩ : Image gray_pixel)
        (1 + 1 * 3) :=
  ⟨by simp [Image.wf],
   ((row_major_layout (⟨3, 2, [⟨10⟩, ⟨11⟩, ⟨12⟩, ⟨13⟩, ⟨14⟩, ⟨15⟩]⟩ : Image gray_pixel)
      1 1).2.2.2.2 (by simp [Image.wf]) (by decide) (by decide)).2.2.1,
   ((row_major_layout (⟨3, 2, [⟨10⟩, ⟨11⟩, ⟨12⟩, ⟨13⟩, ⟨14⟩, ⟨15⟩]⟩ : Image gray_pixel)
      1 1).2.2.2.2 (by simp [Image.wf]) (by decide) (by decide)).2.2.2⟩

/-- C29 (checked `(x, y)` access), evaluated on the 2x2 image with pixels
`1 2 / 3 4`: `at(2, 0)` has `x = 2 ≥ width`, yet the flat index `2 + 0 * 2` is
inside the buffer of four pixels, so the call does not fail and returns the
pixel of position `(0, 1)`. -/
theorem checked_access_accepts_wide_column :
    Image.width (⟨2, 2, [⟨1⟩, ⟨2⟩, ⟨3⟩, ⟨4⟩]⟩ : Image gray_pixel) ≤ 2 ∧
    Image.at_xy (⟨2, 2, [⟨1⟩, ⟨2⟩, ⟨3⟩, ⟨4⟩]⟩ : Image gray_pixel) 2 0 = .ok ⟨3⟩ ∧
    Image.get (⟨2, 2, [⟨1⟩, ⟨2⟩, ⟨3⟩, ⟨4⟩]⟩ : Image gray_pixel) 0 1 = ⟨3⟩ := by
  decide
/-- The copy loop between two views whose index ranges `[A, A+n)` and
`[B, B+n)` lie inside the buffer and do not meet: it ends without error, keeps
the length, and position `j` of the result holds the former content of
`j - A + B` when `j` is in the copied part of `[A, A+n)` and its former
content otherwise. -/
theorem copy_loop_spec {P : Type} [Inhabited P] (dst src : line_proxy) (A B n : Nat)
    (hd : ∀ i, i < n → dst.index i = A + i) (hs : ∀ i, i < n → src.index i = B + i)
    (hdis : A + n ≤ B ∨ B + n ≤ A) :
    ∀ (k i : Nat) (c : List P), i + k ≤ n → A + n ≤ c.length → B + n ≤ c.length →
      ∃ c1, line_proxy.copy_loop dst src k i c = .ok c1 ∧ c1.length = c.length ∧
        ∀ j, c1.getD j default =
          if A + i ≤ j ∧ j < A + i + k then c.getD (j - A + B) default else c.getD j default := by
  intro k
  induction k with
  | zero =>
    intro i c _ _ _
    refine ⟨c, rfl, rfl, ?_⟩
    intro j
    rw [if_neg (by omega)]
  | succ k ih =>
    intro i c hik hA hB
    have hdi := hd i (by omega)
    have hsi := hs i (by omega)
    obtain ⟨c1, h1, h2, h3⟩ := ih (i + 1) (c.set (A + i) (c.getD (B + i) default)) (by omega)
      (by rw [List.length_set]; exact hA) (by rw [List.length_set]; exact hB)
    refine ⟨c1, ?_, ?_, ?_⟩
    · rw [line_proxy.copy_loop, hdi, hsi, if_neg (by omega), if_neg (by omega)]
      unfold line_proxy.get
      rw [hsi]
      exact h1
    · rw [h2, List.length_set]
    · intro j
      rw [h3 j]
      simp only [List.getD_eq_getElem?_getD, List.getElem?_set]
      split_ifs <;>
        first
        | rfl
        | (exfalso; omega)
        | (have e : j - A + B = B + i := by omega
           rw [e]; rfl)
/-- Rows of a well-formed image: row `a` occupies `[a * nx, a * nx + nx)`,
inside the buffer, and lies entirely before row `b` when `a < b`. -/
theorem Image.row_range {P : Type} (img : Image P) (h : img.wf) (a : Nat) (ha : a < img.ny) :
    a * img.nx + img.nx ≤ img.pixels.length ∧
    ∀ b, a < b → a * img.nx + img.nx ≤ b * img.nx := by
  have e : ∀ b, a < b → a * img.nx + img.nx ≤ b * img.nx := by
    intro b hab
    calc a * img.nx + img.nx = (a + 1) * img.nx := by ring
      _ ≤ b * img.nx := Nat.mul_le_mul_right _ hab
  refine ⟨?_, e⟩
  rw [h.1, Nat.mul_comm img.nx img.ny]
  exact e img.ny ha

/-- C30 (row view copy): in every well-formed image and for rows `a ≠ b`,
both below the height, the assignment `img[a] = img[b]` ends without error;
afterwards pixel `(i, a)` is the former pixel `(i, b)` for every `i < width`,
every pixel of every row other than `a` is unchanged, and so are width, height
and the buffer length. -/
theorem row_view_copy {P : Type} [Inhabited P] (img : Image P) (h : img.wf) (a b : Nat)
    (ha : a < img.height) (hb : b < img.height) (hab : a ≠ b) :
    ∃ img1, img.assign_row a b = .ok img1 ∧
      img1.width = img.width ∧ img1.height = img.height ∧ img1.size = img.size ∧
      (∀ i, i < img.width → img1.get i a = img.get i b) ∧
      (∀ i y, i < img.width → y < img.height → y ≠ a → img1.get i y = img.get i y) := by
  unfold Image.width Image.height at *
  have hra := Image.row_range img h a ha
  have hrb := Image.row_range img h b hb
  have hdis : a * img.nx + img.nx ≤ b * img.nx ∨ b * img.nx + img.nx ≤ a * img.nx := by
    rcases Nat.lt_or_gt_of_ne hab with h1 | h1
    · exact Or.inl (hra.2 b h1)
    · exact Or.inr (hrb.2 a h1)
  obtain ⟨c1, h1, h2, h3⟩ := copy_loop_spec (img.line a) (img.line b) (a * img.nx) (b * img.nx)
    img.nx
    (fun i hi => by rw [Image.line_index img h i a hi ha, Nat.add_comm])
    (fun i hi => by rw [Image.line_index img h i b hi hb, Nat.add_comm])
    hdis img.nx 0 img.pixels (by omega) hra.1 hrb.1
  refine ⟨⟨img.nx, img.ny, c1⟩, ?_, rfl, rfl, h2, ?_, ?_⟩
  · unfold Image.assign_row line_proxy.assign
    have hw : ((img.line a).nx_ != (img.line b).nx_) = false := by
      simp [Image.line, line_proxy.make]
    rw [hw]
    simp only [Bool.false_eq_true, if_false]
    have hn : (img.line a).nx_ = img.nx := rfl
    rw [hn, h1]
  · intro i hi
    have e1 : Image.offset (⟨img.nx, img.ny, c1⟩ : Image P) i a = i + a * img.nx :=
      (Image.offset_lt img h i a hi ha).1
    have e2 := (Image.offset_lt img h i b hi hb).1
    unfold Image.get Image.raw_access
    rw [e1, e2, h3, if_pos (by omega)]
    congr 1
    omega
  · intro i y hi hy hya
    have e1 : Image.offset (⟨img.nx, img.ny, c1⟩ : Image P) i y = i + y * img.nx :=
      (Image.offset_lt img h i y hi hy).1
    have e2 := (Image.offset_lt img h i y hi hy).1
    have hry := Image.row_range img h y hy
    unfold Image.get Image.raw_access
    rw [e1, e2, h3, if_neg]
    rcases Nat.lt_or_gt_of_ne hya with h4 | h4
    · have := hry.2 a h4
      omega
    · have := hra.2 y h4
      omega

/-- Instance of C30: `img[0] = img[1]` on a 2x2 image. -/
theorem row_view_copy_witness :
    Image.wf (⟨2, 2, [⟨1⟩, ⟨2⟩, ⟨3⟩, ⟨4⟩]⟩ : Image gray_pixel) ∧ (0 : Nat) ≠ 1 ∧
    Image.assign_row (⟨2, 2, [⟨1⟩, ⟨2⟩, ⟨3⟩, ⟨4⟩]⟩ : Image gray_pixel) 0 1 =
      .ok ⟨2, 2, [⟨3⟩, ⟨4⟩, ⟨3⟩, ⟨4⟩]⟩ ∧
    ∃ img1, Image.assign_row (⟨2, 2, [⟨1⟩, ⟨2⟩, ⟨3⟩, ⟨4⟩]⟩ : Image gray_pixel) 0 1 = .ok img1 ∧
      img1.width = Image.width (⟨2, 2, [⟨1⟩, ⟨2⟩, ⟨3⟩, ⟨4⟩]⟩ : Image gray_pixel) ∧
      img1.height = Image.height (⟨2, 2, [⟨1⟩, ⟨2⟩, ⟨3⟩, ⟨4⟩]⟩ : Image gray_pixel) ∧
      img1.size = Image.size (⟨2, 2, [⟨1⟩, ⟨2⟩, ⟨3⟩, ⟨4⟩]⟩ : Image gray_pixel) ∧
      (∀ i, i < Image.width (⟨2, 2, [⟨1⟩, ⟨2⟩, ⟨3⟩, ⟨4⟩]⟩ : Image gray_pixel) →
        img1.get i 0 = Image.get (⟨2, 2, [⟨1⟩, ⟨2⟩, ⟨3⟩, ⟨4⟩]⟩ : Image gray_pixel) i 1) ∧
      (∀ i y, i < Image.width (⟨2, 2, [⟨1⟩, ⟨2⟩, ⟨3⟩, ⟨4⟩]⟩ : Image gray_pixel) →
        y < Image.height (⟨2, 2, [⟨1⟩, ⟨2⟩, ⟨3⟩, ⟨4⟩]⟩ : Image gray_pixel) → y ≠ 0 →
        img1.get i y = Image.get (⟨2, 2, [⟨1⟩, ⟨2⟩, ⟨3⟩, ⟨4⟩]⟩ : Image gray_pixel) i y) :=
  ⟨by simp [Image.wf], by decide, by decide,
   row_view_copy (⟨2, 2, [⟨1⟩, ⟨2⟩, ⟨3⟩, ⟨4⟩]⟩ : Image gray_pixel) (by simp [Image.wf]) 0 1
     (by decide) (by decide) (by decide)⟩

/-! ## Extraction of a numeric token -/

theorem blank_not_digit {c : Nat} (h : isspace c = true) : isdigit c = false := by
  simp [isdigit, isspace] at *; omega

/-- The first byte of a token is not white space. -/
theorem num_token.text_head (t : num_token) (ht : t.wf) :
    ∃ d ds, t.text = d :: ds ∧ isspace d = false := by
  obtain ⟨hs, hne, hd⟩ := ht
  unfold num_token.text
  rcases hs with hs | hs | hs
  · rw [hs]
    cases hdg : t.digits with
    | nil => exact absurd hdg hne
    | cons d ds =>
      exact ⟨d, ds, rfl, isdigit_not_space (hd d (by rw [hdg]; simp))⟩
  · rw [hs]; exact ⟨45, t.digits, rfl, by decide⟩
  · rw [hs]; exact ⟨43, t.digits, rfl, by decide⟩

/-- The scan of a token that is followed by the end of the data or by a
byte that is no digit. -/
theorem scanInt_token (t : num_token) (ht : t.wf) (rest : List Nat)
    (hrest : ∀ c, rest.head? = some c → isdigit c = false) :
    scanInt (t.text ++ rest) = (decide (t.sign = [45]), t.digits, rest) := by
  obtain ⟨hs, hne, hd⟩ := ht
  have htk : (t.digits ++ rest).takeWhile isdigit = t.digits := by
    rw [List.takeWhile_append_of_pos hd]
    cases rest with
    | nil => simp
    | cons c r => simp [List.takeWhile, hrest c rfl]
  have hdr : (t.digits ++ rest).dropWhile isdigit = rest := by
    rw [List.dropWhile_append_of_pos hd]
    cases rest with
    | nil => simp
    | cons c r => simp [List.dropWhile, hrest c rfl]
  unfold num_token.text
  rcases hs with hs | hs | hs
  · rw [hs]
    cases hdg : t.digits with
    | nil => exact absurd hdg hne
    | cons d ds =>
      rw [hdg] at htk hdr
      simp only [List.nil_append, List.cons_append] at htk hdr ⊢
      rw [scanInt_digit d _ (hd d (by rw [hdg]; simp)), htk, hdr]
      simp
  · rw [hs]
    simp only [List.cons_append, List.nil_append, scanInt, htk, hdr]
    simp
  · rw [hs]
    simp only [List.cons_append, List.nil_append, scanInt, htk, hdr]
    simp

/-- The sentry in front of a token. -/
theorem sentry_token (sp : List Nat) (hsp : ∀ c ∈ sp, isspace c = true) (t : num_token)
    (ht : t.wf) (rest : List Nat) :
    IStream.sentry ⟨sp ++ t.text ++ rest, false, false⟩ = (⟨t.text ++ rest, false, false⟩, true) := by
  obtain ⟨d, ds, h1, h2⟩ := num_token.text_head t ht
  rw [h1, List.append_assoc, List.cons_append]
  exact sentry_skip sp hsp d _ h2

/-- Extraction of a `std::size_t` from a token that is followed by white
space or by the end of the data: the token is consumed, `eofbit` is set
exactly when nothing follows, and the value is the one of the token. -/
theorem extract_size_t_token (sp : List Nat) (hsp : ∀ c ∈ sp, isspace c = true) (t : num_token)
    (ht : t.fits_size) (rest : List Nat) (hrest : ∀ c, rest.head? = some c → isspace c = true)
    (old : Nat) :
    IStream.extract_size_t ⟨sp ++ t.text ++ rest, false, false⟩ old =
      (⟨rest, rest.isEmpty, false⟩, t.size_value) := by
  unfold IStream.extract_size_t
  rw [sentry_token sp hsp t ht.1 rest]
  simp only
  rw [scanInt_token t ht.1 rest (fun c hc => blank_not_digit (hrest c hc))]
  have hne : t.digits.isEmpty = false := by
    cases hdg : t.digits with
    | nil => exact absurd hdg ht.1.2.1
    | cons d ds => rfl
  have hv : ¬ (2 ^ 64 - 1 < digitsValue t.digits) := by have := ht.2; omega
  simp only [hne, Bool.false_eq_true, if_false, if_neg hv, num_token.size_value, decide_eq_true_eq]

/-- Extraction of an `int` from a token that is followed by white space or
by the end of the data. -/
theorem extract_int_token (sp : List Nat) (hsp : ∀ c ∈ sp, isspace c = true) (t : num_token)
    (ht : t.fits_int) (rest : List Nat) (hrest : ∀ c, rest.head? = some c → isspace c = true)
    (old : Int) :
    IStream.extract_int ⟨sp ++ t.text ++ rest, false, false⟩ old =
      (⟨rest, rest.isEmpty, false⟩, t.int_value) := by
  unfold IStream.extract_int
  rw [sentry_token sp hsp t ht.1 rest]
  simp only
  rw [scanInt_token t ht.1 rest (fun c hc => blank_not_digit (hrest c hc))]
  have hne : t.digits.isEmpty = false := by
    cases hdg : t.digits with
    | nil => exact absurd hdg ht.1.2.1
    | cons d ds => rfl
  have hfit := ht.2
  simp only [hne, Bool.false_eq_true, if_false, num_token.int_value, decide_eq_true_eq]
  by_cases hneg : t.sign = [45]
  · rw [if_pos hneg] at hfit
    have hN : ¬ (9223372036854775808 < digitsValue t.digits) := by omega
    have h2 : ¬ (-(digitsValue t.digits : Int) < -2147483648) := by omega
    have h3 : ¬ ((2147483647 : Int) < -(digitsValue t.digits : Int)) := by omega
    simp [hneg, hN, h2, h3]
  · rw [if_neg hneg] at hfit
    have hN : ¬ (9223372036854775807 < digitsValue t.digits) := by omega
    have h2 : ¬ ((digitsValue t.digits : Int) < -2147483648) := by omega
    have h3 : ¬ ((2147483647 : Int) < (digitsValue t.digits : Int)) := by omega
    simp [hneg, hN, h2, h3]
/-! ## The token loop and the line loop on plain-format text -/

/-- The token loop on the content of a line: the tokens go through `body` in
order, whatever the white space between them. -/
theorem token_loop_items {α σ : Type} (extract : IStream → IStream × α)
    (body : σ → α → Except PnmError σ) (value : num_token → α) (good : num_token → Prop)
    (hext : ∀ sp, (∀ c ∈ sp, isspace c = true) → ∀ t, good t → ∀ rest,
        (∀ c, rest.head? = some c → isspace c = true) →
        extract ⟨sp ++ t.text ++ rest, false, false⟩ = (⟨rest, rest.isEmpty, false⟩, value t))
    (hend : ∀ sp, (∀ c ∈ sp, isspace c = true) →
        (extract ⟨sp, false, false⟩).1 = ⟨[], true, true⟩)
    (items : List (num_token × List Nat)) :
    ∀ (sp : List Nat), (∀ c ∈ sp, isspace c = true) → items_wf good items →
      ∀ (st : σ) (fuel : Nat), items.length + 2 ≤ fuel →
      token_loop extract body fuel
          ⟨sp ++ items.flatMap (fun p => p.1.text ++ p.2), false, false⟩ st
        = some (run_tokens body st (items.map (fun p => value p.1))) := by
  induction items with
  | nil =>
    intro sp hsp _ st fuel hf
    obtain ⟨f, rfl⟩ : ∃ f, fuel = f + 2 := ⟨fuel - 2, by simp at hf; omega⟩
    have h1 := hend sp hsp
    rcases hx : extract ⟨sp, false, false⟩ with ⟨iss1, v⟩
    rw [hx] at h1
    simp only at h1
    subst h1
    simp [token_loop, IStream.eof, IStream.fail, hx, IStream.extract_string, IStream.sentry,
      IStream.good, run_tokens]
  | cons p l ih =>
    intro sp hsp hwf st fuel hf
    obtain ⟨f, rfl⟩ : ∃ f, fuel = f + 1 := ⟨fuel - 1, by simp at hf; omega⟩
    obtain ⟨hg, hb, hne, hl⟩ := hwf
    have hrest : ∀ c, (p.2 ++ l.flatMap (fun p => p.1.text ++ p.2)).head? = some c →
        isspace c = true := by
      intro c hc
      cases hp : p.2 with
      | nil =>
        have hl0 : l = [] := by
          by_contra h0
          exact hne h0 hp
        rw [hp, hl0] at hc
        simp at hc
      | cons d s =>
        rw [hp] at hc
        simp only [List.cons_append, List.head?_cons, Option.some.injEq] at hc
        subst hc
        exact (hb d (by rw [hp]; simp)).1
    have hx := hext sp hsp p.1 hg _ hrest
    have hbuf : sp ++ (p :: l).flatMap (fun p => p.1.text ++ p.2) =
        sp ++ p.1.text ++ (p.2 ++ l.flatMap (fun p => p.1.text ++ p.2)) := by
      simp [List.flatMap_cons, List.append_assoc]
    rw [hbuf]
    simp only [token_loop, IStream.eof, hx, IStream.fail, Bool.false_eq_true, if_false,
      List.map_cons, run_tokens]
    cases hbody : body st (value p.1) with
    | error e => rfl
    | ok st1 =>
      simp only
      cases hp : p.2 with
      | nil =>
        have hl0 : l = [] := by
          by_contra h0
          exact hne h0 hp
        subst hl0
        obtain ⟨f1, rfl⟩ : ∃ f1, f = f1 + 1 := ⟨f - 1, by simp at hf; omega⟩
        simp [token_loop, IStream.eof, run_tokens]
      | cons d s =>
        have hsp2 : ∀ c ∈ d :: s, isspace c = true := by
          intro c hc
          exact (hb c (by rw [hp]; exact hc)).1
        have := ih (d :: s) hsp2 hl st1 f (by simp at hf ⊢; omega)
        simpa using this
theorem blank_ne_hash {c : Nat} (h : isspace c = true) : c ≠ 35 := by
  simp [isspace] at h; omega

/-- The bytes of a well-formed token: no newline, no `#`. -/
theorem num_token.text_bytes (t : num_token) (ht : t.wf) :
    ∀ c ∈ t.text, c ≠ 10 ∧ c ≠ 35 := by
  intro c hc
  obtain ⟨hs, -, hd⟩ := ht
  rcases List.mem_append.1 hc with h | h
  · rcases hs with hs | hs | hs <;> rw [hs] at h <;> simp at h <;> omega
  · have := hd c h
    simp [isdigit] at this
    omega

theorem items_bytes (good : num_token → Prop) (hgw : ∀ t, good t → t.wf) :
    ∀ (items : List (num_token × List Nat)), items_wf good items →
      ∀ c ∈ items.flatMap (fun p => p.1.text ++ p.2), c ≠ 10 ∧ c ≠ 35 := by
  intro items
  induction items with
  | nil => intro _ c hc; simp at hc
  | cons p l ih =>
    intro hwf c hc
    obtain ⟨hg, hb, -, hl⟩ := hwf
    simp only [List.flatMap_cons, List.mem_append] at hc
    rcases hc with (h | h) | h
    · exact num_token.text_bytes p.1 (hgw _ hg) c h
    · exact ⟨(hb c h).2, blank_ne_hash (hb c h).1⟩
    · exact ih hl c h

/-- The content of a well-formed line has no newline and no `#`. -/
theorem text_line.content_bytes (good : num_token → Prop) (hgw : ∀ t, good t → t.wf)
    (L : text_line) (hL : L.wf good) : ∀ c ∈ L.content, c ≠ 10 ∧ c ≠ 35 := by
  intro c hc
  rcases List.mem_append.1 hc with h | h
  · exact ⟨(hL.1 c h).2, blank_ne_hash (hL.1 c h).1⟩
  · exact items_bytes good hgw L.items hL.2.1 c h

/-- A well-formed line has no newline. -/
theorem text_line.text_no_newline (good : num_token → Prop) (hgw : ∀ t, good t → t.wf)
    (L : text_line) (hL : L.wf good) : ∀ c ∈ L.text, (c != 10) = true := by
  intro c hc
  simp only [bne_iff_ne, ne_eq]
  rcases List.mem_append.1 hc with h | h
  · exact (text_line.content_bytes good hgw L hL c h).1
  · cases hcm : L.comment with
    | none => rw [hcm] at h; simp at h
    | some t =>
      rw [hcm] at h
      simp only [List.mem_cons] at h
      rcases h with h | h
      · omega
      · exact hL.2.2 t hcm c h

/-- Erasing the comment of a well-formed line leaves its content. -/
theorem text_line.erase_comment_text (good : num_token → Prop) (hgw : ∀ t, good t → t.wf)
    (L : text_line) (hL : L.wf good) : erase_comment L.text = L.content := by
  have hc : ∀ c ∈ L.content, (c != 35) = true := by
    intro c hc
    simp only [bne_iff_ne, ne_eq]
    exact (text_line.content_bytes good hgw L hL c hc).2
  unfold erase_comment text_line.text
  rw [List.takeWhile_append_of_pos hc]
  cases L.comment with
  | none => simp
  | some t => simp [List.takeWhile]

/-- The call `getline` on the last line of the data, which no newline ends. -/
theorem getline_last (l : List Nat) (hl : ∀ c ∈ l, (c != 10) = true) :
    IStream.getline ⟨l, false, false⟩ = (⟨[], true, l.isEmpty⟩, l) := by
  have h1 : l.dropWhile (fun c => c != 10) = [] := List.dropWhile_eq_nil_iff.2 hl
  simp only [IStream.getline, IStream.good, h1]
  simp

/-- The line loop at the end of the data. -/
theorem line_loop_at_eof {α σ : Type} (extract : IStream → IStream × α)
    (body : σ → α → Except PnmError σ) (done : σ → Bool) (tokfuel f : Nat) (s : IStream)
    (st : σ) (h : s.eofbit = true) :
    line_loop extract body done tokfuel (f + 1) s st = some (.ok (s, st)) := by
  simp [line_loop, IStream.eof, h]

/-- A well-formed line without content has no token. -/
theorem text_line.tokens_of_empty (good : num_token → Prop) (hgw : ∀ t, good t → t.wf)
    (L : text_line) (hL : L.wf good) (he : L.content.isEmpty = true) : L.tokens = [] := by
  unfold text_line.tokens
  cases hi : L.items with
  | nil => rfl
  | cons p l =>
    exfalso
    have hwf := hL.2.1
    rw [hi] at hwf
    obtain ⟨d, ds, h1, -⟩ := num_token.text_head p.1 (hgw _ hwf.1)
    simp [text_line.content, hi, List.flatMap_cons, h1] at he

/-- A well-formed line with a token has content. -/
theorem text_line.content_of_tokens (good : num_token → Prop) (hgw : ∀ t, good t → t.wf)
    (L : text_line) (hL : L.wf good) (ht : L.tokens ≠ []) : L.content.isEmpty = false := by
  cases he : L.content.isEmpty with
  | false => rfl
  | true => exact absurd (text_line.tokens_of_empty good hgw L hL he) ht

/-- The token loop on the content of a well-formed line. -/
theorem token_loop_line {α σ : Type} (extract : IStream → IStream × α)
    (body : σ → α → Except PnmError σ) (value : num_token → α) (good : num_token → Prop)
    (hext : ∀ sp, (∀ c ∈ sp, isspace c = true) → ∀ t, good t → ∀ rest,
        (∀ c, rest.head? = some c → isspace c = true) →
        extract ⟨sp ++ t.text ++ rest, false, false⟩ = (⟨rest, rest.isEmpty, false⟩, value t))
    (hend : ∀ sp, (∀ c ∈ sp, isspace c = true) →
        (extract ⟨sp, false, false⟩).1 = ⟨[], true, true⟩)
    (L : text_line) (hL : L.wf good) (tokfuel : Nat) (hf : L.items.length + 2 ≤ tokfuel)
    (st : σ) :
    token_loop extract body tokfuel (IStream.ofBytes L.content) st =
      some (run_tokens body st (L.tokens.map value)) := by
  have := token_loop_items extract body value good hext hend L.items L.lead
    (fun c hc => (hL.1 c hc).1) hL.2.1 st tokfuel hf
  simpa [IStream.ofBytes, text_line.content, text_line.tokens, List.map_map,
    Function.comp_def] using this

theorem lines_bytes_cons (L : text_line) (ls : List text_line) (tail : List Nat) :
    lines_bytes (L :: ls) tail = L.text ++ 10 :: lines_bytes ls tail := by
  simp [lines_bytes, List.flatMap_cons, List.append_assoc]

theorem lines_tokens_cons (L : text_line) (ls : List text_line) :
    lines_tokens (L :: ls) = L.tokens ++ lines_tokens ls := by
  simp [lines_tokens, List.flatMap_cons]

/-- The pixel stage: a line loop that never breaks, on the lines `ps` and the
unterminated last line `last`, sends all the tokens through `body` in reading
order and ends at the end of the data. -/
theorem line_loop_pixels {α σ : Type} (extract : IStream → IStream × α)
    (body : σ → α → Except PnmError σ) (value : num_token → α) (good : num_token → Prop)
    (hgw : ∀ t, good t → t.wf)
    (hext : ∀ sp, (∀ c ∈ sp, isspace c = true) → ∀ t, good t → ∀ rest,
        (∀ c, rest.head? = some c → isspace c = true) →
        extract ⟨sp ++ t.text ++ rest, false, false⟩ = (⟨rest, rest.isEmpty, false⟩, value t))
    (hend : ∀ sp, (∀ c ∈ sp, isspace c = true) →
        (extract ⟨sp, false, false⟩).1 = ⟨[], true, true⟩)
    (tokfuel : Nat) (last : text_line) (hlast : last.wf good)
    (hlf : last.items.length + 2 ≤ tokfuel) (ps : List text_line) :
    (∀ L ∈ ps, L.wf good) → (∀ L ∈ ps, L.items.length + 2 ≤ tokfuel) →
    ∀ (st : σ) (fuel : Nat), ps.length + 2 ≤ fuel →
      line_loop extract body (fun _ => false) tokfuel fuel
          ⟨lines_bytes ps last.text, false, false⟩ st =
        some (match run_tokens body st ((lines_tokens (ps ++ [last])).map value) with
          | .error e => .error e
          | .ok st1 => .ok (⟨[], true, last.text.isEmpty⟩, st1)) := by
  induction ps with
  | nil =>
    intro _ _ st fuel hf
    obtain ⟨f, rfl⟩ : ∃ f, fuel = f + 2 := ⟨fuel - 2, by simp at hf; omega⟩
    have hg := getline_last last.text (text_line.text_no_newline good hgw last hlast)
    have he := text_line.erase_comment_text good hgw last hlast
    have hb : lines_bytes [] last.text = last.text := by simp [lines_bytes]
    have htk : lines_tokens ([] ++ [last]) = last.tokens := by simp [lines_tokens]
    rw [hb, htk]
    by_cases hce : last.content.isEmpty = true
    · rw [line_loop_skip _ _ _ _ (f + 1) _ _ _ _ rfl hg (by rw [he]; exact hce),
        line_loop_at_eof _ _ _ _ _ _ _ rfl,
        text_line.tokens_of_empty good hgw last hlast hce]
      rfl
    · have ht := token_loop_line extract body value good hext hend last hlast tokfuel hlf st
      cases hr : run_tokens body st (last.tokens.map value) with
      | error e =>
        rw [hr] at ht
        simp [line_loop, IStream.eof, hg, he, hce, ht]
      | ok st1 =>
        rw [hr] at ht
        simp [line_loop, IStream.eof, hg, he, hce, ht]
  | cons L ps ih =>
    intro hwf hlen st fuel hf
    obtain ⟨f, rfl⟩ : ∃ f, fuel = f + 1 := ⟨fuel - 1, by simp at hf; omega⟩
    have hL := hwf L (by simp)
    have hg := getline_line L.text (lines_bytes ps last.text)
      (text_line.text_no_newline good hgw L hL)
    have he := text_line.erase_comment_text good hgw L hL
    have ih1 := fun st => ih (fun M hM => hwf M (by simp [hM]))
      (fun M hM => hlen M (by simp [hM])) st f (by simp at hf ⊢; omega)
    have htk : lines_tokens (L :: ps ++ [last]) = L.tokens ++ lines_tokens (ps ++ [last]) := by
      rw [List.cons_append, lines_tokens_cons]
    rw [lines_bytes_cons, htk, List.map_append, run_tokens_append]
    by_cases hce : L.content.isEmpty = true
    · rw [line_loop_skip _ _ _ _ f _ _ _ _ rfl hg (by rw [he]; exact hce), ih1 st,
        text_line.tokens_of_empty good hgw L hL hce]
      rfl
    · have ht := token_loop_line extract body value good hext hend L hL tokfuel
        (hlen L (by simp)) st
      cases hr : run_tokens body st (L.tokens.map value) with
      | error e =>
        rw [hr] at ht
        simp [line_loop, IStream.eof, hg, he, hce, ht]
      | ok st1 =>
        rw [hr] at ht
        have : line_loop extract body (fun _ => false) tokfuel (f + 1)
            ⟨L.text ++ 10 :: lines_bytes ps last.text, false, false⟩ st =
            line_loop extract body (fun _ => false) tokfuel f
              ⟨lines_bytes ps last.text, false, false⟩ st1 := by
          simp [line_loop, IStream.eof, hg, he, hce, ht]
        rw [this, ih1 st1]
/-- A loop body that only records the values it is given. -/
theorem run_tokens_of {α σ : Type} (body : σ → α → Except PnmError σ) (of : List α → σ)
    (hassign : ∀ pre v, body (of pre) v = .ok (of (pre ++ [v]))) (vs : List α) :
    ∀ pre, run_tokens body (of pre) vs = .ok (of (pre ++ vs)) := by
  induction vs with
  | nil => intro pre; simp [run_tokens]
  | cons v l ih =>
    intro pre
    simp only [run_tokens, hassign]
    rw [ih (pre ++ [v])]
    simp

/-- The header stage: a line loop whose body records the first `n` values and
which breaks after the first line that brings their number to `n`.  On the
lines `hs`, which hold fewer than `n` tokens, followed by the line `Lh`, which
completes them, the loop stops after `Lh`, in front of the bytes `tail`. -/
theorem line_loop_header {α σ : Type} (extract : IStream → IStream × α)
    (body : σ → α → Except PnmError σ) (value : num_token → α) (good : num_token → Prop)
    (done : σ → Bool) (hgw : ∀ t, good t → t.wf)
    (hext : ∀ sp, (∀ c ∈ sp, isspace c = true) → ∀ t, good t → ∀ rest,
        (∀ c, rest.head? = some c → isspace c = true) →
        extract ⟨sp ++ t.text ++ rest, false, false⟩ = (⟨rest, rest.isEmpty, false⟩, value t))
    (hend : ∀ sp, (∀ c ∈ sp, isspace c = true) →
        (extract ⟨sp, false, false⟩).1 = ⟨[], true, true⟩)
    (of : List α → σ) (n : Nat)
    (hassign : ∀ pre v, body (of pre) v = .ok (of (pre ++ [v])))
    (hdone : ∀ pre, done (of pre) = decide (n ≤ pre.length))
    (tokfuel : Nat) (Lh : text_line) (hLh : Lh.wf good)
    (hlf : Lh.items.length + 2 ≤ tokfuel) (tail : List Nat) (hs : List text_line) :
    (∀ L ∈ hs, L.wf good) → (∀ L ∈ hs, L.items.length + 2 ≤ tokfuel) →
    ∀ (pre : List α) (fuel : Nat), pre.length + (lines_tokens hs).length < n →
      n ≤ pre.length + (lines_tokens (hs ++ [Lh])).length → hs.length + 1 ≤ fuel →
      line_loop extract body done tokfuel fuel
          ⟨lines_bytes (hs ++ [Lh]) tail, false, false⟩ (of pre) =
        some (.ok (⟨tail, false, false⟩,
          of (pre ++ (lines_tokens (hs ++ [Lh])).map value))) := by
  induction hs with
  | nil =>
    intro _ _ pre fuel h1 h2 hf
    obtain ⟨f, rfl⟩ : ∃ f, fuel = f + 1 := ⟨fuel - 1, by simp at hf; omega⟩
    have hg := getline_line Lh.text tail (text_line.text_no_newline good hgw Lh hLh)
    have he := text_line.erase_comment_text good hgw Lh hLh
    have htk : lines_tokens ([] ++ [Lh]) = Lh.tokens := by simp [lines_tokens]
    have hb : lines_bytes ([] ++ [Lh]) tail = Lh.text ++ 10 :: tail := by
      simp [lines_bytes]
    rw [htk] at h2 ⊢
    rw [hb]
    have hne : Lh.tokens ≠ [] := by
      intro h0
      rw [h0] at h2
      simp [lines_tokens] at h1 h2
      omega
    have hce := text_line.content_of_tokens good hgw Lh hLh hne
    have ht := token_loop_line extract body value good hext hend Lh hLh tokfuel hlf (of pre)
    rw [run_tokens_of body of hassign] at ht
    have hd : done (of (pre ++ Lh.tokens.map value)) = true := by
      rw [hdone]
      simp only [List.length_append, List.length_map, decide_eq_true_eq]
      exact h2
    simp [line_loop, IStream.eof, hg, he, hce, ht, hd]
  | cons L hs ih =>
    intro hwf hlen pre fuel h1 h2 hf
    obtain ⟨f, rfl⟩ : ∃ f, fuel = f + 1 := ⟨fuel - 1, by simp at hf; omega⟩
    have hL := hwf L (by simp)
    have hg := getline_line L.text (lines_bytes (hs ++ [Lh]) tail)
      (text_line.text_no_newline good hgw L hL)
    have he := text_line.erase_comment_text good hgw L hL
    have htk : lines_tokens (L :: hs ++ [Lh]) = L.tokens ++ lines_tokens (hs ++ [Lh]) := by
      rw [List.cons_append, lines_tokens_cons]
    have hb : lines_bytes (L :: hs ++ [Lh]) tail =
        L.text ++ 10 :: lines_bytes (hs ++ [Lh]) tail := by
      rw [List.cons_append, lines_bytes_cons]
    rw [lines_tokens_cons, List.length_append] at h1
    rw [htk, List.length_append] at h2
    rw [hb, htk]
    by_cases hce : L.content.isEmpty = true
    · have h0 := text_line.tokens_of_empty good hgw L hL hce
      rw [h0] at h1 h2 ⊢
      rw [line_loop_skip _ _ _ _ f _ _ _ _ rfl hg (by rw [he]; exact hce)]
      exact ih (fun M hM => hwf M (by simp [hM])) (fun M hM => hlen M (by simp [hM])) pre f
        (by simpa using h1) (by simpa using h2) (by simp at hf ⊢; omega)
    · have ht := token_loop_line extract body value good hext hend L hL tokfuel
        (hlen L (by simp)) (of pre)
      rw [run_tokens_of body of hassign] at ht
      have hd : done (of (pre ++ L.tokens.map value)) = false := by
        rw [hdone]
        simp only [List.length_append, List.length_map, decide_eq_false_iff_not, not_le]
        omega
      have : line_loop extract body done tokfuel (f + 1)
          ⟨L.text ++ 10 :: lines_bytes (hs ++ [Lh]) tail, false, false⟩ (of pre) =
          line_loop extract body done tokfuel f
            ⟨lines_bytes (hs ++ [Lh]) tail, false, false⟩ (of (pre ++ L.tokens.map value)) := by
        simp [line_loop, IStream.eof, hg, he, hce, ht, hd]
      rw [this, ih (fun M hM => hwf M (by simp [hM])) (fun M hM => hlen M (by simp [hM]))
        (pre ++ L.tokens.map value) f (by simp; omega) (by simp; omega)
        (by simp at hf ⊢; omega)]
      simp [List.append_assoc]
/-! ## The ASCII decoders on plain-format text -/

theorem size_header_assign_of_values (pre : List Nat) (v : Nat) :
    size_header.assign (size_header.of_values pre) v = size_header.of_values (pre ++ [v]) := by
  rcases pre with _ | ⟨a, _ | ⟨b, l⟩⟩ <;> rfl

theorem size_header_done_of_values (pre : List Nat) :
    ((size_header.of_values pre).x_read && (size_header.of_values pre).y_read) =
      decide (2 ≤ pre.length) := by
  rcases pre with _ | ⟨a, _ | ⟨b, l⟩⟩ <;> simp [size_header.of_values]

theorem header_assign_of_values (pre : List Nat) (v : Nat) :
    header.assign (header.of_values pre) v = header.of_values (pre ++ [v]) := by
  rcases pre with _ | ⟨a, _ | ⟨b, _ | ⟨c, l⟩⟩⟩ <;> rfl

theorem header_done_of_values (pre : List Nat) :
    ((header.of_values pre).x_read && (header.of_values pre).y_read &&
      (header.of_values pre).max_read) = decide (3 ≤ pre.length) := by
  rcases pre with _ | ⟨a, _ | ⟨b, _ | ⟨c, l⟩⟩⟩ <;> simp [header.of_values]

theorem items_length_le (good : num_token → Prop) (hgw : ∀ t, good t → t.wf) :
    ∀ (items : List (num_token × List Nat)), items_wf good items →
      items.length ≤ (items.flatMap (fun p => p.1.text ++ p.2)).length := by
  intro items
  induction items with
  | nil => intro _; simp
  | cons p l ih =>
    intro hwf
    obtain ⟨d, ds, h1, -⟩ := num_token.text_head p.1 (hgw _ hwf.1)
    have := ih hwf.2.2.2
    simp only [List.flatMap_cons, List.length_append, List.length_cons, h1]
    omega

/-- A well-formed line has at most as many tokens as bytes. -/
theorem text_line.items_le_text (good : num_token → Prop) (hgw : ∀ t, good t → t.wf)
    (L : text_line) (hL : L.wf good) : L.items.length ≤ L.text.length := by
  have := items_length_le good hgw L.items hL.2.1
  simp only [text_line.text, text_line.content, List.length_append]
  omega

/-- Every line of a text, with its newline, is no longer than the text, and
the text has at least one byte per line besides its tail. -/
theorem lines_bytes_length (tail : List Nat) : ∀ (ls : List text_line),
    ls.length + tail.length ≤ (lines_bytes ls tail).length ∧
    ∀ L ∈ ls, L.text.length + 1 ≤ (lines_bytes ls tail).length := by
  intro ls
  induction ls with
  | nil => simp [lines_bytes]
  | cons M ls ih =>
    rw [lines_bytes_cons]
    simp only [List.length_append, List.length_cons]
    refine ⟨by omega, ?_⟩
    intro L hL
    rcases List.mem_cons.1 hL with h | h
    · subst h; omega
    · have := ih.2 L h
      omega

/-- The loop budgets that a text needs are covered by its length: every line
of the header part `hs` and of the pixel part `ps`, and the last line, has at
most `fuel - 2` tokens, and there are at most `fuel - 2` lines in each part. -/
theorem text_budget (gh gp : num_token → Prop) (hgh : ∀ t, gh t → t.wf)
    (hgp : ∀ t, gp t → t.wf) (hs ps : List text_line) (last : text_line)
    (hh : ∀ L ∈ hs, L.wf gh) (hp : ∀ L ∈ ps, L.wf gp) (hl : last.wf gp) (fuel : Nat)
    (hf : (lines_bytes hs (lines_bytes ps last.text)).length + 2 ≤ fuel) :
    (∀ L ∈ hs, L.items.length + 2 ≤ fuel) ∧ (∀ L ∈ ps, L.items.length + 2 ≤ fuel) ∧
    last.items.length + 2 ≤ fuel ∧ hs.length + 2 ≤ fuel ∧ ps.length + 2 ≤ fuel := by
  have h1 := lines_bytes_length (lines_bytes ps last.text) hs
  have h2 := lines_bytes_length last.text ps
  have h3 := text_line.items_le_text gp hgp last hl
  refine ⟨?_, ?_, by omega, by omega, by omega⟩
  · intro L hL
    have := h1.2 L hL
    have := text_line.items_le_text gh hgh L (hh L hL)
    omega
  · intro L hL
    have := h2.2 L hL
    have := text_line.items_le_text gp hgp L (hp L hL)
    omega

/-- The function `read_pbm_ascii` on a plain-format text after the magic
code: the header lines `hs` hold fewer than two numbers, the line `Lh` brings
them to the width `w`, the height `h` and possibly `extra` numbers; the pixel
samples are the tokens of the lines `ps` and `last` that follow. -/
theorem read_pbm_ascii_text (hs : List text_line) (Lh : text_line) (ps : List text_line)
    (last : text_line) (hh : ∀ L ∈ hs ++ [Lh], L.wf num_token.fits_size)
    (hp : ∀ L ∈ ps ++ [last], L.wf num_token.fits_int) (w h : Nat) (extra : List Nat)
    (hlt : (lines_tokens hs).length < 2)
    (hv : (lines_tokens (hs ++ [Lh])).map num_token.size_value = w :: h :: extra)
    (fuel : Nat)
    (hf : (lines_bytes (hs ++ [Lh]) (lines_bytes ps last.text)).length + 2 ≤ fuel) :
    read_pbm_ascii fuel (80 :: 49 :: lines_bytes (hs ++ [Lh]) (lines_bytes ps last.text)) =
      some (match run_tokens (pbm_pixel_body w h) (Image.mk_sized w h, 0)
          ((lines_tokens (ps ++ [last])).map num_token.int_value) with
        | .error e => .error e
        | .ok st => .ok st.1) := by
  have hb := text_budget num_token.fits_size num_token.fits_int (fun t ht => ht.1)
    (fun t ht => ht.1) (hs ++ [Lh]) ps last hh (fun L hL => hp L (by simp [hL]))
    (hp last (by simp)) fuel hf
  have hlen : 2 ≤ (lines_tokens (hs ++ [Lh])).length := by
    have := congrArg List.length hv
    simp only [List.length_map, List.length_cons] at this
    omega
  have hH := line_loop_header (fun s => s.extract_size_t 0)
    (fun h tmp => .ok (size_header.assign h tmp)) num_token.size_value num_token.fits_size
    (fun h => h.x_read && h.y_read) (fun t ht => ht.1)
    (fun sp hsp t ht rest hrest => extract_size_t_token sp hsp t ht rest hrest 0)
    extract_size_t_end size_header.of_values 2
    (fun pre v => congrArg Except.ok (size_header_assign_of_values pre v))
    size_header_done_of_values fuel Lh (hh Lh (by simp)) (hb.1 Lh (by simp))
    (lines_bytes ps last.text) hs (fun L hL => hh L (by simp [hL]))
    (fun L hL => hb.1 L (by simp [hL])) [] fuel (by simpa using hlt) (by simpa using hlen)
    (by have := hb.2.2.2.1; simp at this; omega)
  have hP := line_loop_pixels (fun s => s.extract_int 0) (pbm_pixel_body w h)
    num_token.int_value num_token.fits_int (fun t ht => ht.1)
    (fun sp hsp t ht rest hrest => extract_int_token sp hsp t ht rest hrest 0)
    extract_int_end fuel last (hp last (by simp)) hb.2.2.1 ps
    (fun L hL => hp L (by simp [hL])) hb.2.1 (Image.mk_sized w h, 0) fuel hb.2.2.2.2
  have hinit : (⟨false, false, 0, 0⟩ : size_header) = size_header.of_values [] := rfl
  unfold read_pbm_ascii
  rw [read_magic_cons]
  simp only [beq_self_eq_true, Bool.and_self, Bool.not_true, Bool.false_eq_true, if_false]
  rw [hinit, hH]
  simp only [List.nil_append, hv, size_header.of_values]
  rw [hP]
  cases run_tokens (pbm_pixel_body w h) (Image.mk_sized w h, 0)
      (List.map num_token.int_value (lines_tokens (ps ++ [last]))) <;> rfl
theorem token_loop_mono {α σ : Type} (extract : IStream → IStream × α)
    (body : σ → α → Except PnmError σ) :
    ∀ (fuel : Nat) (iss : IStream) (st : σ) (r : Except PnmError σ),
      token_loop extract body fuel iss st = some r →
      ∀ fuel1, fuel ≤ fuel1 → token_loop extract body fuel1 iss st = some r := by
  intro fuel
  induction fuel with
  | zero => intro iss st r h; simp [token_loop] at h
  | succ f ih =>
    intro iss st r h fuel1 hf
    obtain ⟨f1, rfl⟩ : ∃ f1, fuel1 = f1 + 1 := ⟨fuel1 - 1, by omega⟩
    have hf1 : f ≤ f1 := by omega
    unfold token_loop at h ⊢
    by_cases he : iss.eof = true
    · simpa [he] using h
    · simp only [he, Bool.false_eq_true, if_false] at h ⊢
      rcases hx : extract iss with ⟨iss1, v⟩
      rw [hx] at h
      simp only at h ⊢
      by_cases hfl : iss1.fail = true
      · simp only [hfl, if_true] at h ⊢
        rcases hd : iss1.extract_string [] with ⟨iss2, dummy⟩
        rw [hd] at h
        simp only at h ⊢
        by_cases hall : (!dummy.all isspace) = true
        · simpa [hall] using h
        · simp only [hall, Bool.false_eq_true, if_false] at h ⊢
          exact ih iss2 st r h f1 hf1
      · simp only [hfl, Bool.false_eq_true, if_false] at h ⊢
        cases hb : body st v with
        | error e => simpa [hb] using h
        | ok st1 =>
          rw [hb] at h
          simp only at h ⊢
          exact ih iss1 st1 r h f1 hf1

theorem line_loop_mono {α σ : Type} (extract : IStream → IStream × α)
    (body : σ → α → Except PnmError σ) (done : σ → Bool) (tokfuel tokfuel1 : Nat)
    (ht : tokfuel ≤ tokfuel1) :
    ∀ (fuel : Nat) (ifs : IStream) (st : σ) (r : Except PnmError (IStream × σ)),
      line_loop extract body done tokfuel fuel ifs st = some r →
      ∀ fuel1, fuel ≤ fuel1 → line_loop extract body done tokfuel1 fuel1 ifs st = some r := by
  intro fuel
  induction fuel with
  | zero => intro ifs st r h; simp [line_loop] at h
  | succ f ih =>
    intro ifs st r h fuel1 hf
    obtain ⟨f1, rfl⟩ : ∃ f1, fuel1 = f1 + 1 := ⟨fuel1 - 1, by omega⟩
    have hf1 : f ≤ f1 := by omega
    unfold line_loop at h ⊢
    by_cases he : ifs.eof = true
    · simpa [he] using h
    · simp only [he, Bool.false_eq_true, if_false] at h ⊢
      rcases hg : ifs.getline with ⟨ifs1, line⟩
      rw [hg] at h
      simp only at h ⊢
      by_cases hem : (erase_comment line).isEmpty = true
      · simp only [hem, if_true] at h ⊢
        exact ih ifs1 st r h f1 hf1
      · simp only [hem, Bool.false_eq_true, if_false] at h ⊢
        cases htl : token_loop extract body tokfuel (IStream.ofBytes (erase_comment line)) st with
        | none => rw [htl] at h; simp at h
        | some t =>
          rw [htl] at h
          rw [token_loop_mono extract body tokfuel _ st t htl tokfuel1 ht]
          cases t with
          | error e => simpa using h
          | ok st1 =>
            simp only at h ⊢
            by_cases hd : done st1 = true
            · simpa [hd] using h
            · simp only [hd, Bool.false_eq_true, if_false] at h ⊢
              exact ih ifs1 st1 r h f1 hf1

/-- A result of `read_pbm_ascii` stays the same under a larger loop budget. -/
theorem read_pbm_ascii_mono (fuel fuel1 : Nat) (hf : fuel ≤ fuel1) (file : List Nat)
    (r : Except PnmError (Image bit_pixel)) (h : read_pbm_ascii fuel file = some r) :
    read_pbm_ascii fuel1 file = some r := by
  unfold read_pbm_ascii at h ⊢
  rcases hm : read_magic file with ⟨ifs, d0, d1⟩
  rw [hm] at h
  simp only at h ⊢
  by_cases hmg : (!(d0 == 80 && d1 == 49)) = true
  · simpa [hmg] using h
  · simp only [hmg, Bool.false_eq_true, if_false] at h ⊢
    cases hh : line_loop (fun s => s.extract_size_t 0)
        (fun h tmp => .ok (size_header.assign h tmp)) (fun h => h.x_read && h.y_read) fuel fuel
        ifs ⟨false, false, 0, 0⟩ with
    | none => rw [hh] at h; simp at h
    | some t =>
      rw [hh] at h
      rw [line_loop_mono _ _ _ fuel fuel1 hf fuel ifs _ t hh fuel1 hf]
      rcases t with e | ⟨ifs1, hd⟩
      · simpa using h
      · simp only at h ⊢
        cases hp : line_loop (fun s => s.extract_int 0) (pbm_pixel_body hd.x hd.y)
            (fun _ => false) fuel fuel ifs1 (Image.mk_sized hd.x hd.y, 0) with
        | none => rw [hp] at h; simp at h
        | some u =>
          rw [hp] at h
          rw [line_loop_mono _ _ _ fuel fuel1 hf fuel ifs1 _ u hp fuel1 hf]
          exact h

/-- A result of `read_pgm_ascii` stays the same under a larger loop budget. -/
theorem read_pgm_ascii_mono (fuel fuel1 : Nat) (hf : fuel ≤ fuel1) (file : List Nat)
    (r : Except PnmError (Image gray_pixel)) (h : read_pgm_ascii fuel file = some r) :
    read_pgm_ascii fuel1 file = some r := by
  unfold read_pgm_ascii at h ⊢
  rcases hm : read_magic file with ⟨ifs, d0, d1⟩
  rw [hm] at h
  simp only at h ⊢
  by_cases hmg : (!(d0 == 80 && d1 == 50)) = true
  · simpa [hmg] using h
  · simp only [hmg, Bool.false_eq_true, if_false] at h ⊢
    cases hh : line_loop (fun s => s.extract_size_t 0)
        (fun h tmp => .ok (header.assign h tmp))
        (fun h => h.x_read && h.y_read && h.max_read) fuel fuel
        ifs ⟨false, false, false, 0, 0, 0⟩ with
    | none => rw [hh] at h; simp at h
    | some t =>
      rw [hh] at h
      rw [line_loop_mono _ _ _ fuel fuel1 hf fuel ifs _ t hh fuel1 hf]
      rcases t with e | ⟨ifs1, hd⟩
      · simpa using h
      · simp only at h ⊢
        cases hp : line_loop (fun s => s.extract_size_t 0)
            (pgm_pixel_body (get_gain hd.max) hd.x hd.y)
            (fun _ => false) fuel fuel ifs1 (Image.mk_sized hd.x hd.y, 0) with
        | none => rw [hp] at h; simp at h
        | some u =>
          rw [hp] at h
          rw [line_loop_mono _ _ _ fuel fuel1 hf fuel ifs1 _ u hp fuel1 hf]
          exact h

/-- A result of `read_ppm_ascii` stays the same under a larger loop budget. -/
theorem read_ppm_ascii_mono (fuel fuel1 : Nat) (hf : fuel ≤ fuel1) (file : List Nat)
    (r : Except PnmError (Image rgb_pixel)) (h : read_ppm_ascii fuel file = some r) :
    read_ppm_ascii fuel1 file = some r := by
  unfold read_ppm_ascii at h ⊢
  rcases hm : read_magic file with ⟨ifs, d0, d1⟩
  rw [hm] at h
  simp only at h ⊢
  by_cases hmg : (!(d0 == 80 && d1 == 51)) = true
  · simpa [hmg] using h
  · simp only [hmg, Bool.false_eq_true, if_false] at h ⊢
    cases hh : line_loop (fun s => s.extract_size_t 0)
        (fun h tmp => .ok (header.assign h tmp))
        (fun h => h.x_read && h.y_read && h.max_read) fuel fuel
        ifs ⟨false, false, false, 0, 0, 0⟩ with
    | none => rw [hh] at h; simp at h
    | some t =>
      rw [hh] at h
      rw [line_loop_mono _ _ _ fuel fuel1 hf fuel ifs _ t hh fuel1 hf]
      rcases t with e | ⟨ifs1, hd⟩
      · simpa using h
      · simp only at h ⊢
        cases hp : line_loop (fun s => s.extract_size_t 0)
            (ppm_pixel_body (get_gain hd.max) hd.x hd.y)
            (fun _ => false) fuel fuel ifs1
            ⟨Image.mk_sized hd.x hd.y, 0, false, false, false, ⟨0, 0, 0⟩⟩ with
        | none => rw [hp] at h; simp at h
        | some u =>
          rw [hp] at h
          rw [line_loop_mono _ _ _ fuel fuel1 hf fuel ifs1 _ u hp fuel1 hf]
          exact h
/-! ## The pixel loop bodies on too many and too few samples -/

/-- The pixel loop body of `read_pbm_ascii` on at most `w * h` samples. -/
theorem run_pbm_under (w h : Nat) (hwh : w * h < 2 ^ 64) (vals : List Int)
    (hk : vals.length ≤ w * h) :
    run_tokens (pbm_pixel_body w h) (Image.mk_sized w h, 0) vals =
      .ok (⟨w, h, vals.map (fun pix => ⟨pix != 0⟩) ++
        List.replicate (w * h - vals.length) default⟩, vals.length) := by
  have h0 := run_pbm_pixels w h vals [] (w * h - vals.length)
    (by rw [Nat.mod_eq_of_lt hwh]; simp; omega)
  have e : vals.length + (w * h - vals.length) = w * h := by omega
  simp only [List.nil_append, List.length_nil, Nat.zero_add, e] at h0
  rw [← h0, Image.mk_sized, Nat.mod_eq_of_lt hwh]

/-- The pixel loop body of `read_pbm_ascii` on more than `w * h` samples. -/
theorem run_pbm_over (w h : Nat) (hwh : w * h < 2 ^ 64) (vals : List Int)
    (hk : w * h < vals.length) :
    run_tokens (pbm_pixel_body w h) (Image.mk_sized w h, 0) vals =
      .error (.too_many_pixels (w * h) w h) := by
  have hsplit : vals = vals.take (w * h) ++ vals.drop (w * h) := (List.take_append_drop _ _).symm
  have hl : (vals.take (w * h)).length = w * h := by
    rw [List.length_take]; omega
  rw [hsplit, run_tokens_append, run_pbm_under w h hwh _ (by omega)]
  simp only [hl]
  cases hd : vals.drop (w * h) with
  | nil =>
    have := congrArg List.length hd
    simp at this
    omega
  | cons v rest =>
    have hm : w * h % 18446744073709551616 = w * h := Nat.mod_eq_of_lt (by simpa using hwh)
    simp [run_tokens, pbm_pixel_body, hm]

/-- A well-formed text has at most as many tokens as bytes. -/
theorem lines_tokens_le_bytes (good : num_token → Prop) (hgw : ∀ t, good t → t.wf)
    (tail : List Nat) : ∀ (ls : List text_line), (∀ L ∈ ls, L.wf good) →
      (lines_tokens ls).length + tail.length ≤ (lines_bytes ls tail).length := by
  intro ls
  induction ls with
  | nil => intro _; simp [lines_tokens, lines_bytes]
  | cons M ls ih =>
    intro hwf
    have h1 := ih (fun L hL => hwf L (by simp [hL]))
    have h2 := text_line.items_le_text good hgw M (hwf M (by simp))
    rw [lines_bytes_cons, lines_tokens_cons]
    simp only [List.length_append, List.length_cons, text_line.tokens, List.length_map]
    omega

/-! ## Comments (C21) -/

theorem results_related_refl {σ : Type} (r : Option (Except PnmError (IStream × σ))) :
    results_related r r := by
  rcases r with _ | ⟨e | ⟨s, st⟩⟩
  · trivial
  · rfl
  · exact ⟨Or.inl rfl, rfl⟩

/-- A comment appended to a line does not change what is left after the
comment is erased. -/
theorem erase_comment_append (pre text : List Nat) :
    erase_comment (pre ++ 35 :: text) = erase_comment pre := by
  unfold erase_comment
  induction pre with
  | nil => simp [List.takeWhile]
  | cons c l ih =>
    by_cases hc : c = 35
    · subst hc; simp [List.takeWhile]
    · simp [List.takeWhile, hc, ih]

/-- One turn of the line loop on two streams whose next lines agree once the
comment is erased. -/
theorem line_loop_related_step {α σ : Type} (extract : IStream → IStream × α)
    (body : σ → α → Except PnmError σ) (done : σ → Bool) (tokfuel f : Nat)
    (s1 s2 t1 t2 : IStream) (l1 l2 : List Nat) (st : σ)
    (he1 : s1.eofbit = false) (he2 : s2.eofbit = false)
    (hg1 : s1.getline = (t1, l1)) (hg2 : s2.getline = (t2, l2))
    (hl : erase_comment l1 = erase_comment l2) (hrel : t1.comment_related t2)
    (ih : ∀ (u1 u2 : IStream) (st : σ), u1.comment_related u2 →
      results_related (line_loop extract body done tokfuel f u1 st)
        (line_loop extract body done tokfuel f u2 st)) :
    results_related (line_loop extract body done tokfuel (f + 1) s1 st)
      (line_loop extract body done tokfuel (f + 1) s2 st) := by
  unfold line_loop
  simp only [IStream.eof, he1, he2, Bool.false_eq_true, if_false, hg1, hg2, hl]
  by_cases hem : (erase_comment l2).isEmpty = true
  · simp only [hem, if_true]
    exact ih t1 t2 st hrel
  · simp only [hem, Bool.false_eq_true, if_false]
    rcases token_loop extract body tokfuel (IStream.ofBytes (erase_comment l2)) st with
      _ | ⟨e | st1⟩
    · trivial
    · rfl
    · simp only
      by_cases hd : done st1 = true
      · simp only [hd, if_true]
        exact ⟨hrel, rfl⟩
      · simp only [hd, Bool.false_eq_true, if_false]
        exact ih t1 t2 st1 hrel

/-- The line loop gives the same result on two streams that differ by one comment. -/
theorem line_loop_comment {α σ : Type} (extract : IStream → IStream × α)
    (body : σ → α → Except PnmError σ) (done : σ → Bool) (tokfuel : Nat) :
    ∀ (fuel : Nat) (s1 s2 : IStream) (st : σ), s1.comment_related s2 →
      results_related (line_loop extract body done tokfuel fuel s1 st)
        (line_loop extract body done tokfuel fuel s2 st) := by
  intro fuel
  induction fuel with
  | zero => intro s1 s2 st _; trivial
  | succ f ih =>
    intro s1 s2 st hrel
    rcases hrel with rfl | ⟨h1, h2⟩ | ⟨pre, text, tail, htext, htail, rfl, rfl⟩
    · exact results_related_refl _
    · simp only [line_loop, IStream.eof, h1, h2, if_true]
      exact ⟨Or.inr (Or.inl ⟨h1, h2⟩), rfl⟩
    · have htk : ∀ c ∈ pre.takeWhile (fun c => c != 10), (c != 10) = true :=
        fun c hc => @List.mem_takeWhile_imp _ (fun c => c != 10) pre c hc
      have hsplit := List.takeWhile_append_dropWhile (fun c => c != 10) pre
      cases hd : pre.dropWhile (fun c => c != 10) with
      | cons c pre1 =>
        have hc : c = 10 := by
          have := List.head_dropWhile_not (fun c => c != 10) pre (by rw [hd]; simp)
          simp only [hd, List.head_cons, bne_iff_ne, ne_eq, Bool.not_eq_true,
            bne_eq_false_iff_eq] at this
          simpa using this
        subst hc
        rw [hd] at hsplit
        have e1 : pre ++ 35 :: text ++ tail =
            pre.takeWhile (fun c => c != 10) ++ 10 :: (pre1 ++ 35 :: text ++ tail) := by
          conv_lhs => rw [← hsplit]
          simp [List.append_assoc]
        have e2 : pre ++ tail = pre.takeWhile (fun c => c != 10) ++ 10 :: (pre1 ++ tail) := by
          conv_lhs => rw [← hsplit]
          simp [List.append_assoc]
        rw [e1, e2]
        exact line_loop_related_step extract body done tokfuel f _ _ _ _ _ _ st rfl rfl
          (getline_line _ _ htk) (getline_line _ _ htk) rfl
          (Or.inr (Or.inr ⟨pre1, text, tail, htext, htail, rfl, rfl⟩)) ih
      | nil =>
        have hpre : ∀ c ∈ pre, (c != 10) = true := List.dropWhile_eq_nil_iff.1 hd
        have hpt : ∀ c ∈ pre ++ 35 :: text, (c != 10) = true := by
          intro c hc
          rcases List.mem_append.1 hc with h | h
          · exact hpre c h
          · rcases List.mem_cons.1 h with h | h
            · subst h; decide
            · simpa using htext c h
        rcases htail with rfl | ⟨post, rfl⟩
        · simp only [List.append_nil]
          exact line_loop_related_step extract body done tokfuel f _ _ _ _ _ _ st rfl rfl
            (getline_last _ hpt) (getline_last _ hpre) (erase_comment_append pre text)
            (Or.inr (Or.inl ⟨rfl, rfl⟩)) ih
        · exact line_loop_related_step extract body done tokfuel f _ _ _ _ _ _ st rfl rfl
            (getline_line _ _ hpt) (getline_line _ _ hpre) (erase_comment_append pre text)
            (Or.inl rfl) ih
/-- The function `read_pbm_ascii` gives the same result on two files that
differ by one comment after the magic code. -/
theorem read_pbm_ascii_comment (fuel a b : Nat) (X1 X2 : List Nat)
    (hrel : IStream.comment_related ⟨X1, false, false⟩ ⟨X2, false, false⟩) :
    read_pbm_ascii fuel (a :: b :: X1) = read_pbm_ascii fuel (a :: b :: X2) := by
  unfold read_pbm_ascii
  rw [read_magic_cons, read_magic_cons]
  simp only
  by_cases hm : (!(a == 80 && b == 49)) = true
  · simp only [hm, if_true]
  · simp only [hm, Bool.false_eq_true, if_false]
    have h1 := line_loop_comment (fun s => s.extract_size_t 0)
      (fun h tmp => .ok (size_header.assign h tmp)) (fun h => h.x_read && h.y_read) fuel fuel
      _ _ ⟨false, false, 0, 0⟩ hrel
    revert h1
    generalize line_loop (fun s => s.extract_size_t 0)
      (fun h tmp => .ok (size_header.assign h tmp)) (fun h => h.x_read && h.y_read) fuel fuel
      ⟨X1, false, false⟩ ⟨false, false, 0, 0⟩ = r1
    generalize line_loop (fun s => s.extract_size_t 0)
      (fun h tmp => .ok (size_header.assign h tmp)) (fun h => h.x_read && h.y_read) fuel fuel
      ⟨X2, false, false⟩ ⟨false, false, 0, 0⟩ = r2
    intro h1
    rcases r1 with _ | ⟨e1 | ⟨s1, hd1⟩⟩ <;> rcases r2 with _ | ⟨e2 | ⟨s2, hd2⟩⟩ <;>
      simp only [results_related] at h1
    · rfl
    · rw [h1]
    · obtain ⟨hs, rfl⟩ := h1
      simp only
      have h2 := line_loop_comment (fun s => s.extract_int 0) (pbm_pixel_body hd1.x hd1.y)
        (fun _ => false) fuel fuel s1 s2 (Image.mk_sized hd1.x hd1.y, 0) hs
      revert h2
      generalize line_loop (fun s => s.extract_int 0) (pbm_pixel_body hd1.x hd1.y)
        (fun _ => false) fuel fuel s1 (Image.mk_sized hd1.x hd1.y, 0) = q1
      generalize line_loop (fun s => s.extract_int 0) (pbm_pixel_body hd1.x hd1.y)
        (fun _ => false) fuel fuel s2 (Image.mk_sized hd1.x hd1.y, 0) = q2
      intro h2
      rcases q1 with _ | ⟨e1 | ⟨u1, st1⟩⟩ <;> rcases q2 with _ | ⟨e2 | ⟨u2, st2⟩⟩ <;>
        simp only [results_related] at h2
      · rfl
      · rw [h2]
      · rw [h2.2]

/-- The function `read_pgm_ascii` gives the same result on two files that
differ by one comment after the magic code. -/
theorem read_pgm_ascii_comment (fuel a b : Nat) (X1 X2 : List Nat)
    (hrel : IStream.comment_related ⟨X1, false, false⟩ ⟨X2, false, false⟩) :
    read_pgm_ascii fuel (a :: b :: X1) = read_pgm_ascii fuel (a :: b :: X2) := by
  unfold read_pgm_ascii
  rw [read_magic_cons, read_magic_cons]
  simp only
  by_cases hm : (!(a == 80 && b == 50)) = true
  · simp only [hm, if_true]
  · simp only [hm, Bool.false_eq_true, if_false]
    have h1 := line_loop_comment (fun s => s.extract_size_t 0)
      (fun h tmp => .ok (header.assign h tmp)) (fun h => h.x_read && h.y_read && h.max_read)
      fuel fuel _ _ ⟨false, false, false, 0, 0, 0⟩ hrel
    revert h1
    generalize line_loop (fun s => s.extract_size_t 0)
      (fun h tmp => .ok (header.assign h tmp)) (fun h => h.x_read && h.y_read && h.max_read)
      fuel fuel ⟨X1, false, false⟩ ⟨false, false, false, 0, 0, 0⟩ = r1
    generalize line_loop (fun s => s.extract_size_t 0)
      (fun h tmp => .ok (header.assign h tmp)) (fun h => h.x_read && h.y_read && h.max_read)
      fuel fuel ⟨X2, false, false⟩ ⟨false, false, false, 0, 0, 0⟩ = r2
    intro h1
    rcases r1 with _ | ⟨e1 | ⟨s1, hd1⟩⟩ <;> rcases r2 with _ | ⟨e2 | ⟨s2, hd2⟩⟩ <;>
      simp only [results_related] at h1
    · rfl
    · rw [h1]
    · obtain ⟨hs, rfl⟩ := h1
      simp only
      have h2 := line_loop_comment (fun s => s.extract_size_t 0)
        (pgm_pixel_body (get_gain hd1.max) hd1.x hd1.y)
        (fun _ => false) fuel fuel s1 s2 (Image.mk_sized hd1.x hd1.y, 0) hs
      revert h2
      generalize line_loop (fun s => s.extract_size_t 0)
        (pgm_pixel_body (get_gain hd1.max) hd1.x hd1.y)
        (fun _ => false) fuel fuel s1 (Image.mk_sized hd1.x hd1.y, 0) = q1
      generalize line_loop (fun s => s.extract_size_t 0)
        (pgm_pixel_body (get_gain hd1.max) hd1.x hd1.y)
        (fun _ => false) fuel fuel s2 (Image.mk_sized hd1.x hd1.y, 0) = q2
      intro h2
      rcases q1 with _ | ⟨e1 | ⟨u1, st1⟩⟩ <;> rcases q2 with _ | ⟨e2 | ⟨u2, st2⟩⟩ <;>
        simp only [results_related] at h2
      · rfl
      · rw [h2]
      · rw [h2.2]

/-- The function `read_ppm_ascii` gives the same result on two files that
differ by one comment after the magic code. -/
theorem read_ppm_ascii_comment (fuel a b : Nat) (X1 X2 : List Nat)
    (hrel : IStream.comment_related ⟨X1, false, false⟩ ⟨X2, false, false⟩) :
    read_ppm_ascii fuel (a :: b :: X1) = read_ppm_ascii fuel (a :: b :: X2) := by
  unfold read_ppm_ascii
  rw [read_magic_cons, read_magic_cons]
  simp only
  by_cases hm : (!(a == 80 && b == 51)) = true
  · simp only [hm, if_true]
  · simp only [hm, Bool.false_eq_true, if_false]
    have h1 := line_loop_comment (fun s => s.extract_size_t 0)
      (fun h tmp => .ok (header.assign h tmp)) (fun h => h.x_read && h.y_read && h.max_read)
      fuel fuel _ _ ⟨false, false, false, 0, 0, 0⟩ hrel
    revert h1
    generalize line_loop (fun s => s.extract_size_t 0)
      (fun h tmp => .ok (header.assign h tmp)) (fun h => h.x_read && h.y_read && h.max_read)
      fuel fuel ⟨X1, false, false⟩ ⟨false, false, false, 0, 0, 0⟩ = r1
    generalize line_loop (fun s => s.extract_size_t 0)
      (fun h tmp => .ok (header.assign h tmp)) (fun h => h.x_read && h.y_read && h.max_read)
      fuel fuel ⟨X2, false, false⟩ ⟨false, false, false, 0, 0, 0⟩ = r2
    intro h1
    rcases r1 with _ | ⟨e1 | ⟨s1, hd1⟩⟩ <;> rcases r2 with _ | ⟨e2 | ⟨s2, hd2⟩⟩ <;>
      simp only [results_related] at h1
    · rfl
    · rw [h1]
    · obtain ⟨hs, rfl⟩ := h1
      simp only
      have h2 := line_loop_comment (fun s => s.extract_size_t 0)
        (ppm_pixel_body (get_gain hd1.max) hd1.x hd1.y)
        (fun _ => false) fuel fuel s1 s2
        ⟨Image.mk_sized hd1.x hd1.y, 0, false, false, false, ⟨0, 0, 0⟩⟩ hs
      revert h2
      generalize line_loop (fun s => s.extract_size_t 0)
        (ppm_pixel_body (get_gain hd1.max) hd1.x hd1.y)
        (fun _ => false) fuel fuel s1
        ⟨Image.mk_sized hd1.x hd1.y, 0, false, false, false, ⟨0, 0, 0⟩⟩ = q1
      generalize line_loop (fun s => s.extract_size_t 0)
        (ppm_pixel_body (get_gain hd1.max) hd1.x hd1.y)
        (fun _ => false) fuel fuel s2
        ⟨Image.mk_sized hd1.x hd1.y, 0, false, false, false, ⟨0, 0, 0⟩⟩ = q2
      intro h2
      rcases q1 with _ | ⟨e1 | ⟨u1, st1⟩⟩ <;> rcases q2 with _ | ⟨e2 | ⟨u2, st2⟩⟩ <;>
        simp only [results_related] at h2
      · rfl
      · rw [h2]
      · rw [h2.2]

set_option maxRecDepth 100000 in
/-- C21 (comment stripping in headers): for each ASCII decoder, every loop
budget and every file, inserting `#` followed by a text without newline at the
end of a line after the magic code (in front of the newline that ends the line,
or of the end of the file) leaves the decoded result unchanged.  In
particular, for every loop budget that is at least the length of the file,
the header lines `10 10 # comment` and `10 10` both yield width 10 and
height 10: the files `"P1\n10 10 # comment\n"` and `"P1\n10 10\n"` decode to the
same 10x10 image. -/
theorem header_comment_ignored (fuel a b : Nat) (pre text tail : List Nat)
    (htext : ∀ c ∈ text, c ≠ 10) (htail : tail = [] ∨ ∃ post, tail = 10 :: post) :
    read_pbm_ascii fuel (a :: b :: (pre ++ 35 :: text ++ tail)) =
      read_pbm_ascii fuel (a :: b :: (pre ++ tail)) ∧
    read_pgm_ascii fuel (a :: b :: (pre ++ 35 :: text ++ tail)) =
      read_pgm_ascii fuel (a :: b :: (pre ++ tail)) ∧
    read_ppm_ascii fuel (a :: b :: (pre ++ 35 :: text ++ tail)) =
      read_ppm_ascii fuel (a :: b :: (pre ++ tail)) ∧
    (19 ≤ fuel →
      read_pbm_ascii fuel [80, 49, 10, 49, 48, 32, 49, 48, 32, 35, 32, 99, 111, 109, 109, 101,
          110, 116, 10] = some (.ok (Image.mk_sized 10 10)) ∧
      read_pbm_ascii fuel [80, 49, 10, 49, 48, 32, 49, 48, 10] =
        some (.ok (Image.mk_sized 10 10))) := by
  have hrel : IStream.comment_related ⟨pre ++ 35 :: text ++ tail, false, false⟩
      ⟨pre ++ tail, false, false⟩ := Or.inr (Or.inr ⟨pre, text, tail, htext, htail, rfl, rfl⟩)
  refine ⟨read_pbm_ascii_comment fuel a b _ _ hrel, read_pgm_ascii_comment fuel a b _ _ hrel,
    read_ppm_ascii_comment fuel a b _ _ hrel, ?_⟩
  intro hf
  exact ⟨read_pbm_ascii_mono 19 fuel hf _ _ (by decide),
    read_pbm_ascii_mono 19 fuel hf _ _ (by decide)⟩

/-- Instance of C21: the file `"P1\n10 10 # comment\n"` against `"P1\n10 10 \n"`. -/
theorem header_comment_ignored_witness :
    (∀ c ∈ [32, 99, 111, 109, 109, 101, 110, 116], c ≠ 10) ∧
    read_pbm_ascii 19 (80 :: 49 :: ([10, 49, 48, 32, 49, 48, 32] ++
        35 :: [32, 99, 111, 109, 109, 101, 110, 116] ++ [10])) =
      read_pbm_ascii 19 (80 :: 49 :: ([10, 49, 48, 32, 49, 48, 32] ++ [10])) :=
  ⟨by decide,
   (header_comment_ignored 19 80 49 [10, 49, 48, 32, 49, 48, 32]
      [32, 99, 111, 109, 109, 101, 110, 116] [10] (by decide) (Or.inr ⟨[], rfl⟩)).1⟩
/-! ## Dimensions of a decoded image (C25) -/

theorem token_loop_inv {α σ : Type} (extract : IStream → IStream × α)
    (body : σ → α → Except PnmError σ) (Inv : σ → Prop)
    (hbody : ∀ st v st1, Inv st → body st v = .ok st1 → Inv st1) :
    ∀ (fuel : Nat) (iss : IStream) (st st1 : σ), Inv st →
      token_loop extract body fuel iss st = some (.ok st1) → Inv st1 := by
  intro fuel
  induction fuel with
  | zero => intro iss st st1 _ h; simp [token_loop] at h
  | succ f ih =>
    intro iss st st1 hi h
    unfold token_loop at h
    by_cases he : iss.eof = true
    · simp only [he, if_true, Option.some.injEq, Except.ok.injEq] at h
      rw [← h]; exact hi
    · simp only [he, Bool.false_eq_true, if_false] at h
      rcases hx : extract iss with ⟨iss1, v⟩
      rw [hx] at h
      simp only at h
      by_cases hfl : iss1.fail = true
      · simp only [hfl, if_true] at h
        rcases hd : iss1.extract_string [] with ⟨iss2, dummy⟩
        rw [hd] at h
        simp only at h
        by_cases hall : (!dummy.all isspace) = true
        · simp [hall] at h
        · simp only [hall, Bool.false_eq_true, if_false] at h
          exact ih iss2 st st1 hi h
      · simp only [hfl, Bool.false_eq_true, if_false] at h
        cases hb : body st v with
        | error e => rw [hb] at h; simp at h
        | ok st2 =>
          rw [hb] at h
          simp only at h
          exact ih iss1 st2 st1 (hbody st v st2 hi hb) h

theorem line_loop_inv {α σ : Type} (extract : IStream → IStream × α)
    (body : σ → α → Except PnmError σ) (done : σ → Bool) (tokfuel : Nat) (Inv : σ → Prop)
    (hbody : ∀ st v st1, Inv st → body st v = .ok st1 → Inv st1) :
    ∀ (fuel : Nat) (ifs : IStream) (st : σ) (ifs1 : IStream) (st1 : σ), Inv st →
      line_loop extract body done tokfuel fuel ifs st = some (.ok (ifs1, st1)) → Inv st1 := by
  intro fuel
  induction fuel with
  | zero => intro ifs st ifs1 st1 _ h; simp [line_loop] at h
  | succ f ih =>
    intro ifs st ifs1 st1 hi h
    unfold line_loop at h
    by_cases he : ifs.eof = true
    · simp only [he, if_true, Option.some.injEq, Except.ok.injEq, Prod.mk.injEq] at h
      rw [← h.2]; exact hi
    · simp only [he, Bool.false_eq_true, if_false] at h
      rcases hg : ifs.getline with ⟨ifs2, line⟩
      rw [hg] at h
      simp only at h
      by_cases hem : (erase_comment line).isEmpty = true
      · simp only [hem, if_true] at h
        exact ih ifs2 st ifs1 st1 hi h
      · simp only [hem, Bool.false_eq_true, if_false] at h
        cases htl : token_loop extract body tokfuel (IStream.ofBytes (erase_comment line)) st with
        | none => rw [htl] at h; simp at h
        | some t =>
          rw [htl] at h
          cases t with
          | error e => simp at h
          | ok st2 =>
            have hi2 := token_loop_inv extract body Inv hbody tokfuel _ st st2 hi htl
            simp only at h
            by_cases hd : done st2 = true
            · simp only [hd, if_true, Option.some.injEq, Except.ok.injEq, Prod.mk.injEq] at h
              rw [← h.2]; exact hi2
            · simp only [hd, Bool.false_eq_true, if_false] at h
              exact ih ifs2 st2 ifs1 st1 hi2 h

theorem for_loop_inv {σ : Type} (body : Nat → σ → Except PnmError σ) (Inv : σ → Prop)
    (hbody : ∀ i st st1, Inv st → body i st = .ok st1 → Inv st1) :
    ∀ (n i : Nat) (st st1 : σ), Inv st → for_loop body n i st = .ok st1 → Inv st1 := by
  intro n
  induction n with
  | zero =>
    intro i st st1 hi h
    simp only [for_loop, Except.ok.injEq] at h
    rw [← h]; exact hi
  | succ k ih =>
    intro i st st1 hi h
    unfold for_loop at h
    cases hb : body i st with
    | error e => rw [hb] at h; simp at h
    | ok st2 =>
      rw [hb] at h
      exact ih (i + 1) st2 st1 (hbody i st st2 hi hb) h

/-- A store keeps the dimensions and the length of the buffer. -/
theorem Image.raw_store_shape {P : Type} (img img1 : Image P) (i : Nat) (p : P)
    (h : img.raw_store i p = .ok img1) :
    img1.nx = img.nx ∧ img1.ny = img.ny ∧ img1.pixels.length = img.pixels.length := by
  unfold Image.raw_store at h
  split at h
  · simp only [Except.ok.injEq] at h
    rw [← h]
    simp
  · simp at h

theorem Image.store_shape {P : Type} (img img1 : Image P) (ix iy : Nat) (p : P)
    (h : img.store ix iy p = .ok img1) :
    img1.nx = img.nx ∧ img1.ny = img.ny ∧ img1.pixels.length = img.pixels.length :=
  Image.raw_store_shape img img1 _ p h

theorem Except_bind_ok {ε α β : Type} (m : Except ε α) (f : α → Except ε β) (b : β)
    (h : (m >>= f) = .ok b) : ∃ a, m = .ok a ∧ f a = .ok b := by
  cases m with
  | error e => simp [bind, Except.bind] at h
  | ok a => exact ⟨a, rfl, h⟩

theorem Image.store_if_shape {P : Type} (img img1 : Image P) (c : Prop) [Decidable c]
    (ix iy : Nat) (p : P)
    (h : (if c then img.store ix iy p else pure img) = .ok img1) :
    img1.nx = img.nx ∧ img1.ny = img.ny ∧ img1.pixels.length = img.pixels.length := by
  split at h
  · exact Image.store_shape img img1 ix iy p h
  · simp only [pure, Except.pure, Except.ok.injEq] at h
    rw [← h]
    exact ⟨rfl, rfl, rfl⟩
theorem mk_sized_shape {P : Type} [Inhabited P] (x y : Nat) :
    (Image.mk_sized x y : Image P).nx = x ∧ (Image.mk_sized x y : Image P).ny = y ∧
    (Image.mk_sized x y : Image P).pixels.length = (x * y) % 2 ^ 64 := by
  simp [Image.mk_sized]

theorem pbm_pixel_body_shape (x y a b n : Nat) (st : Image bit_pixel × Nat) (pix : Int)
    (st1 : Image bit_pixel × Nat)
    (hi : st.1.nx = a ∧ st.1.ny = b ∧ st.1.pixels.length = n)
    (h : pbm_pixel_body x y st pix = .ok st1) :
    st1.1.nx = a ∧ st1.1.ny = b ∧ st1.1.pixels.length = n := by
  unfold pbm_pixel_body at h
  split at h
  · simp at h
  · cases hs : st.1.raw_store st.2 ⟨pix != 0⟩ with
    | error e => rw [hs] at h; simp at h
    | ok img =>
      rw [hs] at h
      simp only [Except.ok.injEq] at h
      have := Image.raw_store_shape _ _ _ _ hs
      rw [← h]
      simp only
      rw [this.1, this.2.1, this.2.2]
      exact hi

theorem pgm_pixel_body_shape (g : gain) (x y a b n : Nat) (st : Image gray_pixel × Nat)
    (pix : Nat) (st1 : Image gray_pixel × Nat)
    (hi : st.1.nx = a ∧ st.1.ny = b ∧ st.1.pixels.length = n)
    (h : pgm_pixel_body g x y st pix = .ok st1) :
    st1.1.nx = a ∧ st1.1.ny = b ∧ st1.1.pixels.length = n := by
  unfold pgm_pixel_body at h
  split at h
  · simp at h
  · cases hs : st.1.raw_store st.2 ⟨g.invoke pix⟩ with
    | error e => rw [hs] at h; simp at h
    | ok img =>
      rw [hs] at h
      simp only [Except.ok.injEq] at h
      have := Image.raw_store_shape _ _ _ _ hs
      rw [← h]
      simp only
      rw [this.1, this.2.1, this.2.2]
      exact hi

theorem ppm_pixel_body_shape (g : gain) (x y a b n : Nat) (st : ppm_state) (pix : Nat)
    (st1 : ppm_state) (hi : st.img.nx = a ∧ st.img.ny = b ∧ st.img.pixels.length = n)
    (h : ppm_pixel_body g x y st pix = .ok st1) :
    st1.img.nx = a ∧ st1.img.ny = b ∧ st1.img.pixels.length = n := by
  unfold ppm_pixel_body at h
  split at h
  · simp only [Except.ok.injEq] at h
    rw [← h]; exact hi
  · split at h
    · simp only [Except.ok.injEq] at h
      rw [← h]; exact hi
    · simp only at h
      split at h
      · simp at h
      · split at h
        · simp at h
        · rename_i img hs
          simp only [Except.ok.injEq] at h
          have := Image.raw_store_shape _ _ _ _ hs
          rw [← h]
          simp only
          rw [this.1, this.2.1, this.2.2]
          exact hi

theorem read_pgm_binary_pixel_shape (g : gain) (a b n i : Nat) (st st1 : Image gray_pixel × IStream)
    (hi : st.1.nx = a ∧ st.1.ny = b ∧ st.1.pixels.length = n)
    (h : read_pgm_binary_pixel g i st = .ok st1) :
    st1.1.nx = a ∧ st1.1.ny = b ∧ st1.1.pixels.length = n := by
  unfold read_pgm_binary_pixel at h
  simp only at h
  split at h
  · simp at h
  · rename_i img hs
    simp only [Except.ok.injEq] at h
    have := Image.raw_store_shape _ _ _ _ hs
    rw [← h]
    simp only
    rw [this.1, this.2.1, this.2.2]
    exact hi

theorem read_ppm_binary_pixel_shape (g : gain) (a b n i : Nat) (st st1 : Image rgb_pixel × IStream)
    (hi : st.1.nx = a ∧ st.1.ny = b ∧ st.1.pixels.length = n)
    (h : read_ppm_binary_pixel g i st = .ok st1) :
    st1.1.nx = a ∧ st1.1.ny = b ∧ st1.1.pixels.length = n := by
  unfold read_ppm_binary_pixel at h
  simp only at h
  split at h
  · simp at h
  · rename_i img hs
    simp only [Except.ok.injEq] at h
    have := Image.raw_store_shape _ _ _ _ hs
    rw [← h]
    simp only
    rw [this.1, this.2.1, this.2.2]
    exact hi

theorem read_pbm_binary_full_byte_shape (a b n j i : Nat) (st st1 : Image bit_pixel × IStream)
    (hi : st.1.nx = a ∧ st.1.ny = b ∧ st.1.pixels.length = n)
    (h : read_pbm_binary_full_byte j i st = .ok st1) :
    st1.1.nx = a ∧ st1.1.ny = b ∧ st1.1.pixels.length = n := by
  unfold read_pbm_binary_full_byte at h
  simp only at h
  obtain ⟨i0, h0, h⟩ := Except_bind_ok _ _ _ h
  obtain ⟨i1, h1, h⟩ := Except_bind_ok _ _ _ h
  obtain ⟨i2, h2, h⟩ := Except_bind_ok _ _ _ h
  obtain ⟨i3, h3, h⟩ := Except_bind_ok _ _ _ h
  obtain ⟨i4, h4, h⟩ := Except_bind_ok _ _ _ h
  obtain ⟨i5, h5, h⟩ := Except_bind_ok _ _ _ h
  obtain ⟨i6, h6, h⟩ := Except_bind_ok _ _ _ h
  obtain ⟨i7, h7, h⟩ := Except_bind_ok _ _ _ h
  have s0 := Image.store_shape _ _ _ _ _ h0
  have s1 := Image.store_shape _ _ _ _ _ h1
  have s2 := Image.store_shape _ _ _ _ _ h2
  have s3 := Image.store_shape _ _ _ _ _ h3
  have s4 := Image.store_shape _ _ _ _ _ h4
  have s5 := Image.store_shape _ _ _ _ _ h5
  have s6 := Image.store_shape _ _ _ _ _ h6
  have s7 := Image.store_shape _ _ _ _ _ h7
  simp only [pure, Except.pure, Except.ok.injEq] at h
  rw [← h]
  simp only
  refine ⟨?_, ?_, ?_⟩
  · rw [s7.1, s6.1, s5.1, s4.1, s3.1, s2.1, s1.1, s0.1]; exact hi.1
  · rw [s7.2.1, s6.2.1, s5.2.1, s4.2.1, s3.2.1, s2.2.1, s1.2.1, s0.2.1]; exact hi.2.1
  · rw [s7.2.2, s6.2.2, s5.2.2, s4.2.2, s3.2.2, s2.2.2, s1.2.2, s0.2.2]; exact hi.2.2

theorem shape_ite (a b n : Nat) (c : Prop) [Decidable c]
    (A B : Except PnmError (Image bit_pixel × IStream))
    (hA : ∀ r, A = .ok r → r.1.nx = a ∧ r.1.ny = b ∧ r.1.pixels.length = n)
    (hB : ∀ r, B = .ok r → r.1.nx = a ∧ r.1.ny = b ∧ r.1.pixels.length = n) :
    ∀ r, (if c then A else B) = .ok r → r.1.nx = a ∧ r.1.ny = b ∧ r.1.pixels.length = n := by
  intro r h
  split at h
  · exact hA r h
  · exact hB r h

theorem shape_bind_store (a b n : Nat) (img : Image bit_pixel) (ix iy : Nat) (p : bit_pixel)
    (f : Image bit_pixel → Except PnmError (Image bit_pixel × IStream))
    (hi : img.nx = a ∧ img.ny = b ∧ img.pixels.length = n)
    (hf : ∀ y : Image bit_pixel, (y.nx = a ∧ y.ny = b ∧ y.pixels.length = n) →
      ∀ r, f y = .ok r → r.1.nx = a ∧ r.1.ny = b ∧ r.1.pixels.length = n) :
    ∀ r, (img.store ix iy p >>= f) = .ok r →
      r.1.nx = a ∧ r.1.ny = b ∧ r.1.pixels.length = n := by
  intro r h
  obtain ⟨y, h1, h2⟩ := Except_bind_ok _ _ _ h
  have s := Image.store_shape _ _ _ _ _ h1
  exact hf y ⟨by rw [s.1]; exact hi.1, by rw [s.2.1]; exact hi.2.1,
    by rw [s.2.2]; exact hi.2.2⟩ r h2

theorem shape_bind_pure (a b n : Nat) (img : Image bit_pixel)
    (f : Image bit_pixel → Except PnmError (Image bit_pixel × IStream))
    (hi : img.nx = a ∧ img.ny = b ∧ img.pixels.length = n)
    (hf : ∀ y : Image bit_pixel, (y.nx = a ∧ y.ny = b ∧ y.pixels.length = n) →
      ∀ r, f y = .ok r → r.1.nx = a ∧ r.1.ny = b ∧ r.1.pixels.length = n) :
    ∀ r, (pure img >>= f) = .ok r → r.1.nx = a ∧ r.1.ny = b ∧ r.1.pixels.length = n := by
  intro r h
  exact hf img hi r h

theorem shape_pure (a b n : Nat) (img : Image bit_pixel) (s : IStream)
    (hi : img.nx = a ∧ img.ny = b ∧ img.pixels.length = n) :
    ∀ r, (pure (img, s) : Except PnmError (Image bit_pixel × IStream)) = .ok r →
      r.1.nx = a ∧ r.1.ny = b ∧ r.1.pixels.length = n := by
  intro r h
  simp only [pure, Except.pure, Except.ok.injEq] at h
  rw [← h]
  exact hi

theorem read_pbm_binary_last_byte_shape (a b n quot rem j : Nat)
    (st st1 : Image bit_pixel × IStream)
    (hi : st.1.nx = a ∧ st.1.ny = b ∧ st.1.pixels.length = n)
    (h : read_pbm_binary_last_byte quot rem j st = .ok st1) :
    st1.1.nx = a ∧ st1.1.ny = b ∧ st1.1.pixels.length = n := by
  unfold read_pbm_binary_last_byte at h
  simp only at h
  revert st1
  repeat' first
    | assumption
    | apply shape_ite
    | apply shape_bind_store
    | apply shape_bind_pure
    | apply shape_pure
    | intro y hy

theorem read_pbm_binary_row_shape (a b n quot rem j : Nat)
    (st st1 : Image bit_pixel × IStream)
    (hi : st.1.nx = a ∧ st.1.ny = b ∧ st.1.pixels.length = n)
    (h : read_pbm_binary_row quot rem j st = .ok st1) :
    st1.1.nx = a ∧ st1.1.ny = b ∧ st1.1.pixels.length = n := by
  unfold read_pbm_binary_row at h
  cases hf : for_loop (read_pbm_binary_full_byte j) quot 0 st with
  | error e => rw [hf] at h; simp at h
  | ok st2 =>
    rw [hf] at h
    simp only at h
    have h2 := for_loop_inv (read_pbm_binary_full_byte j)
      (fun s => s.1.nx = a ∧ s.1.ny = b ∧ s.1.pixels.length = n)
      (fun i s s1 hs hb => read_pbm_binary_full_byte_shape a b n j i s s1 hs hb) quot 0 st st2
      hi hf
    exact read_pbm_binary_last_byte_shape a b n quot rem j st2 st1 h2 h
theorem shape_has_dimensions {P : Type} (img : Image P) (x y : Nat)
    (h : img.nx = x ∧ img.ny = y ∧ img.pixels.length = (x * y) % 2 ^ 64) :
    img.has_dimensions x y := h

/-- C25 (decoded image has the declared dimensions), where the claim fails:
the file `"P5\n4294967296 4294967296\n255\n"` declares the width and the height
`2^32`; `read_pgm_binary` succeeds and returns an image of that width and
height whose buffer has no pixel, because the `size_t` product wraps to 0. -/
theorem decoded_size_wraps :
    read_pgm_binary [80, 53, 10, 52, 50, 57, 52, 57, 54, 55, 50, 57, 54, 32,
        52, 50, 57, 52, 57, 54, 55, 50, 57, 54, 10, 50, 53, 53, 10] =
      .ok ⟨4294967296, 4294967296, []⟩ ∧
    Image.size (⟨4294967296, 4294967296, []⟩ : Image gray_pixel) ≠
      Image.width (⟨4294967296, 4294967296, []⟩ : Image gray_pixel) *
        Image.height (⟨4294967296, 4294967296, []⟩ : Image gray_pixel) := by
  decide

/-- C25 (decoded image has the declared dimensions), amended: for each of the
six decoders and every input on which it succeeds, the width and the height
of the returned image are the width and the height read from the header (by
the header loop of the ASCII decoders, from the size line of the binary
decoders), and the length of its pixel buffer is their product modulo `2^64`,
hence exactly `width * height` whenever that product is below `2^64`. -/
theorem decoded_image_dimensions :
    (∀ (fuel : Nat) (file : List Nat) (img : Image bit_pixel),
      read_pbm_ascii fuel file = some (.ok img) →
      ∃ ifs1 hd, line_loop (fun s => s.extract_size_t 0)
          (fun h tmp => .ok (size_header.assign h tmp)) (fun h => h.x_read && h.y_read)
          fuel fuel (read_magic file).1 ⟨false, false, 0, 0⟩ = some (.ok (ifs1, hd)) ∧
        img.has_dimensions hd.x hd.y) ∧
    (∀ (fuel : Nat) (file : List Nat) (img : Image gray_pixel),
      read_pgm_ascii fuel file = some (.ok img) →
      ∃ ifs1 hd, line_loop (fun s => s.extract_size_t 0)
          (fun h tmp => .ok (header.assign h tmp))
          (fun h => h.x_read && h.y_read && h.max_read)
          fuel fuel (read_magic file).1 ⟨false, false, false, 0, 0, 0⟩ =
            some (.ok (ifs1, hd)) ∧
        img.has_dimensions hd.x hd.y) ∧
    (∀ (fuel : Nat) (file : List Nat) (img : Image rgb_pixel),
      read_ppm_ascii fuel file = some (.ok img) →
      ∃ ifs1 hd, line_loop (fun s => s.extract_size_t 0)
          (fun h tmp => .ok (header.assign h tmp))
          (fun h => h.x_read && h.y_read && h.max_read)
          fuel fuel (read_magic file).1 ⟨false, false, false, 0, 0, 0⟩ =
            some (.ok (ifs1, hd)) ∧
        img.has_dimensions hd.x hd.y) ∧
    (∀ (file : List Nat) (img : Image bit_pixel), read_pbm_binary file = .ok img →
      img.has_dimensions (read_size_line (IStream.ofBytes file).getline.1).2.2.2.1
        (read_size_line (IStream.ofBytes file).getline.1).2.2.2.2) ∧
    (∀ (file : List Nat) (img : Image gray_pixel), read_pgm_binary file = .ok img →
      img.has_dimensions (read_size_line (IStream.ofBytes file).getline.1).2.2.2.1
        (read_size_line (IStream.ofBytes file).getline.1).2.2.2.2) ∧
    (∀ (file : List Nat) (img : Image rgb_pixel), read_ppm_binary file = .ok img →
      img.has_dimensions (read_size_line (IStream.ofBytes file).getline.1).2.2.2.1
        (read_size_line (IStream.ofBytes file).getline.1).2.2.2.2) ∧
    (∀ (P : Type) (img : Image P) (w h : Nat), img.has_dimensions w h → w * h < 2 ^ 64 →
      img.size = img.width * img.height) := by
  refine ⟨?_, ?_, ?_, ?_, ?_, ?_, ?_⟩
  · intro fuel file img h
    unfold read_pbm_ascii at h
    simp only at h
    split at h
    · simp at h
    · split at h
      · simp at h
      · simp at h
      · rename_i ifs1 hd hh
        refine ⟨ifs1, hd, hh, ?_⟩
        split at h
        · simp at h
        · simp at h
        · rename_i ifs2 st hp
          simp only [Option.some.injEq, Except.ok.injEq] at h
          rw [← h]
          exact shape_has_dimensions _ _ _ (line_loop_inv _ _ _ _
            (fun s : Image bit_pixel × Nat =>
              s.1.nx = hd.x ∧ s.1.ny = hd.y ∧ s.1.pixels.length = (hd.x * hd.y) % 2 ^ 64)
            (fun s v s1 hs hb => pbm_pixel_body_shape hd.x hd.y _ _ _ s v s1 hs hb)
            fuel ifs1 _ ifs2 st (mk_sized_shape hd.x hd.y) hp)
  · intro fuel file img h
    unfold read_pgm_ascii at h
    simp only at h
    split at h
    · simp at h
    · split at h
      · simp at h
      · simp at h
      · rename_i ifs1 hd hh
        refine ⟨ifs1, hd, hh, ?_⟩
        split at h
        · simp at h
        · simp at h
        · rename_i ifs2 st hp
          simp only [Option.some.injEq, Except.ok.injEq] at h
          rw [← h]
          exact shape_has_dimensions _ _ _ (line_loop_inv _ _ _ _
            (fun s : Image gray_pixel × Nat =>
              s.1.nx = hd.x ∧ s.1.ny = hd.y ∧ s.1.pixels.length = (hd.x * hd.y) % 2 ^ 64)
            (fun s v s1 hs hb => pgm_pixel_body_shape _ hd.x hd.y _ _ _ s v s1 hs hb)
            fuel ifs1 _ ifs2 st (mk_sized_shape hd.x hd.y) hp)
  · intro fuel file img h
    unfold read_ppm_ascii at h
    simp only at h
    split at h
    · simp at h
    · split at h
      · simp at h
      · simp at h
      · rename_i ifs1 hd hh
        refine ⟨ifs1, hd, hh, ?_⟩
        split at h
        · simp at h
        · simp at h
        · rename_i ifs2 st hp
          simp only [Option.some.injEq, Except.ok.injEq] at h
          rw [← h]
          exact shape_has_dimensions _ _ _ (line_loop_inv _ _ _ _
            (fun s : ppm_state =>
              s.img.nx = hd.x ∧ s.img.ny = hd.y ∧
                s.img.pixels.length = (hd.x * hd.y) % 2 ^ 64)
            (fun s v s1 hs hb => ppm_pixel_body_shape _ hd.x hd.y _ _ _ s v s1 hs hb)
            fuel ifs1 _ ifs2 st (mk_sized_shape hd.x hd.y) hp)
  · intro file img h
    unfold read_pbm_binary at h
    split at h
    · simp at h
    · rename_i st hs
      simp only [Except.ok.injEq] at h
      unfold read_pbm_binary_stream at hs
      simp only at hs
      split at hs
      · simp at hs
      · split at hs
        · simp at hs
        · rw [← h]
          exact shape_has_dimensions _ _ _ (for_loop_inv _
            (fun s : Image bit_pixel × IStream =>
              s.1.nx = _ ∧ s.1.ny = _ ∧ s.1.pixels.length = _)
            (fun i s s1 hi hb => read_pbm_binary_row_shape _ _ _ _ _ i s s1 hi hb)
            _ 0 _ st (mk_sized_shape _ _) hs)
  · intro file img h
    unfold read_pgm_binary at h
    split at h
    · simp at h
    · rename_i st hs
      simp only [Except.ok.injEq] at h
      unfold read_pgm_binary_stream at hs
      simp only at hs
      split at hs
      · simp at hs
      · split at hs
        · simp at hs
        · split at hs
          · simp at hs
          · rw [← h]
            exact shape_has_dimensions _ _ _ (for_loop_inv _
              (fun s : Image gray_pixel × IStream =>
                s.1.nx = _ ∧ s.1.ny = _ ∧ s.1.pixels.length = _)
              (fun i s s1 hi hb => read_pgm_binary_pixel_shape _ _ _ _ i s s1 hi hb)
              _ 0 _ st (mk_sized_shape _ _) hs)
  · intro file img h
    unfold read_ppm_binary at h
    split at h
    · simp at h
    · rename_i st hs
      simp only [Except.ok.injEq] at h
      unfold read_ppm_binary_stream at hs
      simp only at hs
      split at hs
      · simp at hs
      · split at hs
        · simp at hs
        · split at hs
          · simp at hs
          · rw [← h]
            exact shape_has_dimensions _ _ _ (for_loop_inv _
              (fun s : Image rgb_pixel × IStream =>
                s.1.nx = _ ∧ s.1.ny = _ ∧ s.1.pixels.length = _)
              (fun i s s1 hi hb => read_ppm_binary_pixel_shape _ _ _ _ i s s1 hi hb)
              _ 0 _ st (mk_sized_shape _ _) hs)
  · intro P img w h hd hwh
    obtain ⟨h1, h2, h3⟩ := hd
    rw [h3, h1, h2, Nat.mod_eq_of_lt hwh]

/-- Instance of the amended C25: the file `"P5\n2 1\n255\n"` followed by the
bytes 7 and 9, given to `read_pgm_binary`. -/
theorem decoded_image_dimensions_witness :
    read_pgm_binary [80, 53, 10, 50, 32, 49, 10, 50, 53, 53, 10, 7, 9] =
      .ok ⟨2, 1, [⟨7⟩, ⟨9⟩]⟩ ∧
    Image.has_dimensions (⟨2, 1, [⟨7⟩, ⟨9⟩]⟩ : Image gray_pixel) 2 1 :=
  ⟨by decide,
   decoded_image_dimensions.2.2.2.2.1 [80, 53, 10, 50, 32, 49, 10, 50, 53, 53, 10, 7, 9]
     ⟨2, 1, [⟨7⟩, ⟨9⟩]⟩ (by decide)⟩

/-! ## The ASCII decoders on a whole plain-format file -/

/-- The header stage when the data ends with the line `Lh`, without a
newline: the loop stops after `Lh`, at the end of the data. -/
theorem line_loop_header_last {α σ : Type} (extract : IStream → IStream × α)
    (body : σ → α → Except PnmError σ) (value : num_token → α) (good : num_token → Prop)
    (done : σ → Bool) (hgw : ∀ t, good t → t.wf)
    (hext : ∀ sp, (∀ c ∈ sp, isspace c = true) → ∀ t, good t → ∀ rest,
        (∀ c, rest.head? = some c → isspace c = true) →
        extract ⟨sp ++ t.text ++ rest, false, false⟩ = (⟨rest, rest.isEmpty, false⟩, value t))
    (hend : ∀ sp, (∀ c ∈ sp, isspace c = true) →
        (extract ⟨sp, false, false⟩).1 = ⟨[], true, true⟩)
    (of : List α → σ) (n : Nat)
    (hassign : ∀ pre v, body (of pre) v = .ok (of (pre ++ [v])))
    (hdone : ∀ pre, done (of pre) = decide (n ≤ pre.length))
    (tokfuel : Nat) (Lh : text_line) (hLh : Lh.wf good)
    (hlf : Lh.items.length + 2 ≤ tokfuel) (hs : List text_line) :
    (∀ L ∈ hs, L.wf good) → (∀ L ∈ hs, L.items.length + 2 ≤ tokfuel) →
    ∀ (pre : List α) (fuel : Nat), pre.length + (lines_tokens hs).length < n →
      n ≤ pre.length + (lines_tokens (hs ++ [Lh])).length → hs.length + 1 ≤ fuel →
      line_loop extract body done tokfuel fuel
          ⟨lines_bytes hs Lh.text, false, false⟩ (of pre) =
        some (.ok (⟨[], true, Lh.text.isEmpty⟩,
          of (pre ++ (lines_tokens (hs ++ [Lh])).map value))) := by
  induction hs with
  | nil =>
    intro _ _ pre fuel h1 h2 hf
    obtain ⟨f, rfl⟩ : ∃ f, fuel = f + 1 := ⟨fuel - 1, by simp at hf; omega⟩
    have hg := getline_last Lh.text (text_line.text_no_newline good hgw Lh hLh)
    have he := text_line.erase_comment_text good hgw Lh hLh
    have htk : lines_tokens ([] ++ [Lh]) = Lh.tokens := by simp [lines_tokens]
    have hb : lines_bytes [] Lh.text = Lh.text := by simp [lines_bytes]
    rw [htk] at h2 ⊢
    rw [hb]
    have hne : Lh.tokens ≠ [] := by
      intro h0
      rw [h0] at h2
      simp [lines_tokens] at h1 h2
      omega
    have hce := text_line.content_of_tokens good hgw Lh hLh hne
    have ht := token_loop_line extract body value good hext hend Lh hLh tokfuel hlf (of pre)
    rw [run_tokens_of body of hassign] at ht
    have hd : done (of (pre ++ Lh.tokens.map value)) = true := by
      rw [hdone]
      simp only [List.length_append, List.length_map, decide_eq_true_eq]
      exact h2
    simp [line_loop, IStream.eof, hg, he, hce, ht, hd]
  | cons L hs ih =>
    intro hwf hlen pre fuel h1 h2 hf
    obtain ⟨f, rfl⟩ : ∃ f, fuel = f + 1 := ⟨fuel - 1, by simp at hf; omega⟩
    have hL := hwf L (by simp)
    have hg := getline_line L.text (lines_bytes hs Lh.text)
      (text_line.text_no_newline good hgw L hL)
    have he := text_line.erase_comment_text good hgw L hL
    have htk : lines_tokens (L :: hs ++ [Lh]) = L.tokens ++ lines_tokens (hs ++ [Lh]) := by
      rw [List.cons_append, lines_tokens_cons]
    rw [lines_tokens_cons, List.length_append] at h1
    rw [htk, List.length_append] at h2
    rw [lines_bytes_cons, htk]
    by_cases hce : L.content.isEmpty = true
    · have h0 := text_line.tokens_of_empty good hgw L hL hce
      rw [h0] at h1 h2 ⊢
      rw [line_loop_skip _ _ _ _ f _ _ _ _ rfl hg (by rw [he]; exact hce)]
      exact ih (fun M hM => hwf M (by simp [hM])) (fun M hM => hlen M (by simp [hM])) pre f
        (by simpa using h1) (by simpa using h2) (by simp at hf ⊢; omega)
    · have ht := token_loop_line extract body value good hext hend L hL tokfuel
        (hlen L (by simp)) (of pre)
      rw [run_tokens_of body of hassign] at ht
      have hd : done (of (pre ++ L.tokens.map value)) = false := by
        rw [hdone]
        simp only [List.length_append, List.length_map, decide_eq_false_iff_not, not_le]
        omega
      have : line_loop extract body done tokfuel (f + 1)
          ⟨L.text ++ 10 :: lines_bytes hs Lh.text, false, false⟩ (of pre) =
          line_loop extract body done tokfuel f
            ⟨lines_bytes hs Lh.text, false, false⟩ (of (pre ++ L.tokens.map value)) := by
        simp [line_loop, IStream.eof, hg, he, hce, ht, hd]
      rw [this, ih (fun M hM => hwf M (by simp [hM])) (fun M hM => hlen M (by simp [hM]))
        (pre ++ L.tokens.map value) f (by simp; omega) (by simp; omega)
        (by simp at hf ⊢; omega)]
      simp [List.append_assoc]

/-- The loop budgets that a header ending the file needs are covered by its
length. -/
theorem header_budget (good : num_token → Prop) (hgw : ∀ t, good t → t.wf)
    (hs : List text_line) (Lh : text_line) (hh : ∀ L ∈ hs ++ [Lh], L.wf good) (fuel : Nat)
    (hf : (lines_bytes hs Lh.text).length + 2 ≤ fuel) :
    (∀ L ∈ hs ++ [Lh], L.items.length + 2 ≤ fuel) ∧ hs.length + 2 ≤ fuel := by
  have h1 := lines_bytes_length Lh.text hs
  refine ⟨?_, by omega⟩
  intro L hL
  have h2 := text_line.items_le_text good hgw L (hh L hL)
  rcases List.mem_append.1 hL with h | h
  · have := h1.2 L h
    omega
  · simp only [List.mem_singleton] at h
    subst h
    omega

/-- The function `read_pbm_ascii` on a plain-format file: the header lines
`hs` hold fewer than two numbers, the line `Lh` brings them to the width `w`,
the height `h` and possibly `extra` numbers; the pixel samples are the tokens
of the lines after `Lh`. -/
theorem read_pbm_ascii_file (hs : List text_line) (Lh : text_line)
    (rest : Option (List text_line × text_line))
    (hh : ∀ L ∈ hs ++ [Lh], L.wf num_token.fits_size)
    (hp : ∀ L ∈ pixel_lines rest, L.wf num_token.fits_int) (w h : Nat) (extra : List Nat)
    (hlt : (lines_tokens hs).length < 2)
    (hv : (lines_tokens (hs ++ [Lh])).map num_token.size_value = w :: h :: extra)
    (fuel : Nat) (hf : (plain_file 49 hs Lh rest).length ≤ fuel) :
    read_pbm_ascii fuel (plain_file 49 hs Lh rest) =
      some (match run_tokens (pbm_pixel_body w h) (Image.mk_sized w h, 0)
          ((lines_tokens (pixel_lines rest)).map num_token.int_value) with
        | .error e => .error e
        | .ok st => .ok st.1) := by
  rcases rest with _ | ⟨ps, last⟩
  · have hf1 : (lines_bytes hs Lh.text).length + 2 ≤ fuel := by
      simpa [plain_file] using hf
    have hb := header_budget num_token.fits_size (fun t ht => ht.1) hs Lh hh fuel hf1
    have hlen : 2 ≤ (lines_tokens (hs ++ [Lh])).length := by
      have := congrArg List.length hv
      simp only [List.length_map, List.length_cons] at this
      omega
    have hH := line_loop_header_last (fun s => s.extract_size_t 0)
      (fun h tmp => .ok (size_header.assign h tmp)) num_token.size_value num_token.fits_size
      (fun h => h.x_read && h.y_read) (fun t ht => ht.1)
      (fun sp hsp t ht rest hrest => extract_size_t_token sp hsp t ht rest hrest 0)
      extract_size_t_end size_header.of_values 2
      (fun pre v => congrArg Except.ok (size_header_assign_of_values pre v))
      size_header_done_of_values fuel Lh (hh Lh (by simp)) (hb.1 Lh (by simp))
      hs (fun L hL => hh L (by simp [hL]))
      (fun L hL => hb.1 L (by simp [hL])) [] fuel (by simpa using hlt) (by simpa using hlen)
      (by have := hb.2; omega)
    have hinit : (⟨false, false, 0, 0⟩ : size_header) = size_header.of_values [] := rfl
    obtain ⟨f, rfl⟩ : ∃ f, fuel = f + 1 := ⟨fuel - 1, by omega⟩
    unfold read_pbm_ascii plain_file
    rw [read_magic_cons]
    simp only [beq_self_eq_true, Bool.and_self, Bool.not_true, Bool.false_eq_true, if_false]
    rw [hinit, hH]
    simp only [List.nil_append, hv, size_header.of_values]
    rw [line_loop_at_eof _ _ _ _ _ _ _ rfl]
    rfl
  · exact read_pbm_ascii_text hs Lh ps last hh hp w h extra hlt hv fuel
      (by simpa [plain_file] using hf)

/-- The lines after the header have fewer tokens than the file has bytes. -/
theorem plain_file_tokens_lt (good : num_token → Prop) (hgw : ∀ t, good t → t.wf) (k : Nat)
    (hs : List text_line) (Lh : text_line) (rest : Option (List text_line × text_line))
    (hp : ∀ L ∈ pixel_lines rest, L.wf good) :
    (lines_tokens (pixel_lines rest)).length < (plain_file k hs Lh rest).length := by
  rcases rest with _ | ⟨ps, last⟩
  · simp [pixel_lines, lines_tokens, plain_file]
  · have h1 := lines_tokens_le_bytes good hgw last.text ps (fun L hL => hp L (by simp [pixel_lines, hL]))
    have h2 := text_line.items_le_text good hgw last (hp last (by simp [pixel_lines]))
    have h3 := (lines_bytes_length (lines_bytes ps last.text) (hs ++ [Lh])).1
    have h4 : (lines_tokens (ps ++ [last])).length =
        (lines_tokens ps).length + last.items.length := by
      simp [lines_tokens, text_line.tokens]
    simp only [pixel_lines, plain_file, List.length_cons]
    rw [h4]
    omega
/-! ## PBM ASCII: too many pixels (C22) -/

/-- C22 (PBM ASCII overflow detection): for every plain-format file with the
magic code `P1`, shorter than `2^64` bytes, whose header lines declare the
width `w` and the height `h` and whose following lines hold more than `w * h`
integer tokens, `read_pbm_ascii` returns no image: it fails with the
too-many-pixels error that reports the index `w * h` and the dimensions `w`
and `h` (for every loop budget that is at least the length of the file). -/
theorem pbm_ascii_too_many_pixels (hs : List text_line) (Lh : text_line)
    (rest : Option (List text_line × text_line))
    (hh : ∀ L ∈ hs ++ [Lh], L.wf num_token.fits_size)
    (hp : ∀ L ∈ pixel_lines rest, L.wf num_token.fits_int) (w h : Nat) (extra : List Nat)
    (hlt : (lines_tokens hs).length < 2)
    (hv : (lines_tokens (hs ++ [Lh])).map num_token.size_value = w :: h :: extra)
    (hsize : (plain_file 49 hs Lh rest).length < 2 ^ 64)
    (hmany : w * h < (lines_tokens (pixel_lines rest)).length)
    (fuel : Nat) (hf : (plain_file 49 hs Lh rest).length ≤ fuel) :
    read_pbm_ascii fuel (plain_file 49 hs Lh rest) =
      some (.error (.too_many_pixels (w * h) w h)) := by
  have hlen := plain_file_tokens_lt num_token.fits_int (fun t ht => ht.1) 49 hs Lh rest hp
  have hwh : w * h < 2 ^ 64 := by omega
  rw [read_pbm_ascii_file hs Lh rest hh hp w h extra hlt hv fuel hf,
    run_pbm_over w h hwh _ (by simpa using hmany)]

/-- Instance of C22: the file `"P1\n2 2\n1 1 1 1 1\n"`, a 2x2 header followed
by five samples; the reported index is 4. -/
theorem pbm_ascii_too_many_pixels_witness :
    plain_file 49 [⟨[], [], none⟩] ⟨[], [(⟨[], [50]⟩, [32]), (⟨[], [50]⟩, [])], none⟩
        (some ([⟨[], [(⟨[], [49]⟩, [32]), (⟨[], [49]⟩, [32]), (⟨[], [49]⟩, [32]),
          (⟨[], [49]⟩, [32]), (⟨[], [49]⟩, [])], none⟩], ⟨[], [], none⟩)) =
      [80, 49, 10, 50, 32, 50, 10, 49, 32, 49, 32, 49, 32, 49, 32, 49, 10] ∧
    read_pbm_ascii 17
        (plain_file 49 [⟨[], [], none⟩] ⟨[], [(⟨[], [50]⟩, [32]), (⟨[], [50]⟩, [])], none⟩
          (some ([⟨[], [(⟨[], [49]⟩, [32]), (⟨[], [49]⟩, [32]), (⟨[], [49]⟩, [32]),
            (⟨[], [49]⟩, [32]), (⟨[], [49]⟩, [])], none⟩], ⟨[], [], none⟩))) =
      some (.error (.too_many_pixels (2 * 2) 2 2)) :=
  ⟨by decide,
   pbm_ascii_too_many_pixels [⟨[], [], none⟩]
     ⟨[], [(⟨[], [50]⟩, [32]), (⟨[], [50]⟩, [])], none⟩
     (some ([⟨[], [(⟨[], [49]⟩, [32]), (⟨[], [49]⟩, [32]), (⟨[], [49]⟩, [32]),
       (⟨[], [49]⟩, [32]), (⟨[], [49]⟩, [])], none⟩], ⟨[], [], none⟩))
     (by decide) (by decide) 2 2 [] (by decide) (by decide) (by decide) (by decide) 17
     (by decide)⟩

/-! ## Row copy of unequal widths, row iteration, iterator assignment (C31, C32, C36) -/

/-- C31 (row view copy of unequal widths): for every two images of widths
`n1 ≠ n2` and all rows `a`, `b`, the assignment `img[a] = other[b]` throws the
range error that carries the two widths, and the destination image is
unchanged; the same holds for any two row views of unequal widths. -/
theorem row_view_copy_unequal_widths {P : Type} [Inhabited P] (img other : Image P) (a b : Nat)
    (h : img.width ≠ other.width) :
    img.assign_row_from a other b = (img, some (.width_differs img.width other.width)) ∧
    (img.line a).width = img.width ∧ (other.line b).width = other.width ∧
    ∀ (dst src : line_proxy) (cdst csrc : List P), dst.width ≠ src.width →
      dst.assign_from src cdst csrc = (cdst, some (.width_differs dst.width src.width)) := by
  have key : ∀ (dst src : line_proxy) (cdst csrc : List P), dst.width ≠ src.width →
      dst.assign_from src cdst csrc = (cdst, some (.width_differs dst.width src.width)) := by
    intro dst src cdst csrc hne
    unfold line_proxy.width at hne
    have hb : (dst.nx_ != src.nx_) = true := by simpa using hne
    simp only [line_proxy.assign_from, hb, if_true, line_proxy.width]
  refine ⟨?_, rfl, rfl, key⟩
  unfold Image.assign_row_from
  rw [key (img.line a) (other.line b) img.pixels other.pixels h]
  rfl

/-- Instance of C31: row 0 of a 3x1 image assigned onto row 1 of a 2x2 image. -/
theorem row_view_copy_unequal_widths_witness :
    Image.width (⟨2, 2, [⟨1⟩, ⟨2⟩, ⟨3⟩, ⟨4⟩]⟩ : Image gray_pixel) ≠
      Image.width (⟨3, 1, [⟨5⟩, ⟨6⟩, ⟨7⟩]⟩ : Image gray_pixel) ∧
    Image.assign_row_from (⟨2, 2, [⟨1⟩, ⟨2⟩, ⟨3⟩, ⟨4⟩]⟩ : Image gray_pixel) 1
        (⟨3, 1, [⟨5⟩, ⟨6⟩, ⟨7⟩]⟩ : Image gray_pixel) 0 =
      (⟨2, 2, [⟨1⟩, ⟨2⟩, ⟨3⟩, ⟨4⟩]⟩, some (.width_differs 2 3)) ∧
    Image.assign_row_from (⟨2, 2, [⟨1⟩, ⟨2⟩, ⟨3⟩, ⟨4⟩]⟩ : Image gray_pixel) 1
        (⟨2, 1, [⟨5⟩, ⟨6⟩]⟩ : Image gray_pixel) 0 =
      (⟨2, 2, [⟨1⟩, ⟨2⟩, ⟨5⟩, ⟨6⟩]⟩, none) :=
  ⟨by decide,
   (row_view_copy_unequal_widths (⟨2, 2, [⟨1⟩, ⟨2⟩, ⟨3⟩, ⟨4⟩]⟩ : Image gray_pixel)
      (⟨3, 1, [⟨5⟩, ⟨6⟩, ⟨7⟩]⟩ : Image gray_pixel) 1 0 (by decide)).1,
   by decide⟩

/-- The iterator reached from `line_begin()` by `k` increments. -/
theorem iterate_incr_line_begin {P : Type} (img : Image P) (k : Nat) :
    Nat.iterate line_proxy_iterator.incr k img.line_begin =
      ⟨img.nx, img.ny, ⟨img.nx, k % 2 ^ 64, (img.nx * k) % 2 ^ 64⟩⟩ := by
  induction k with
  | zero => rfl
  | succ n ih =>
    rw [Function.iterate_succ_apply', ih]
    simp only [line_proxy_iterator.incr, line_proxy_iterator.mk.injEq, line_proxy.mk.injEq,
      true_and]
    refine ⟨by omega, ?_⟩
    rw [Nat.mul_succ]
    omega

/-- The iterator `line_begin() += k`. -/
theorem advance_line_begin {P : Type} (img : Image P) (k : Nat) :
    img.line_begin.advance (k : Int) =
      ⟨img.nx, img.ny, ⟨img.nx, k % 2 ^ 64, (img.nx * k) % 2 ^ 64⟩⟩ := by
  have h1 : wrap_size_t ((0 : Nat) + (k : Int)) = k % 2 ^ 64 := by
    unfold wrap_size_t
    omega
  have h2 : wrap_size_t ((((img.nx * 0) % 2 ^ 64 : Nat) : Int) + (img.nx : Int) * (k : Int)) =
      (img.nx * k) % 2 ^ 64 := by
    unfold wrap_size_t
    have : ((img.nx : Int) * (k : Int)) = ((img.nx * k : Nat) : Int) := by push_cast; rfl
    rw [this]
    simp only [Nat.mul_zero, Nat.zero_mod]
    omega
  simp only [line_proxy_iterator.advance, Image.line_begin, line_proxy_iterator.make,
    line_proxy.make, h1, h2]

/-- C32 (row iteration): for every image (its height being a `size_t`),
stepping from `line_begin()` with `++` gives an iterator equal to `line_end()`
after `height` steps and after no smaller number of steps; for every
`k < height` the iterator after `k` steps, and the iterator `line_begin() += k`,
dereference to the row view `img[k]`, whose `y_position()` is `k` and whose
element `i` is the pixel `img(i, k)`. -/
theorem row_iteration {P : Type} [Inhabited P] (img : Image P) (hh : img.height < 2 ^ 64) :
    (Nat.iterate line_proxy_iterator.incr img.height img.line_begin).eq img.line_end = true ∧
    (∀ k, k < img.height →
      (Nat.iterate line_proxy_iterator.incr k img.line_begin).eq img.line_end = false) ∧
    (∀ k, k < img.height →
      (Nat.iterate line_proxy_iterator.incr k img.line_begin).deref = img.line k ∧
      (img.line_begin.advance (k : Int)).deref = img.line k ∧
      (img.line k).y_position = k ∧
      ∀ i, (img.line k).get img.pixels i = img.get i k) := by
  unfold Image.height at hh ⊢
  refine ⟨?_, ?_, ?_⟩
  · rw [iterate_incr_line_begin]
    rw [Nat.mod_eq_of_lt hh]
    simp [line_proxy_iterator.eq, line_proxy.eq, Image.line_end, line_proxy_iterator.make,
      line_proxy.make, Image.height]
  · intro k hk
    rw [iterate_incr_line_begin]
    have hk2 : k % 2 ^ 64 = k := Nat.mod_eq_of_lt (by omega)
    have hne : k ≠ img.ny := by omega
    rw [hk2]
    simp [line_proxy_iterator.eq, line_proxy.eq, Image.line_end, line_proxy_iterator.make,
      line_proxy.make, hne]
  · intro k hk
    have hk2 : k % 2 ^ 64 = k := Nat.mod_eq_of_lt (by omega)
    refine ⟨?_, ?_, rfl, ?_⟩
    · rw [iterate_incr_line_begin, hk2]
      rfl
    · rw [advance_line_begin, hk2]
      rfl
    · intro i
      unfold line_proxy.get Image.get Image.raw_access
      rw [line_index_eq_offset]

/-- Instance of C32: a 2x3 image; after three steps the iterator equals
`line_end()`, after one step it views row 1. -/
theorem row_iteration_witness :
    Image.height (⟨2, 3, [⟨1⟩, ⟨2⟩, ⟨3⟩, ⟨4⟩, ⟨5⟩, ⟨6⟩]⟩ : Image gray_pixel) < 2 ^ 64 ∧
    (Nat.iterate line_proxy_iterator.incr
        (Image.height (⟨2, 3, [⟨1⟩, ⟨2⟩, ⟨3⟩, ⟨4⟩, ⟨5⟩, ⟨6⟩]⟩ : Image gray_pixel))
        (Image.line_begin (⟨2, 3, [⟨1⟩, ⟨2⟩, ⟨3⟩, ⟨4⟩, ⟨5⟩, ⟨6⟩]⟩ : Image gray_pixel))).eq
      (Image.line_end (⟨2, 3, [⟨1⟩, ⟨2⟩, ⟨3⟩, ⟨4⟩, ⟨5⟩, ⟨6⟩]⟩ : Image gray_pixel)) = true ∧
    (Nat.iterate line_proxy_iterator.incr 1
        (Image.line_begin (⟨2, 3, [⟨1⟩, ⟨2⟩, ⟨3⟩, ⟨4⟩, ⟨5⟩, ⟨6⟩]⟩ : Image gray_pixel))).deref =
      ⟨2, 1, 2⟩ :=
  ⟨by decide,
   (row_iteration (⟨2, 3, [⟨1⟩, ⟨2⟩, ⟨3⟩, ⟨4⟩, ⟨5⟩, ⟨6⟩]⟩ : Image gray_pixel) (by decide)).1,
   by decide⟩

/-- C36 (line iterator assignment preserves the addressed row), evaluated on
the 2x2 image with pixels `1 2 / 3 4`: with `a = line_begin()` (row 0) and
`b = ++line_begin()` (row 1), the assignment `a = b` leaves `a` with
`y_position` 1 and the start offset 0 of row 0, where `b` has the start
offset 2; element 0 of `*a` is the pixel `(0, 0)`, element 0 of `*b` is the
pixel `(0, 1)`. -/
theorem iterator_assignment_keeps_old_offset :
    (line_proxy_iterator.assign
        (Image.line_begin (⟨2, 2, [⟨1⟩, ⟨2⟩, ⟨3⟩, ⟨4⟩]⟩ : Image gray_pixel))
        (Image.line_begin (⟨2, 2, [⟨1⟩, ⟨2⟩, ⟨3⟩, ⟨4⟩]⟩ : Image gray_pixel)).incr).deref =
      ⟨2, 1, 0⟩ ∧
    (Image.line_begin (⟨2, 2, [⟨1⟩, ⟨2⟩, ⟨3⟩, ⟨4⟩]⟩ : Image gray_pixel)).incr.deref =
      ⟨2, 1, 2⟩ ∧
    line_proxy.get (line_proxy_iterator.assign
        (Image.line_begin (⟨2, 2, [⟨1⟩, ⟨2⟩, ⟨3⟩, ⟨4⟩]⟩ : Image gray_pixel))
        (Image.line_begin (⟨2, 2, [⟨1⟩, ⟨2⟩, ⟨3⟩, ⟨4⟩]⟩ : Image gray_pixel)).incr).deref
      [(⟨1⟩ : gray_pixel), ⟨2⟩, ⟨3⟩, ⟨4⟩] 0 = ⟨1⟩ ∧
    line_proxy.get (Image.line_begin (⟨2, 2, [⟨1⟩, ⟨2⟩, ⟨3⟩, ⟨4⟩]⟩ : Image gray_pixel)).incr.deref
      [(⟨1⟩ : gray_pixel), ⟨2⟩, ⟨3⟩, ⟨4⟩] 0 = ⟨3⟩ := by
  decide

/-! ## The declared maxima 256 and 0 (C34, C35) -/

theorem quotient_257 (v : Nat) (hv : v ≤ 255) : v * 256 / 257 = v - 1 := by
  rcases Nat.eq_zero_or_pos v with h0 | h0
  · subst h0; rfl
  · have e : v * 256 = (257 - v) + 257 * (v - 1) := by omega
    rw [e, Nat.add_mul_div_left _ _ (by norm_num), Nat.div_eq_of_lt (by omega)]
    omega

/-- The gain selected for the maximum 256 maps every sample up to 255 to its
predecessor, and 0 to 0. -/
theorem gain_256 (v : Nat) (hv : v ≤ 255) : (get_gain 256).invoke v = v - 1 := by
  rw [get_gain_reduce 256 (by norm_num)]
  show (Dbl.mul (Dbl.ofNat v) (reduce_ratio 256)).trunc % 256 = v - 1
  have e : (256 + 1 : Nat) = 257 := rfl
  have hq := quotient_257 v hv
  rcases reduce_scaled_floor 256 v (by norm_num) (by omega) with h | ⟨h1, h2⟩
  · rw [h, e, hq]
    omega
  · rw [e] at h1 h2
    rw [hq] at h2
    obtain ⟨c, hc⟩ := h1
    omega

/-- C34 (effect of the encoder's declared maximum 256): `get_gain 256` is the
narrowing strategy; it maps the sample 0 to 0 and every sample `v` in 1..255
to `v - 1`, which is `floor (v * 256 / 257)`; so for every well-formed
grayscale image with 8-bit values, reading back the file written by
`write_pgm_ascii` yields the same width and height and, for every pixel, 0
when it was 0 and the original value decremented by one otherwise. -/
theorem pgm_ascii_read_back_decrements :
    get_gain 256 = gain.reduce (reduce_ratio 256) ∧
    (get_gain 256).invoke 0 = 0 ∧
    (∀ v, 1 ≤ v → v ≤ 255 → (get_gain 256).invoke v = v - 1 ∧ v * 256 / 257 = v - 1) ∧
    (∀ (img : Image gray_pixel) (fuel : Nat), img.wf → (∀ p ∈ img.pixels, p.value < 256) →
      img.nx + img.ny + 3 ≤ fuel →
      read_pgm_ascii fuel (write_pgm_ascii img) =
        some (.ok ⟨img.nx, img.ny,
          img.pixels.map (fun p => if p.value = 0 then ⟨0⟩ else ⟨p.value - 1⟩)⟩)) := by
  refine ⟨get_gain_reduce 256 (by norm_num), gain_256 0 (by norm_num), ?_, ?_⟩
  · intro v h1 h2
    exact ⟨gain_256 v h2, quotient_257 v h2⟩
  · intro img fuel h hb hf
    rw [pgm_ascii_read_back img h hb fuel hf]
    congr 3
    apply List.map_congr_left
    intro p hp
    rw [gain_256 p.value (by have := hb p hp; omega)]
    by_cases h0 : p.value = 0
    · rw [if_pos h0, h0]
    · rw [if_neg h0]

/-- Instance of C34: the 2x1 image with values 0 and 200. -/
theorem pgm_ascii_read_back_decrements_witness :
    Image.wf (⟨2, 1, [⟨0⟩, ⟨200⟩]⟩ : Image gray_pixel) ∧
    read_pgm_ascii 6 (write_pgm_ascii ⟨2, 1, [⟨0⟩, ⟨200⟩]⟩) =
      some (.ok ⟨2, 1, [⟨0⟩, ⟨199⟩]⟩) :=
  ⟨by simp [Image.wf],
   pgm_ascii_read_back_decrements.2.2.2 ⟨2, 1, [⟨0⟩, ⟨200⟩]⟩ 6 (by simp [Image.wf])
     (by simp) (by simp)⟩

theorem gain_zero_invoke (s : Nat) : (get_gain 0).invoke s = 0 := by
  show (s * 256) % 2 ^ 64 % 256 = 0
  rw [Nat.mod_mod_of_dvd _ (by norm_num)]
  exact Nat.mul_mod_left s 256

/-- The pixels of an image after a store: the former ones and the stored one. -/
theorem Image.raw_store_mem {P : Type} (img img1 : Image P) (i : Nat) (p : P)
    (h : img.raw_store i p = .ok img1) : ∀ q ∈ img1.pixels, q ∈ img.pixels ∨ q = p := by
  unfold Image.raw_store at h
  split at h
  · simp only [Except.ok.injEq] at h
    rw [← h]
    intro q hq
    exact List.mem_or_eq_of_mem_set hq
  · simp at h

theorem mk_sized_default {P : Type} [Inhabited P] (x y : Nat) :
    ∀ p ∈ (Image.mk_sized x y : Image P).pixels, p = default := by
  intro p hp
  simp only [Image.mk_sized] at hp
  exact List.eq_of_mem_replicate hp

theorem pgm_pixel_body_zero (g : gain) (hg : ∀ s, g.invoke s = 0) (x y : Nat)
    (st : Image gray_pixel × Nat) (pix : Nat) (st1 : Image gray_pixel × Nat)
    (hi : ∀ p ∈ st.1.pixels, p = ⟨0⟩) (h : pgm_pixel_body g x y st pix = .ok st1) :
    ∀ p ∈ st1.1.pixels, p = ⟨0⟩ := by
  unfold pgm_pixel_body at h
  split at h
  · simp at h
  · cases hs : st.1.raw_store st.2 ⟨g.invoke pix⟩ with
    | error e => rw [hs] at h; simp at h
    | ok img =>
      rw [hs] at h
      simp only [Except.ok.injEq] at h
      rw [← h]
      intro p hp
      rcases Image.raw_store_mem _ _ _ _ hs p hp with h1 | h1
      · exact hi p h1
      · rw [h1, hg]

theorem ppm_pixel_body_zero (g : gain) (hg : ∀ s, g.invoke s = 0) (x y : Nat)
    (st : ppm_state) (pix : Nat) (st1 : ppm_state)
    (hi : (∀ p ∈ st.img.pixels, p = ⟨0, 0, 0⟩) ∧ st.pixel = ⟨0, 0, 0⟩)
    (h : ppm_pixel_body g x y st pix = .ok st1) :
    (∀ p ∈ st1.img.pixels, p = ⟨0, 0, 0⟩) ∧ st1.pixel = ⟨0, 0, 0⟩ := by
  have hp0 : st.pixel.red = 0 ∧ st.pixel.green = 0 ∧ st.pixel.blue = 0 := by
    rw [hi.2]; exact ⟨rfl, rfl, rfl⟩
  unfold ppm_pixel_body at h
  split at h
  · simp only [Except.ok.injEq] at h
    rw [← h]
    exact ⟨hi.1, by simp [hg, hp0.2.1, hp0.2.2]⟩
  · split at h
    · simp only [Except.ok.injEq] at h
      rw [← h]
      exact ⟨hi.1, by simp [hg, hp0.1, hp0.2.2]⟩
    · simp only at h
      have hpx : (if (!st.B_read) = true then
          (⟨st.pixel.red, st.pixel.green, g.invoke pix⟩ : rgb_pixel) else st.pixel) =
          ⟨0, 0, 0⟩ := by
        split
        · simp [hg, hp0.1, hp0.2.1]
        · exact hi.2
      rw [hpx] at h
      split at h
      · simp at h
      · split at h
        · simp at h
        · rename_i img hs
          simp only [Except.ok.injEq] at h
          rw [← h]
          refine ⟨?_, rfl⟩
          intro p hp
          rcases Image.raw_store_mem _ _ _ _ hs p hp with h1 | h1
          · exact hi.1 p h1
          · exact h1

theorem read_pgm_binary_pixel_zero (g : gain) (hg : ∀ s, g.invoke s = 0) (i : Nat)
    (st st1 : Image gray_pixel × IStream) (hi : ∀ p ∈ st.1.pixels, p = ⟨0⟩)
    (h : read_pgm_binary_pixel g i st = .ok st1) : ∀ p ∈ st1.1.pixels, p = ⟨0⟩ := by
  unfold read_pgm_binary_pixel at h
  simp only at h
  split at h
  · simp at h
  · rename_i img hs
    simp only [Except.ok.injEq] at h
    rw [← h]
    intro p hp
    rcases Image.raw_store_mem _ _ _ _ hs p hp with h1 | h1
    · exact hi p h1
    · rw [h1, hg]

theorem read_ppm_binary_pixel_zero (g : gain) (hg : ∀ s, g.invoke s = 0) (i : Nat)
    (st st1 : Image rgb_pixel × IStream) (hi : ∀ p ∈ st.1.pixels, p = ⟨0, 0, 0⟩)
    (h : read_ppm_binary_pixel g i st = .ok st1) : ∀ p ∈ st1.1.pixels, p = ⟨0, 0, 0⟩ := by
  unfold read_ppm_binary_pixel at h
  simp only at h
  split at h
  · simp at h
  · rename_i img hs
    simp only [Except.ok.injEq] at h
    rw [← h]
    intro p hp
    rcases Image.raw_store_mem _ _ _ _ hs p hp with h1 | h1
    · exact hi p h1
    · rw [h1, hg, hg, hg]

/-- C35 (gain with the declared maximum 0): `get_gain 0` is the widening
strategy with ratio 256, and it maps every sample to 0; so whenever one of
the four PGM / PPM decoders succeeds on a file whose declared maximum is 0
(the value `max` of the header loop of the ASCII decoders, of the maximum
line of the binary decoders), every pixel of the image is 0. -/
theorem gain_max_zero :
    get_gain 0 = gain.enlarge 256 ∧
    (∀ s, (get_gain 0).invoke s = 0) ∧
    (∀ (fuel : Nat) (file : List Nat) (img : Image gray_pixel) (ifs1 : IStream) (hd : header),
      line_loop (fun s => s.extract_size_t 0) (fun h tmp => .ok (header.assign h tmp))
          (fun h => h.x_read && h.y_read && h.max_read) fuel fuel (read_magic file).1
          ⟨false, false, false, 0, 0, 0⟩ = some (.ok (ifs1, hd)) →
      hd.max = 0 → read_pgm_ascii fuel file = some (.ok img) → ∀ p ∈ img.pixels, p = ⟨0⟩) ∧
    (∀ (fuel : Nat) (file : List Nat) (img : Image rgb_pixel) (ifs1 : IStream) (hd : header),
      line_loop (fun s => s.extract_size_t 0) (fun h tmp => .ok (header.assign h tmp))
          (fun h => h.x_read && h.y_read && h.max_read) fuel fuel (read_magic file).1
          ⟨false, false, false, 0, 0, 0⟩ = some (.ok (ifs1, hd)) →
      hd.max = 0 → read_ppm_ascii fuel file = some (.ok img) →
      ∀ p ∈ img.pixels, p = ⟨0, 0, 0⟩) ∧
    (∀ (file : List Nat) (img : Image gray_pixel),
      (read_max_line (read_size_line (IStream.ofBytes file).getline.1).1).2.2.2 = 0 →
      read_pgm_binary file = .ok img → ∀ p ∈ img.pixels, p = ⟨0⟩) ∧
    (∀ (file : List Nat) (img : Image rgb_pixel),
      (read_max_line (read_size_line (IStream.ofBytes file).getline.1).1).2.2.2 = 0 →
      read_ppm_binary file = .ok img → ∀ p ∈ img.pixels, p = ⟨0, 0, 0⟩) := by
  refine ⟨rfl, gain_zero_invoke, ?_, ?_, ?_, ?_⟩
  · intro fuel file img ifs1 hd hh hm h
    unfold read_pgm_ascii at h
    simp only at h
    split at h
    · simp at h
    · rw [hh] at h
      simp only at h
      split at h
      · simp at h
      · simp at h
      · rename_i ifs2 st hp
        simp only [Option.some.injEq, Except.ok.injEq] at h
        rw [← h]
        rw [hm] at hp
        exact line_loop_inv _ _ _ _ (fun s : Image gray_pixel × Nat => ∀ p ∈ s.1.pixels, p = ⟨0⟩)
          (fun s v s1 hs hb => pgm_pixel_body_zero _ gain_zero_invoke hd.x hd.y s v s1 hs hb)
          fuel ifs1 _ ifs2 st (mk_sized_default hd.x hd.y) hp
  · intro fuel file img ifs1 hd hh hm h
    unfold read_ppm_ascii at h
    simp only at h
    split at h
    · simp at h
    · rw [hh] at h
      simp only at h
      split at h
      · simp at h
      · simp at h
      · rename_i ifs2 st hp
        simp only [Option.some.injEq, Except.ok.injEq] at h
        rw [← h]
        rw [hm] at hp
        exact (line_loop_inv _ _ _ _
          (fun s : ppm_state => (∀ p ∈ s.img.pixels, p = ⟨0, 0, 0⟩) ∧ s.pixel = ⟨0, 0, 0⟩)
          (fun s v s1 hs hb => ppm_pixel_body_zero _ gain_zero_invoke hd.x hd.y s v s1 hs hb)
          fuel ifs1 _ ifs2 st ⟨mk_sized_default hd.x hd.y, rfl⟩ hp).1
  · intro file img hm h
    unfold read_pgm_binary at h
    split at h
    · simp at h
    · rename_i st hs
      simp only [Except.ok.injEq] at h
      unfold read_pgm_binary_stream at hs
      simp only at hs
      split at hs
      · simp at hs
      · split at hs
        · simp at hs
        · split at hs
          · simp at hs
          · rw [hm] at hs
            rw [← h]
            exact for_loop_inv _ (fun s : Image gray_pixel × IStream => ∀ p ∈ s.1.pixels, p = ⟨0⟩)
              (fun i s s1 hi hb => read_pgm_binary_pixel_zero _ gain_zero_invoke i s s1 hi hb)
              _ 0 _ st (mk_sized_default _ _) hs
  · intro file img hm h
    unfold read_ppm_binary at h
    split at h
    · simp at h
    · rename_i st hs
      simp only [Except.ok.injEq] at h
      unfold read_ppm_binary_stream at hs
      simp only at hs
      split at hs
      · simp at hs
      · split at hs
        · simp at hs
        · split at hs
          · simp at hs
          · rw [hm] at hs
            rw [← h]
            exact for_loop_inv _
              (fun s : Image rgb_pixel × IStream => ∀ p ∈ s.1.pixels, p = ⟨0, 0, 0⟩)
              (fun i s s1 hi hb => read_ppm_binary_pixel_zero _ gain_zero_invoke i s s1 hi hb)
              _ 0 _ st (mk_sized_default _ _) hs

/-- Instance of C35: the file `"P5\n2 1\n0\n"` followed by the bytes 7 and 9. -/
theorem gain_max_zero_witness :
    read_pgm_binary [80, 53, 10, 50, 32, 49, 10, 48, 10, 7, 9] = .ok ⟨2, 1, [⟨0⟩, ⟨0⟩]⟩ ∧
    ∀ p ∈ (⟨2, 1, [⟨0⟩, ⟨0⟩]⟩ : Image gray_pixel).pixels, p = ⟨0⟩ :=
  ⟨by decide,
   gain_max_zero.2.2.2.2.1 [80, 53, 10, 50, 32, 49, 10, 48, 10, 7, 9] ⟨2, 1, [⟨0⟩, ⟨0⟩]⟩
     (by decide) (by decide)⟩

/-! ## The header loop on a text that ends before the header is complete -/

/-- The header stage when the data ends before the `n` values are complete:
the loop reads every line and ends at the end of the data, with the values
read so far. -/
theorem line_loop_header_short {α σ : Type} (extract : IStream → IStream × α)
    (body : σ → α → Except PnmError σ) (value : num_token → α) (good : num_token → Prop)
    (done : σ → Bool) (hgw : ∀ t, good t → t.wf)
    (hext : ∀ sp, (∀ c ∈ sp, isspace c = true) → ∀ t, good t → ∀ rest,
        (∀ c, rest.head? = some c → isspace c = true) →
        extract ⟨sp ++ t.text ++ rest, false, false⟩ = (⟨rest, rest.isEmpty, false⟩, value t))
    (hend : ∀ sp, (∀ c ∈ sp, isspace c = true) →
        (extract ⟨sp, false, false⟩).1 = ⟨[], true, true⟩)
    (of : List α → σ) (n : Nat)
    (hassign : ∀ pre v, body (of pre) v = .ok (of (pre ++ [v])))
    (hdone : ∀ pre, done (of pre) = decide (n ≤ pre.length))
    (tokfuel : Nat) (last : text_line) (hlast : last.wf good)
    (hlf : last.items.length + 2 ≤ tokfuel) (ls : List text_line) :
    (∀ L ∈ ls, L.wf good) → (∀ L ∈ ls, L.items.length + 2 ≤ tokfuel) →
    ∀ (pre : List α) (fuel : Nat), pre.length + (lines_tokens (ls ++ [last])).length < n →
      ls.length + 2 ≤ fuel →
      line_loop extract body done tokfuel fuel
          ⟨lines_bytes ls last.text, false, false⟩ (of pre) =
        some (.ok (⟨[], true, last.text.isEmpty⟩,
          of (pre ++ (lines_tokens (ls ++ [last])).map value))) := by
  induction ls with
  | nil =>
    intro _ _ pre fuel h1 hf
    obtain ⟨f, rfl⟩ : ∃ f, fuel = f + 2 := ⟨fuel - 2, by simp at hf; omega⟩
    have hg := getline_last last.text (text_line.text_no_newline good hgw last hlast)
    have he := text_line.erase_comment_text good hgw last hlast
    have htk : lines_tokens ([] ++ [last]) = last.tokens := by simp [lines_tokens]
    have hb : lines_bytes [] last.text = last.text := by simp [lines_bytes]
    rw [htk] at h1 ⊢
    rw [hb]
    by_cases hce : last.content.isEmpty = true
    · rw [line_loop_skip _ _ _ _ (f + 1) _ _ _ _ rfl hg (by rw [he]; exact hce),
        line_loop_at_eof _ _ _ _ _ _ _ rfl,
        text_line.tokens_of_empty good hgw last hlast hce]
      simp
    · have ht := token_loop_line extract body value good hext hend last hlast tokfuel hlf
        (of pre)
      rw [run_tokens_of body of hassign] at ht
      have hd : done (of (pre ++ last.tokens.map value)) = false := by
        rw [hdone]
        simp only [List.length_append, List.length_map, decide_eq_false_iff_not, not_le]
        omega
      simp [line_loop, IStream.eof, hg, he, hce, ht, hd]
  | cons L ls ih =>
    intro hwf hlen pre fuel h1 hf
    obtain ⟨f, rfl⟩ : ∃ f, fuel = f + 1 := ⟨fuel - 1, by simp at hf; omega⟩
    have hL := hwf L (by simp)
    have hg := getline_line L.text (lines_bytes ls last.text)
      (text_line.text_no_newline good hgw L hL)
    have he := text_line.erase_comment_text good hgw L hL
    have htk : lines_tokens (L :: ls ++ [last]) = L.tokens ++ lines_tokens (ls ++ [last]) := by
      rw [List.cons_append, lines_tokens_cons]
    rw [htk, List.length_append] at h1
    rw [lines_bytes_cons, htk]
    by_cases hce : L.content.isEmpty = true
    · have h0 := text_line.tokens_of_empty good hgw L hL hce
      rw [h0] at h1 ⊢
      rw [line_loop_skip _ _ _ _ f _ _ _ _ rfl hg (by rw [he]; exact hce)]
      exact ih (fun M hM => hwf M (by simp [hM])) (fun M hM => hlen M (by simp [hM])) pre f
        (by simpa using h1) (by simp at hf ⊢; omega)
    · have ht := token_loop_line extract body value good hext hend L hL tokfuel
        (hlen L (by simp)) (of pre)
      rw [run_tokens_of body of hassign] at ht
      have hd : done (of (pre ++ L.tokens.map value)) = false := by
        rw [hdone]
        simp only [List.length_append, List.length_map, decide_eq_false_iff_not, not_le]
        omega
      have : line_loop extract body done tokfuel (f + 1)
          ⟨L.text ++ 10 :: lines_bytes ls last.text, false, false⟩ (of pre) =
          line_loop extract body done tokfuel f
            ⟨lines_bytes ls last.text, false, false⟩ (of (pre ++ L.tokens.map value)) := by
        simp [line_loop, IStream.eof, hg, he, hce, ht, hd]
      rw [this, ih (fun M hM => hwf M (by simp [hM])) (fun M hM => hlen M (by simp [hM]))
        (pre ++ L.tokens.map value) f (by simp; omega) (by simp at hf ⊢; omega)]
      simp [List.append_assoc]

/-- The header loop of `read_pbm_ascii` on a text with fewer than two numbers. -/
theorem size_header_short (ls : List text_line) (last : text_line)
    (hh : ∀ L ∈ ls ++ [last], L.wf num_token.fits_size)
    (hlt : (lines_tokens (ls ++ [last])).length < 2) (fuel : Nat)
    (hf : (lines_bytes ls last.text).length + 2 ≤ fuel) :
    line_loop (fun s => s.extract_size_t 0) (fun h tmp => .ok (size_header.assign h tmp))
        (fun h => h.x_read && h.y_read) fuel fuel
        ⟨lines_bytes ls last.text, false, false⟩ ⟨false, false, 0, 0⟩ =
      some (.ok (⟨[], true, last.text.isEmpty⟩,
        size_header.of_values ((lines_tokens (ls ++ [last])).map num_token.size_value))) := by
  have hb := header_budget num_token.fits_size (fun t ht => ht.1) ls last hh fuel hf
  have hH := line_loop_header_short (fun s => s.extract_size_t 0)
    (fun h tmp => .ok (size_header.assign h tmp)) num_token.size_value num_token.fits_size
    (fun h => h.x_read && h.y_read) (fun t ht => ht.1)
    (fun sp hsp t ht rest hrest => extract_size_t_token sp hsp t ht rest hrest 0)
    extract_size_t_end size_header.of_values 2
    (fun pre v => congrArg Except.ok (size_header_assign_of_values pre v))
    size_header_done_of_values fuel last (hh last (by simp)) (hb.1 last (by simp))
    ls (fun L hL => hh L (by simp [hL]))
    (fun L hL => hb.1 L (by simp [hL])) [] fuel (by simpa using hlt) hb.2
  have hinit : (⟨false, false, 0, 0⟩ : size_header) = size_header.of_values [] := rfl
  rw [hinit, hH]
  simp

/-- The header loop of `read_pgm_ascii` and `read_ppm_ascii` on a text with
fewer than three numbers. -/
theorem header_short (ls : List text_line) (last : text_line)
    (hh : ∀ L ∈ ls ++ [last], L.wf num_token.fits_size)
    (hlt : (lines_tokens (ls ++ [last])).length < 3) (fuel : Nat)
    (hf : (lines_bytes ls last.text).length + 2 ≤ fuel) :
    line_loop (fun s => s.extract_size_t 0) (fun h tmp => .ok (header.assign h tmp))
        (fun h => h.x_read && h.y_read && h.max_read) fuel fuel
        ⟨lines_bytes ls last.text, false, false⟩ ⟨false, false, false, 0, 0, 0⟩ =
      some (.ok (⟨[], true, last.text.isEmpty⟩,
        header.of_values ((lines_tokens (ls ++ [last])).map num_token.size_value))) := by
  have hb := header_budget num_token.fits_size (fun t ht => ht.1) ls last hh fuel hf
  have hH := line_loop_header_short (fun s => s.extract_size_t 0)
    (fun h tmp => .ok (header.assign h tmp)) num_token.size_value num_token.fits_size
    (fun h => h.x_read && h.y_read && h.max_read) (fun t ht => ht.1)
    (fun sp hsp t ht rest hrest => extract_size_t_token sp hsp t ht rest hrest 0)
    extract_size_t_end header.of_values 3
    (fun pre v => congrArg Except.ok (header_assign_of_values pre v))
    header_done_of_values fuel last (hh last (by simp)) (hb.1 last (by simp))
    ls (fun L hL => hh L (by simp [hL]))
    (fun L hL => hb.1 L (by simp [hL])) [] fuel (by simpa using hlt) hb.2
  have hinit : (⟨false, false, false, 0, 0, 0⟩ : header) = header.of_values [] := rfl
  rw [hinit, hH]
  simp

theorem size_header_of_short (vs : List Nat) (h : vs.length < 2) :
    size_header.of_values vs = ⟨decide (0 < vs.length), false, vs.getD 0 0, 0⟩ := by
  rcases vs with _ | ⟨a, _ | ⟨b, l⟩⟩
  · rfl
  · rfl
  · simp only [List.length_cons] at h; omega

theorem header_of_short (vs : List Nat) (h : vs.length < 3) :
    header.of_values vs =
      ⟨decide (0 < vs.length), decide (1 < vs.length), false, vs.getD 0 0, vs.getD 1 0, 0⟩ := by
  rcases vs with _ | ⟨a, _ | ⟨b, _ | ⟨c, l⟩⟩⟩
  · rfl
  · rfl
  · rfl
  · simp only [List.length_cons] at h; omega

theorem mk_sized_zero_height {P : Type} [Inhabited P] (x : Nat) :
    (Image.mk_sized x 0 : Image P) = ⟨x, 0, []⟩ := by
  simp [Image.mk_sized]

/-! ## PPM ASCII: complete triples in the pixel loop -/

/-- The construction of the buffer succeeds when the allocator grants the count. -/
theorem vector_sized_of_grants {P : Type} [Inhabited P] (A : Allocator) (n : Nat)
    (hg : A.grants n = true) :
    (vector_sized A n : Except AllocError (List P)) = .ok (List.replicate n default) := by
  simp only [Allocator.grants, Bool.and_eq_true, decide_eq_true_eq, Bool.or_eq_true,
    beq_iff_eq] at hg
  have h1 : ¬ A.max_size < n := by omega
  unfold vector_sized
  rw [if_neg h1]
  rcases hg.2 with h0 | h0
  · simp [h0]
  · simp [h0]

/-- The construction of the buffer throws when the allocator does not grant
the count: `std::length_error` above `max_size()`, `std::bad_alloc` otherwise. -/
theorem vector_sized_of_not_grants {P : Type} [Inhabited P] (A : Allocator) (n : Nat)
    (hg : A.grants n = false) :
    (A.max_size < n →
      (vector_sized A n : Except AllocError (List P)) = .error (.length_error n)) ∧
    (n ≤ A.max_size →
      (vector_sized A n : Except AllocError (List P)) = .error (.bad_alloc n)) := by
  constructor
  · intro h1
    unfold vector_sized
    rw [if_pos h1]
  · intro h1
    have h2 : ¬ A.max_size < n := by omega
    simp only [Allocator.grants, Bool.and_eq_false_iff, decide_eq_false_iff_not,
      Bool.or_eq_false_iff, beq_eq_false_iff_ne] at hg
    rcases hg with hg | hg
    · omega
    · unfold vector_sized
      rw [if_neg h2]
      simp [hg.1, hg.2]

/-- The constructor succeeds when the allocator grants the count, and then
builds the image `Image.mk_sized`. -/
theorem construct_of_grants {P : Type} [Inhabited P] (A : Allocator) (w h : Nat)
    (hg : A.grants ((w * h) % 2 ^ 64) = true) :
    (Image.construct A w h : Except AllocError (Image P)) = .ok (Image.mk_sized w h) := by
  unfold Image.construct Image.mk_sized
  rw [vector_sized_of_grants A _ hg]

/-- The constructor throws when the allocator does not grant the count:
`std::length_error` above `max_size()`, `std::bad_alloc` otherwise. -/
theorem construct_of_not_grants {P : Type} [Inhabited P] (A : Allocator) (w h : Nat)
    (hg : A.grants ((w * h) % 2 ^ 64) = false) :
    (A.max_size < (w * h) % 2 ^ 64 →
      (Image.construct A w h : Except AllocError (Image P)) =
        .error (.length_error ((w * h) % 2 ^ 64))) ∧
    ((w * h) % 2 ^ 64 ≤ A.max_size →
      (Image.construct A w h : Except AllocError (Image P)) =
        .error (.bad_alloc ((w * h) % 2 ^ 64))) := by
  have h1 := vector_sized_of_not_grants (P := P) A _ hg
  constructor
  · intro h2
    unfold Image.construct
    rw [h1.1 h2]
  · intro h2
    unfold Image.construct
    rw [h1.2 h2]

/-- No storage is requested for an image without pixels: the constructor
succeeds with every allocator. -/
theorem construct_zero_height {P : Type} [Inhabited P] (A : Allocator) (x : Nat) :
    (Image.construct A x 0 : Except AllocError (Image P)) = .ok ⟨x, 0, []⟩ := by
  rw [construct_of_grants A x 0 (by simp [Allocator.grants]), mk_sized_zero_height]

/-- The construction succeeds for a count below `2^64` that the allocator grants. -/
theorem construct_granted {P : Type} [Inhabited P] (A : Allocator) (w h : Nat)
    (hwh : w * h < 2 ^ 64) (hg : A.grants (w * h) = true) :
    (Image.construct A w h : Except AllocError (Image P)) =
      .ok ⟨w, h, List.replicate (w * h) default⟩ := by
  rw [construct_of_grants A w h (by rw [Nat.mod_eq_of_lt hwh]; exact hg), Image.mk_sized,
    Nat.mod_eq_of_lt hwh]

/-- C27 (sized construction), where the claim fails, with the default
allocator for one-byte pixels and `2^64` bytes of memory: for width `2^32`
and height `2^32` the `size_t` product `width * height` wraps to 0, so
`image(w, h)` is built with `width() = 2^32`, `height() = 2^32` and
`size() = 0`, which is not `w * h`; for width `2^63` and height 1 the count
exceeds `max_size()` and the constructor throws `std::length_error`, so
there is no image. -/
theorem sized_construction_wraps :
    (Image.construct (std_allocator 1 (2 ^ 64)) (2 ^ 32) (2 ^ 32) :
        Except AllocError (Image gray_pixel)) = .ok ⟨2 ^ 32, 2 ^ 32, []⟩ ∧
    Image.width (⟨2 ^ 32, 2 ^ 32, []⟩ : Image gray_pixel) = 2 ^ 32 ∧
    Image.height (⟨2 ^ 32, 2 ^ 32, []⟩ : Image gray_pixel) = 2 ^ 32 ∧
    Image.size (⟨2 ^ 32, 2 ^ 32, []⟩ : Image gray_pixel) = 0 ∧
    Image.size (⟨2 ^ 32, 2 ^ 32, []⟩ : Image gray_pixel) ≠ 2 ^ 32 * 2 ^ 32 ∧
    (Image.construct (std_allocator 1 (2 ^ 64)) (2 ^ 63) 1 :
        Except AllocError (Image gray_pixel)) = .error (.length_error (2 ^ 63)) := by
  decide

/-- C27 (sized construction), amended: for every allocator, every width `w`
and height `h` whose product is below `2^64`: when the construction of the
buffer does not throw (the count `w * h` is at most `max_size()` and is 0 or
granted by the allocator), `image(w, h)` has `width() = w`, `height() = h`,
`size() = w * h` and a buffer of `w * h` pixels that are all the default
value, empty when `w * h = 0`; otherwise the constructor throws
`std::length_error` (count above `max_size()`) or `std::bad_alloc`.  The
default value is `false` for bit pixels, `0` for gray pixels and `(0, 0, 0)`
for RGB pixels. -/
theorem sized_construction {P : Type} [Inhabited P] (A : Allocator) (w h : Nat)
    (hwh : w * h < 2 ^ 64) :
    (A.grants (w * h) = true →
      (Image.construct A w h : Except AllocError (Image P)) =
        .ok ⟨w, h, List.replicate (w * h) default⟩ ∧
      ∀ img : Image P, Image.construct A w h = .ok img →
        img.width = w ∧ img.height = h ∧ img.size = w * h ∧
        (∀ p ∈ img.pixels, p = default) ∧ (w * h = 0 → img.pixels = [])) ∧
    (A.grants (w * h) = false →
      (A.max_size < w * h →
        (Image.construct A w h : Except AllocError (Image P)) =
          .error (.length_error (w * h))) ∧
      (w * h ≤ A.max_size →
        (Image.construct A w h : Except AllocError (Image P)) =
          .error (.bad_alloc (w * h)))) ∧
    ((default : bit_pixel) = ⟨false⟩ ∧ (default : gray_pixel) = ⟨0⟩ ∧
      (default : rgb_pixel) = ⟨0, 0, 0⟩) := by
  refine ⟨?_, ?_, rfl, rfl, rfl⟩
  · intro hg
    have hc := construct_granted (P := P) A w h hwh hg
    refine ⟨hc, ?_⟩
    intro img himg
    rw [hc] at himg
    have e := (Except.ok.inj himg).symm
    subst e
    refine ⟨rfl, rfl, by simp [Image.size], ?_, ?_⟩
    · intro p hp
      exact List.eq_of_mem_replicate hp
    · intro h0
      simp [h0]
  · intro hg
    have h1 := construct_of_not_grants (P := P) A w h
      (by rw [Nat.mod_eq_of_lt hwh]; exact hg)
    rw [Nat.mod_eq_of_lt hwh] at h1
    exact h1

/-- Instance of the amended C27: `image(3, 2)` of RGB pixels with the default
allocator and 1000 bytes of memory. -/
theorem sized_construction_witness :
    3 * 2 < 2 ^ 64 ∧ (std_allocator 3 1000).grants (3 * 2) = true ∧
    (Image.construct (std_allocator 3 1000) 3 2 : Except AllocError (Image rgb_pixel)) =
      .ok ⟨3, 2, List.replicate (3 * 2) ⟨0, 0, 0⟩⟩ :=
  ⟨by norm_num, by decide,
   ((sized_construction (std_allocator 3 1000) 3 2 (by norm_num)).1 (by decide)).1⟩

/-! ## Under-supplied pixel data and the line after the header (C23, C24) -/

set_option maxRecDepth 100000 in
/-- C37 (truncated ASCII header), where the claim fails, with the default
allocator for one-byte pixels and `2^64` bytes of memory: the file
`"P2\n9223372036854775808 1"` ends after the width and the height, before the
maximum; the header loop ends without error with `max = 0`, and the
construction of the `2^63 x 1` image throws `std::length_error`, so decoding
fails. -/
theorem truncated_header_construction_throws :
    read_pgm_ascii_alloc (std_allocator 1 (2 ^ 64)) 24
        [80, 50, 10, 57, 50, 50, 51, 51, 55, 50, 48, 51, 54, 56, 53, 52, 55, 55, 53, 56, 48,
          56, 32, 49] =
      some (.error (.alloc (.length_error 9223372036854775808))) ∧
    line_loop (fun s => s.extract_size_t 0) (fun h tmp => .ok (header.assign h tmp))
        (fun h => h.x_read && h.y_read && h.max_read) 24 24
        (read_magic [80, 50, 10, 57, 50, 50, 51, 51, 55, 50, 48, 51, 54, 56, 53, 52, 55, 55,
          53, 56, 48, 56, 32, 49]).1 ⟨false, false, false, 0, 0, 0⟩ =
      some (.ok (⟨[], true, false⟩, ⟨true, true, false, 9223372036854775808, 1, 0⟩)) := by
  decide

/-- C37 (truncated ASCII header), amended: for each ASCII decoder, every
allocator and every plain-format file that ends before all the header numbers
are read (fewer than two for PBM, fewer than three for PGM and PPM), for
every loop budget that is at least the length of the file, the header loop
ends without error and a number that is missing is taken as 0.  For PBM
decoding succeeds: the image has the width read (0 if none), the height 0
and no pixel.  For PGM and PPM the header loop ends with `max = 0`, for which
the gain is selected; the decoder constructs the image of the width and the
height read (0 if missing) and returns it, or throws what that construction
throws: decoding succeeds when the height is missing (the image has no pixel)
and when the construction of the image does not throw.  The file `"P2\n3\n"`
decodes to the image of width 3, height 0 and no pixel. -/
theorem truncated_header :
    (∀ (A : Allocator) (ls : List text_line) (last : text_line) (fuel : Nat),
      (∀ L ∈ ls ++ [last], L.wf num_token.fits_size) →
      (lines_tokens (ls ++ [last])).length < 2 →
      (80 :: 49 :: lines_bytes ls last.text).length ≤ fuel →
      read_pbm_ascii_alloc A fuel (80 :: 49 :: lines_bytes ls last.text) =
        some (.ok ⟨((lines_tokens (ls ++ [last])).map num_token.size_value).getD 0 0, 0, []⟩)) ∧
    (∀ (A : Allocator) (ls : List text_line) (last : text_line) (fuel : Nat),
      (∀ L ∈ ls ++ [last], L.wf num_token.fits_size) →
      (lines_tokens (ls ++ [last])).length < 3 →
      (80 :: 50 :: lines_bytes ls last.text).length ≤ fuel →
      (∃ s x_read y_read, line_loop (fun s => s.extract_size_t 0)
          (fun h tmp => .ok (header.assign h tmp))
          (fun h => h.x_read && h.y_read && h.max_read) fuel fuel
          (read_magic (80 :: 50 :: lines_bytes ls last.text)).1
          ⟨false, false, false, 0, 0, 0⟩ =
        some (.ok (s, ⟨x_read, y_read, false,
          ((lines_tokens (ls ++ [last])).map num_token.size_value).getD 0 0,
          ((lines_tokens (ls ++ [last])).map num_token.size_value).getD 1 0, 0⟩))) ∧
      read_pgm_ascii_alloc A fuel (80 :: 50 :: lines_bytes ls last.text) =
        (match (Image.construct A
            (((lines_tokens (ls ++ [last])).map num_token.size_value).getD 0 0)
            (((lines_tokens (ls ++ [last])).map num_token.size_value).getD 1 0) :
            Except AllocError (Image gray_pixel)) with
          | .error a => some (.error (.alloc a))
          | .ok img => some (.ok img)) ∧
      (A.grants ((((lines_tokens (ls ++ [last])).map num_token.size_value).getD 0 0 *
          ((lines_tokens (ls ++ [last])).map num_token.size_value).getD 1 0) % 2 ^ 64) = true →
        read_pgm_ascii_alloc A fuel (80 :: 50 :: lines_bytes ls last.text) =
          some (.ok (Image.mk_sized
            (((lines_tokens (ls ++ [last])).map num_token.size_value).getD 0 0)
            (((lines_tokens (ls ++ [last])).map num_token.size_value).getD 1 0)))) ∧
      ((lines_tokens (ls ++ [last])).length < 2 →
        read_pgm_ascii_alloc A fuel (80 :: 50 :: lines_bytes ls last.text) =
          some (.ok ⟨((lines_tokens (ls ++ [last])).map num_token.size_value).getD 0 0,
            0, []⟩))) ∧
    (∀ (A : Allocator) (ls : List text_line) (last : text_line) (fuel : Nat),
      (∀ L ∈ ls ++ [last], L.wf num_token.fits_size) →
      (lines_tokens (ls ++ [last])).length < 3 →
      (80 :: 51 :: lines_bytes ls last.text).length ≤ fuel →
      (∃ s x_read y_read, line_loop (fun s => s.extract_size_t 0)
          (fun h tmp => .ok (header.assign h tmp))
          (fun h => h.x_read && h.y_read && h.max_read) fuel fuel
          (read_magic (80 :: 51 :: lines_bytes ls last.text)).1
          ⟨false, false, false, 0, 0, 0⟩ =
        some (.ok (s, ⟨x_read, y_read, false,
          ((lines_tokens (ls ++ [last])).map num_token.size_value).getD 0 0,
          ((lines_tokens (ls ++ [last])).map num_token.size_value).getD 1 0, 0⟩))) ∧
      read_ppm_ascii_alloc A fuel (80 :: 51 :: lines_bytes ls last.text) =
        (match (Image.construct A
            (((lines_tokens (ls ++ [last])).map num_token.size_value).getD 0 0)
            (((lines_tokens (ls ++ [last])).map num_token.size_value).getD 1 0) :
            Except AllocError (Image rgb_pixel)) with
          | .error a => some (.error (.alloc a))
          | .ok img => some (.ok img)) ∧
      (A.grants ((((lines_tokens (ls ++ [last])).map num_token.size_value).getD 0 0 *
          ((lines_tokens (ls ++ [last])).map num_token.size_value).getD 1 0) % 2 ^ 64) = true →
        read_ppm_ascii_alloc A fuel (80 :: 51 :: lines_bytes ls last.text) =
          some (.ok (Image.mk_sized
            (((lines_tokens (ls ++ [last])).map num_token.size_value).getD 0 0)
            (((lines_tokens (ls ++ [last])).map num_token.size_value).getD 1 0)))) ∧
      ((lines_tokens (ls ++ [last])).length < 2 →
        read_ppm_ascii_alloc A fuel (80 :: 51 :: lines_bytes ls last.text) =
          some (.ok ⟨((lines_tokens (ls ++ [last])).map num_token.size_value).getD 0 0,
            0, []⟩))) ∧
    (∀ (A : Allocator) (fuel : Nat), 5 ≤ fuel →
      read_pgm_ascii_alloc A fuel [80, 50, 10, 51, 10] = some (.ok ⟨3, 0, []⟩)) := by
  have hpgm : ∀ (A : Allocator) (ls : List text_line) (last : text_line) (fuel : Nat),
      (∀ L ∈ ls ++ [last], L.wf num_token.fits_size) →
      (lines_tokens (ls ++ [last])).length < 3 →
      (80 :: 50 :: lines_bytes ls last.text).length ≤ fuel →
      (∃ s x_read y_read, line_loop (fun s => s.extract_size_t 0)
          (fun h tmp => .ok (header.assign h tmp))
          (fun h => h.x_read && h.y_read && h.max_read) fuel fuel
          (read_magic (80 :: 50 :: lines_bytes ls last.text)).1
          ⟨false, false, false, 0, 0, 0⟩ =
        some (.ok (s, ⟨x_read, y_read, false,
          ((lines_tokens (ls ++ [last])).map num_token.size_value).getD 0 0,
          ((lines_tokens (ls ++ [last])).map num_token.size_value).getD 1 0, 0⟩))) ∧
      read_pgm_ascii_alloc A fuel (80 :: 50 :: lines_bytes ls last.text) =
        (match (Image.construct A
            (((lines_tokens (ls ++ [last])).map num_token.size_value).getD 0 0)
            (((lines_tokens (ls ++ [last])).map num_token.size_value).getD 1 0) :
            Except AllocError (Image gray_pixel)) with
          | .error a => some (.error (.alloc a))
          | .ok img => some (.ok img)) ∧
      (A.grants ((((lines_tokens (ls ++ [last])).map num_token.size_value).getD 0 0 *
          ((lines_tokens (ls ++ [last])).map num_token.size_value).getD 1 0) % 2 ^ 64) = true →
        read_pgm_ascii_alloc A fuel (80 :: 50 :: lines_bytes ls last.text) =
          some (.ok (Image.mk_sized
            (((lines_tokens (ls ++ [last])).map num_token.size_value).getD 0 0)
            (((lines_tokens (ls ++ [last])).map num_token.size_value).getD 1 0)))) ∧
      ((lines_tokens (ls ++ [last])).length < 2 →
        read_pgm_ascii_alloc A fuel (80 :: 50 :: lines_bytes ls last.text) =
          some (.ok ⟨((lines_tokens (ls ++ [last])).map num_token.size_value).getD 0 0,
            0, []⟩)) := by
    intro A ls last fuel hh hlt hf
    have hf1 : (lines_bytes ls last.text).length + 2 ≤ fuel := by simpa using hf
    have hH := header_short ls last hh hlt fuel hf1
    rw [header_of_short _ (by simpa using hlt)] at hH
    have hR : read_pgm_ascii_alloc A fuel (80 :: 50 :: lines_bytes ls last.text) =
        (match (Image.construct A
            (((lines_tokens (ls ++ [last])).map num_token.size_value).getD 0 0)
            (((lines_tokens (ls ++ [last])).map num_token.size_value).getD 1 0) :
            Except AllocError (Image gray_pixel)) with
          | .error a => some (.error (.alloc a))
          | .ok img => some (.ok img)) := by
      obtain ⟨f, rfl⟩ : ∃ f, fuel = f + 1 := ⟨fuel - 1, by omega⟩
      unfold read_pgm_ascii_alloc
      rw [read_magic_cons]
      simp only [beq_self_eq_true, Bool.and_self, Bool.not_true, Bool.false_eq_true, if_false]
      rw [hH]
      simp only
      cases (Image.construct A
          (((lines_tokens (ls ++ [last])).map num_token.size_value).getD 0 0)
          (((lines_tokens (ls ++ [last])).map num_token.size_value).getD 1 0) :
          Except AllocError (Image gray_pixel)) with
      | error a => rfl
      | ok img =>
        simp only
        rw [line_loop_at_eof _ _ _ _ _ _ _ rfl]
    refine ⟨⟨_, _, _, by rw [read_magic_cons]; exact hH⟩, hR, ?_, ?_⟩
    · intro hg
      rw [hR, construct_of_grants A _ _ hg]
    · intro h2
      have : ((lines_tokens (ls ++ [last])).map num_token.size_value).getD 1 0 = 0 := by
        apply List.getD_eq_default
        simp only [List.length_map]
        omega
      rw [hR, this, construct_zero_height]
  have hppm : ∀ (A : Allocator) (ls : List text_line) (last : text_line) (fuel : Nat),
      (∀ L ∈ ls ++ [last], L.wf num_token.fits_size) →
      (lines_tokens (ls ++ [last])).length < 3 →
      (80 :: 51 :: lines_bytes ls last.text).length ≤ fuel →
      (∃ s x_read y_read, line_loop (fun s => s.extract_size_t 0)
          (fun h tmp => .ok (header.assign h tmp))
          (fun h => h.x_read && h.y_read && h.max_read) fuel fuel
          (read_magic (80 :: 51 :: lines_bytes ls last.text)).1
          ⟨false, false, false, 0, 0, 0⟩ =
        some (.ok (s, ⟨x_read, y_read, false,
          ((lines_tokens (ls ++ [last])).map num_token.size_value).getD 0 0,
          ((lines_tokens (ls ++ [last])).map num_token.size_value).getD 1 0, 0⟩))) ∧
      read_ppm_ascii_alloc A fuel (80 :: 51 :: lines_bytes ls last.text) =
        (match (Image.construct A
            (((lines_tokens (ls ++ [last])).map num_token.size_value).getD 0 0)
            (((lines_tokens (ls ++ [last])).map num_token.size_value).getD 1 0) :
            Except AllocError (Image rgb_pixel)) with
          | .error a => some (.error (.alloc a))
          | .ok img => some (.ok img)) ∧
      (A.grants ((((lines_tokens (ls ++ [last])).map num_token.size_value).getD 0 0 *
          ((lines_tokens (ls ++ [last])).map num_token.size_value).getD 1 0) % 2 ^ 64) = true →
        read_ppm_ascii_alloc A fuel (80 :: 51 :: lines_bytes ls last.text) =
          some (.ok (Image.mk_sized
            (((lines_tokens (ls ++ [last])).map num_token.size_value).getD 0 0)
            (((lines_tokens (ls ++ [last])).map num_token.size_value).getD 1 0)))) ∧
      ((lines_tokens (ls ++ [last])).length < 2 →
        read_ppm_ascii_alloc A fuel (80 :: 51 :: lines_bytes ls last.text) =
          some (.ok ⟨((lines_tokens (ls ++ [last])).map num_token.size_value).getD 0 0,
            0, []⟩)) := by
    intro A ls last fuel hh hlt hf
    have hf1 : (lines_bytes ls last.text).length + 2 ≤ fuel := by simpa using hf
    have hH := header_short ls last hh hlt fuel hf1
    rw [header_of_short _ (by simpa using hlt)] at hH
    have hR : read_ppm_ascii_alloc A fuel (80 :: 51 :: lines_bytes ls last.text) =
        (match (Image.construct A
            (((lines_tokens (ls ++ [last])).map num_token.size_value).getD 0 0)
            (((lines_tokens (ls ++ [last])).map num_token.size_value).getD 1 0) :
            Except AllocError (Image rgb_pixel)) with
          | .error a => some (.error (.alloc a))
          | .ok img => some (.ok img)) := by
      obtain ⟨f, rfl⟩ : ∃ f, fuel = f + 1 := ⟨fuel - 1, by omega⟩
      unfold read_ppm_ascii_alloc
      rw [read_magic_cons]
      simp only [beq_self_eq_true, Bool.and_self, Bool.not_true, Bool.false_eq_true, if_false]
      rw [hH]
      simp only
      cases (Image.construct A
          (((lines_tokens (ls ++ [last])).map num_token.size_value).getD 0 0)
          (((lines_tokens (ls ++ [last])).map num_token.size_value).getD 1 0) :
          Except AllocError (Image rgb_pixel)) with
      | error a => rfl
      | ok img =>
        simp only
        rw [line_loop_at_eof _ _ _ _ _ _ _ rfl]
    refine ⟨⟨_, _, _, by rw [read_magic_cons]; exact hH⟩, hR, ?_, ?_⟩
    · intro hg
      rw [hR, construct_of_grants A _ _ hg]
    · intro h2
      have : ((lines_tokens (ls ++ [last])).map num_token.size_value).getD 1 0 = 0 := by
        apply List.getD_eq_default
        simp only [List.length_map]
        omega
      rw [hR, this, construct_zero_height]
  refine ⟨?_, hpgm, hppm, ?_⟩
  · intro A ls last fuel hh hlt hf
    have hf1 : (lines_bytes ls last.text).length + 2 ≤ fuel := by simpa using hf
    have hH := size_header_short ls last hh hlt fuel hf1
    rw [size_header_of_short _ (by simpa using hlt)] at hH
    obtain ⟨f, rfl⟩ : ∃ f, fuel = f + 1 := ⟨fuel - 1, by omega⟩
    unfold read_pbm_ascii_alloc
    rw [read_magic_cons]
    simp only [beq_self_eq_true, Bool.and_self, Bool.not_true, Bool.false_eq_true, if_false]
    rw [hH]
    simp only
    rw [construct_zero_height]
    simp only
    rw [line_loop_at_eof _ _ _ _ _ _ _ rfl]
  · intro A fuel hf
    exact (hpgm A [⟨[], [], none⟩, ⟨[], [(⟨[], [51]⟩, [])], none⟩] ⟨[], [], none⟩ fuel
      (by decide) (by decide) hf).2.2.2 (by decide)

/-- Instance of the amended C37: the file `"P2\n3\n"`, where the height and
the maximum are missing, with the default allocator and no memory left. -/
theorem truncated_header_witness :
    (80 :: 50 :: lines_bytes [⟨[], [], none⟩, ⟨[], [(⟨[], [51]⟩, [])], none⟩]
        (text_line.text ⟨[], [], none⟩)) = [80, 50, 10, 51, 10] ∧
    read_pgm_ascii_alloc (std_allocator 1 0) 5 [80, 50, 10, 51, 10] = some (.ok ⟨3, 0, []⟩) :=
  ⟨by decide,
   ((truncated_header.2.1 (std_allocator 1 0)
      [⟨[], [], none⟩, ⟨[], [(⟨[], [51]⟩, [])], none⟩] ⟨[], [], none⟩ 5
      (by decide) (by decide) (by decide)).2.2.2) (by decide)⟩

end Pnm
